import Mathlib

/-!
crackserver and crackclient (src/a4), with the guess checks of uqwordiply (src/a1)
and the job description of testuqwordiply (src/a3): a shallow embedding

* C strings are lists of characters (the bytes before the terminating NUL).
* The `uint32_t` statistics counters are natural numbers reduced modulo `2 ^ 32`
  at every update.
* The hash primitive `crypt_r` is external; it is the parameter `H word salt` of
  every definition that calls it.
* `split_by_char` (course library) is modelled; the theorems on `process_command`
  take the fields of the line through a hypothesis on its result.
* The threads of one crack request run interleaved.  A `crack_thread` is a small
  state machine (`crack_thread_step`) whose steps each make at most one access
  to the shared flag `found`: the loop test reads it, the loop body may write it.
  A schedule is a list of thread indices, each entry letting that thread take
  its next step; what is left to run when the schedule ends runs at the joins,
  in join order.  Every complete interleaving is the run of some schedule, and
  the theorems on `crack_call` hold for every schedule.
* The listener and the sessions are steps on a `ServerState` (`server_step`); the
  code that touches the statistics semaphore is a list of statements per
  function, run by `stats_machine_step`.
* `namespace CrackClient` holds the client (`src/a4/crackclient.c`).  The server's
  answers reach the client as a list of characters, read by `fgets`.
* A start-up function either returns a value or ends the process with an exit
  status (`Startup`).
* `namespace UqWordiply` holds `valid_guess` and the functions it calls,
  `namespace TestUqWordiply` the buffer of `run_uqcmp`.
-/

namespace CrackServer

/-- A C string: the characters before the terminating NUL. -/
abbrev CString := List Char

/-- The hash primitive `crypt_r(word, salt, &data)`, external to the program. -/
abbrev Hash := CString → CString → CString

def MAX_WORD_LENGTH : Nat := 8
def MAX_FIELDS : Nat := 3
def CIPHER_LENGTH : Nat := 13
def SALT_LENGTH : Nat := 2
def MIN_THREADS : Int := 1
def MAX_THREADS : Int := 50
def ASCII_MIN : Nat := 46
def ASCII_MAX : Nat := 57

def FAILED : CString := ":failed".toList
def INVALID : CString := ":invalid".toList

/-- Wrap-around of `uint32_t` arithmetic. -/
def UINT32_MOD : Nat := 2 ^ 32

/-- The `Statistics` struct (the semaphore guarding it is not modelled). -/
structure Statistics where
  numConnected : Nat
  numCompleted : Nat
  cracks : Nat
  failedCracks : Nat
  successCracks : Nat
  crypts : Nat
  cryptCalls : Nat
  deriving DecidableEq

/-- The `Dictionary` struct: `numWords` is the length of `words`. -/
abbrev Dictionary := List CString

def stats_add_connection (stats : Statistics) : Statistics :=
  { stats with numConnected := (stats.numConnected + 1) % UINT32_MOD }

def stats_complete_connection (stats : Statistics) : Statistics :=
  { stats with
    numConnected := (stats.numConnected + (UINT32_MOD - 1)) % UINT32_MOD
    numCompleted := (stats.numCompleted + 1) % UINT32_MOD }

def stats_add_crack_request (stats : Statistics) : Statistics :=
  { stats with cracks := (stats.cracks + 1) % UINT32_MOD }

def stats_add_crypt_request (stats : Statistics) : Statistics :=
  { stats with crypts := (stats.crypts + 1) % UINT32_MOD }

def stats_add_crypt_call (stats : Statistics) (num : Nat) : Statistics :=
  { stats with cryptCalls := (stats.cryptCalls + num) % UINT32_MOD }

def stats_add_crack_request_pass (stats : Statistics) : Statistics :=
  { stats with successCracks := (stats.successCracks + 1) % UINT32_MOD }

def stats_add_crack_request_fail (stats : Statistics) : Statistics :=
  { stats with failedCracks := (stats.failedCracks + 1) % UINT32_MOD }

/-- The C library `isalpha` in the "C" locale. -/
def isalpha (c : Char) : Bool :=
  (65 ≤ c.toNat && c.toNat ≤ 90) || (97 ≤ c.toNat && c.toNat ≤ 122)

/-- The C library `isspace` in the "C" locale. -/
def isspace (c : Char) : Bool :=
  c.toNat = 32 || (9 ≤ c.toNat && c.toNat ≤ 13)

/-- The C library `isdigit`. -/
def isdigit (c : Char) : Bool :=
  48 ≤ c.toNat && c.toNat ≤ 57

def valid_salt_character (salt : Char) : Bool :=
  isalpha salt || (ASCII_MIN ≤ salt.toNat && salt.toNat ≤ ASCII_MAX)

/-- The character `s[i]` of a C string; index `strlen s` reads the NUL. -/
def charAt (s : CString) (i : Nat) : Char :=
  s.getD i (Char.ofNat 0)

/-- The `for` loop of `valid_salt`, from index `i` with `fuel` rounds left. -/
def valid_salt_loop (salt : CString) : Nat → Nat → Bool
  | 0, _ => true
  | fuel + 1, i =>
    if !valid_salt_character (charAt salt i) then false
    else valid_salt_loop salt fuel (i + 1)

def valid_salt (salt : CString) : Bool :=
  if salt.length ≠ SALT_LENGTH then false
  else valid_salt_loop salt SALT_LENGTH 0

/-- The digits consumed by `strtol` in base 10, accumulated from `acc`. -/
def strtol_digits : CString → Nat → Nat
  | [], acc => acc
  | c :: cs, acc => if isdigit c then strtol_digits cs (acc * 10 + (c.toNat - 48)) else acc

/-- Leading white space is skipped by `strtol`. -/
def skip_space : CString → CString
  | [] => []
  | c :: cs => if isspace c then skip_space cs else c :: cs

/-- The value of `strtol(s, NULL, 10)`: optional sign, digits, clamped to `long`. -/
def strtol (s : CString) : Int :=
  match skip_space s with
  | [] => 0
  | c :: cs =>
    if c = Char.ofNat 45 then max (-(strtol_digits cs 0 : Int)) (-(2 ^ 63 : Int))
    else if c = Char.ofNat 43 then min (strtol_digits cs 0 : Int) (2 ^ 63 - 1)
    else min (strtol_digits (c :: cs) 0 : Int) (2 ^ 63 - 1)

/-- The C library `atoi`: `(int) strtol(s, NULL, 10)`. -/
def atoi (s : CString) : Int :=
  (strtol s + 2 ^ 31) % 2 ^ 32 - 2 ^ 31

def valid_thread_num (numThreads : CString) : Bool :=
  let num := atoi numThreads
  if num < MIN_THREADS || num > MAX_THREADS then false
  else if numThreads.length > 2 then false
  else true

/-- Modelled from the spec: `split_by_char` belongs to the course library
`csse2310a4`, which is not part of the sources.  The line is cut at each
occurrence of `split` until `maxFields` fields exist (no limit when `maxFields`
is 0); the last field keeps the remainder of the line.  `n` counts the fields
already closed and `cur` holds the current field in reverse. -/
def split_by_char_aux (split : Char) (maxFields : Nat) : Nat → CString → CString → List CString
  | _, cur, [] => [cur.reverse]
  | n, cur, c :: cs =>
    if c = split ∧ (maxFields = 0 ∨ n + 1 < maxFields) then
      cur.reverse :: split_by_char_aux split maxFields (n + 1) [] cs
    else split_by_char_aux split maxFields n (c :: cur) cs

/-- Modelled from the spec: the fields of `str`, a NULL-terminated array in C,
here the list of the fields before the NULL (see `split_by_char_aux`). -/
def split_by_char (str : CString) (split : Char) (maxFields : Nat) : List CString :=
  split_by_char_aux split maxFields 0 [] str

/-- The `CrackThreadData` struct; the shared flag `found` is kept apart. -/
structure CrackThreadData where
  cipherText : CString
  salt : CString
  words : List CString
  startPos : Nat
  endPos : Nat
  deriving DecidableEq

/-- The `CrackThreadReturn` struct; `none` is the NULL word. -/
structure CrackThreadReturn where
  word : Option CString
  numCalls : Nat
  deriving DecidableEq

def create_crack_thread_data (cipherText salt : CString) (words : List CString)
    (startPos endPos : Nat) : CrackThreadData :=
  { cipherText := cipherText, salt := salt, words := words,
    startPos := startPos, endPos := endPos }

/-- Where a running `crack_thread` stands: about to evaluate the loop condition
(which reads `found`), about to run the loop body (which may write `found`), or
returned. -/
inductive ThreadPc where
  | test
  | body
  | returned
  deriving DecidableEq

/-- A running `crack_thread`: its argument, loop index, result record and position. -/
structure CrackThread where
  data : CrackThreadData
  i : Nat
  ret : CrackThreadReturn
  pc : ThreadPc
  deriving DecidableEq

/-- Entry of `crack_thread`: `word = NULL`, `numCalls = 0`, `i = startPos`. -/
def crack_thread_start (data : CrackThreadData) : CrackThread :=
  { data := data, i := data.startPos, ret := { word := none, numCalls := 0 }, pc := ThreadPc.test }

/-- One step of `crack_thread` against the shared flag `found`; each step makes
at most one access to the flag. -/
def crack_thread_step (H : Hash) (found : Nat) (t : CrackThread) : Nat × CrackThread :=
  match t.pc with
  | ThreadPc.test =>
    if t.i < t.data.endPos ∧ found = 0 then (found, { t with pc := ThreadPc.body })
    else (found, { t with pc := ThreadPc.returned })
  | ThreadPc.body =>
    let hash := H (t.data.words.getD t.i []) t.data.salt
    let numCalls := t.ret.numCalls + 1
    if hash = t.data.cipherText then
      (1, { t with ret := { word := some (t.data.words.getD t.i []), numCalls := numCalls },
                   pc := ThreadPc.returned })
    else
      (found, { t with i := t.i + 1, ret := { t.ret with numCalls := numCalls },
                       pc := ThreadPc.test })
  | ThreadPc.returned => (found, t)

/-- Up to `fuel` consecutive steps of one thread. -/
def crack_thread_run (H : Hash) : Nat → Nat → CrackThread → Nat × CrackThread
  | 0, found, t => (found, t)
  | fuel + 1, found, t =>
    crack_thread_run H fuel (crack_thread_step H found t).1 (crack_thread_step H found t).2

/-- Enough steps for a thread to return: two per remaining index and two more. -/
def crack_thread_fuel (t : CrackThread) : Nat :=
  2 * (t.data.endPos - t.i) + 2

/-- Thread number `k` of the list takes one step. -/
def threads_step (H : Hash) : Nat → Nat → List CrackThread → Nat × List CrackThread
  | _, found, [] => (found, [])
  | 0, found, t :: ts => ((crack_thread_step H found t).1, (crack_thread_step H found t).2 :: ts)
  | k + 1, found, t :: ts => ((threads_step H k found ts).1, t :: (threads_step H k found ts).2)

/-- The threads advance as the schedule says, one step per entry. -/
def run_schedule (H : Hash) : List Nat → Nat → List CrackThread → Nat × List CrackThread
  | [], found, ts => (found, ts)
  | k :: sched, found, ts =>
    run_schedule H sched (threads_step H k found ts).1 (threads_step H k found ts).2

/-- The joins: every thread that has not returned yet runs until it does. -/
def finish_threads (H : Hash) : Nat → List CrackThread → Nat × List CrackThread
  | found, [] => (found, [])
  | found, t :: ts =>
    ((finish_threads H (crack_thread_run H (crack_thread_fuel t) found t).1 ts).1,
     (crack_thread_run H (crack_thread_fuel t) found t).2 ::
       (finish_threads H (crack_thread_run H (crack_thread_fuel t) found t).1 ts).2)

/-- The thread-creation loop of `crack_call`, from thread `i` with `fuel` threads to go. -/
def create_threads_loop (cipherText salt : CString) (words : List CString)
    (numWords numThreads increment : Nat) : Nat → Nat → Nat → Nat → List CrackThreadData
  | 0, _, _, _ => []
  | fuel + 1, i, startPos, endPos =>
    let endPos := if numThreads - 1 = i then numWords else endPos
    create_crack_thread_data cipherText salt words startPos endPos ::
      create_threads_loop cipherText salt words numWords numThreads increment
        fuel (i + 1) (startPos + increment) (endPos + increment)

/-- The start and end points computed by `crack_call`:
`(numThreads, increment, endPos)` after the first `if`. -/
def crack_plan (numWords numThreads : Nat) : Nat × Nat × Nat :=
  if numWords < numThreads ∨ numThreads = 1 then (1, 0, numWords)
  else (numThreads, numWords / numThreads, numWords / numThreads)

/-- The argument records `crack_call` hands to its threads, in creation order. -/
def crack_thread_datas (cipherText : CString) (numThreads : Nat) (dict : Dictionary) :
    List CrackThreadData :=
  let salt := cipherText.take SALT_LENGTH
  let plan := crack_plan dict.length numThreads
  create_threads_loop cipherText salt dict dict.length plan.1 plan.2.1 plan.1 0 0 plan.2.2

/-- The join loop of `crack_call`. -/
def join_loop : List CrackThread → Statistics → Option CString → Statistics × Option CString
  | [], stats, result => (stats, result)
  | t :: ts, stats, result =>
    match t.ret.word with
    | some w =>
      join_loop ts (stats_add_crack_request_pass (stats_add_crypt_call stats t.ret.numCalls)) (some w)
    | none => join_loop ts (stats_add_crypt_call stats t.ret.numCalls) result

/-- The threads of one request once all have been joined, under schedule `sched`. -/
def crack_joined (H : Hash) (cipherText : CString) (numThreads : Nat) (dict : Dictionary)
    (sched : List Nat) : List CrackThread :=
  let threads := (crack_thread_datas cipherText numThreads dict).map crack_thread_start
  let ran := run_schedule H sched 0 threads
  (finish_threads H ran.1 ran.2).2

def crack_call (H : Hash) (cipherText : CString) (numThreads : Nat) (dict : Dictionary)
    (stats : Statistics) (sched : List Nat) : CString × Statistics :=
  let joined := join_loop (crack_joined H cipherText numThreads dict sched) stats none
  match joined.2 with
  | some w => (w, joined.1)
  | none => (FAILED, stats_add_crack_request_fail joined.1)

def crypt_call (H : Hash) (cryptText salt : CString) : CString :=
  H cryptText salt

/-- The reply (the text printed before the newline) and the statistics after
one command; `sched` interleaves the threads of a crack request. -/
def process_command (H : Hash) (command : CString) (dict : Dictionary)
    (stats : Statistics) (sched : List Nat) : CString × Statistics :=
  match split_by_char command (Char.ofNat 32) MAX_FIELDS with
  | [] => (INVALID, stats)
  | p0 :: rest =>
    if p0 = "crack".toList then
      match rest with
      | p1 :: p2 :: _ =>
        if p1.length ≠ CIPHER_LENGTH || !valid_thread_num p2 then
          (INVALID, stats_add_crack_request stats)
        else if !(valid_salt_character (charAt p1 0) && valid_salt_character (charAt p1 1)) then
          (INVALID, stats_add_crack_request stats)
        else crack_call H p1 (atoi p2).toNat dict (stats_add_crack_request stats) sched
      | _ => (INVALID, stats_add_crack_request stats)
    else if p0 = "crypt".toList then
      match rest with
      | p1 :: p2 :: _ =>
        if !valid_salt p2 then (INVALID, stats_add_crypt_request stats)
        else (crypt_call H p1 p2, stats_add_crypt_call (stats_add_crypt_request stats) 1)
      | _ => (INVALID, stats_add_crypt_request stats)
    else (INVALID, stats)

/-- The start and end point of the share of the dictionary given to a thread. -/
def thread_range (d : CrackThreadData) : Nat × Nat := (d.startPos, d.endPos)

/-- The index ranges `[startPos, endPos)` that `crack_call` hands to its threads. -/
def crack_ranges (cipherText : CString) (numThreads : Nat) (dict : Dictionary) :
    List (Nat × Nat) :=
  (crack_thread_datas cipherText numThreads dict).map thread_range

/-- The statistics after `configure_stats`: every counter is zero. -/
def configure_stats : Statistics :=
  { numConnected := 0, numCompleted := 0, cracks := 0, failedCracks := 0,
    successCracks := 0, crypts := 0, cryptCalls := 0 }

/-- A stand-in for the hash in concrete evaluations: the salt followed by the
word, which is injective in the word and begins with the salt. -/
def demo_hash : Hash := fun word salt => salt ++ word

/-- The dictionary of the concrete scenarios: hello, world, abc. -/
def demo_dictionary : Dictionary := ["hello".toList, "world".toList, "abc".toList]

/-- One step of one thread of the list, the others standing still. -/
inductive ThreadsStep (H : Hash) : Nat × List CrackThread → Nat × List CrackThread → Prop where
  | step (found : Nat) (l1 : List CrackThread) (t : CrackThread) (l2 : List CrackThread) :
    ThreadsStep H (found, l1 ++ t :: l2)
      ((crack_thread_step H found t).1, l1 ++ (crack_thread_step H found t).2 :: l2)

/-- What holds of a `crack_thread` at every point of its run. -/
def ThreadInv (H : Hash) (t : CrackThread) : Prop :=
  t.data.startPos ≤ t.i ∧
  (t.data.startPos ≤ t.data.endPos → t.i ≤ t.data.endPos) ∧
  (t.pc = ThreadPc.body → t.i < t.data.endPos) ∧
  (∀ k, t.data.startPos ≤ k → k < t.i →
    H (t.data.words.getD k []) t.data.salt ≠ t.data.cipherText) ∧
  (∀ x, t.ret.word = some x →
    t.pc = ThreadPc.returned ∧ t.i < t.data.endPos ∧ x = t.data.words.getD t.i [] ∧
      H x t.data.salt = t.data.cipherText) ∧
  t.ret.numCalls = (t.i - t.data.startPos) + (if t.ret.word = none then 0 else 1)

/-- The threads of one request: same cipher text, salt and words, ranges inside
the dictionary, each thread within its invariant. -/
def ThreadsInv (H : Hash) (c : CString) (D : Dictionary) (s : Nat × List CrackThread) : Prop :=
  ∀ t ∈ s.2, t.data.cipherText = c ∧ t.data.salt = c.take SALT_LENGTH ∧ t.data.words = D ∧
    t.data.endPos ≤ D.length ∧ ThreadInv H t

/-- The flag is raised only by a thread that recorded a word. -/
def FoundInv (s : Nat × List CrackThread) : Prop :=
  s.1 ≠ 0 → ∃ t ∈ s.2, t.ret.word ≠ none

/-- Index `j` is still ahead of a running thread, unless a word has been recorded. -/
def ProgressInv (j : Nat) (s : Nat × List CrackThread) : Prop :=
  (∃ t ∈ s.2, t.ret.word ≠ none) ∨
  (∃ t ∈ s.2, t.i ≤ j ∧ j < t.data.endPos ∧ t.pc ≠ ThreadPc.returned)

/-- Steps a thread still needs before it has returned, at most. -/
def thread_measure (t : CrackThread) : Nat :=
  match t.pc with
  | ThreadPc.test => 2 * (t.data.endPos - t.i) + 1
  | ThreadPc.body => 2 * (t.data.endPos - (t.i + 1)) + 2
  | ThreadPc.returned => 0

/-- A stand-in for the hash whose cipher texts have 13 characters: the salt,
then the word filled up to 11 characters with full stops. -/
def demo_hash13 : Hash :=
  fun word salt => salt ++ (word ++ List.replicate 11 (Char.ofNat 46)).take 11

/-- A stand-in for a hash under which different words collide: the salt and
eleven full stops, whatever the word. -/
def colliding_hash : Hash :=
  fun _ salt => salt ++ List.replicate 11 (Char.ofNat 46)

/-- The read loop of `client_handler_thread`: the lines of one session are
handled in order, each crack request under its own schedule. -/
def process_commands (H : Hash) (dict : Dictionary) :
    List (CString × List Nat) → Statistics → Statistics
  | [], stats => stats
  | (command, sched) :: rest, stats =>
    process_commands H dict rest (process_command H command dict stats sched).2

/-- The statistics after each `stats_*` call of the join loop, in order. -/
def join_loop_trace : List CrackThread → Statistics → List Statistics
  | [], _ => []
  | t :: ts, stats =>
    match t.ret.word with
    | some _ =>
      stats_add_crypt_call stats t.ret.numCalls ::
        stats_add_crack_request_pass (stats_add_crypt_call stats t.ret.numCalls) ::
          join_loop_trace ts
            (stats_add_crack_request_pass (stats_add_crypt_call stats t.ret.numCalls))
    | none =>
      stats_add_crypt_call stats t.ret.numCalls ::
        join_loop_trace ts (stats_add_crypt_call stats t.ret.numCalls)

/-- The statistics after each `stats_*` call of `crack_call`, in order. -/
def crack_call_trace (H : Hash) (cipherText : CString) (numThreads : Nat) (dict : Dictionary)
    (stats : Statistics) (sched : List Nat) : List Statistics :=
  let joined := crack_joined H cipherText numThreads dict sched
  match (join_loop joined stats none).2 with
  | some _ => join_loop_trace joined stats
  | none =>
    join_loop_trace joined stats ++ [stats_add_crack_request_fail (join_loop joined stats none).1]

/-- The statistics after each `stats_*` call made while `process_command`
handles one line, in order: the states another thread can observe. -/
def process_command_trace (H : Hash) (command : CString) (dict : Dictionary)
    (stats : Statistics) (sched : List Nat) : List Statistics :=
  match split_by_char command (Char.ofNat 32) MAX_FIELDS with
  | [] => []
  | p0 :: rest =>
    if p0 = "crack".toList then
      match rest with
      | p1 :: p2 :: _ =>
        if p1.length ≠ CIPHER_LENGTH || !valid_thread_num p2 then
          [stats_add_crack_request stats]
        else if !(valid_salt_character (charAt p1 0) && valid_salt_character (charAt p1 1)) then
          [stats_add_crack_request stats]
        else
          stats_add_crack_request stats ::
            crack_call_trace H p1 (atoi p2).toNat dict (stats_add_crack_request stats) sched
      | _ => [stats_add_crack_request stats]
    else if p0 = "crypt".toList then
      match rest with
      | _ :: p2 :: _ =>
        if !valid_salt p2 then [stats_add_crypt_request stats]
        else [stats_add_crypt_request stats,
          stats_add_crypt_call (stats_add_crypt_request stats) 1]
      | _ => [stats_add_crypt_request stats]
    else []

/-- The statistics after each `stats_*` call made while a sequence of lines
is handled, in order. -/
def process_commands_trace (H : Hash) (dict : Dictionary) :
    List (CString × List Nat) → Statistics → List Statistics
  | [], _ => []
  | (command, sched) :: rest, stats =>
    process_command_trace H command dict stats sched ++
      process_commands_trace H dict rest (process_command H command dict stats sched).2

/-- What happens to the connection counters and the statistics of a server:
a session is opened (`stats_add_connection` in `process_connections`), closed
(`stats_complete_connection` in `client_handler_thread`), or handles a line. -/
inductive SessionEvent where
  | opened
  | closed
  | command (line : CString) (sched : List Nat)

/-- The statistics after one event. -/
def session_event (H : Hash) (dict : Dictionary) (stats : Statistics) :
    SessionEvent → Statistics
  | SessionEvent.opened => stats_add_connection stats
  | SessionEvent.closed => stats_complete_connection stats
  | SessionEvent.command line sched => (process_command H line dict stats sched).2

/-- The statistics after a sequence of events. -/
def session_events (H : Hash) (dict : Dictionary) :
    List SessionEvent → Statistics → Statistics
  | [], stats => stats
  | e :: es, stats => session_events H dict es (session_event H dict stats e)

/-- The number of sessions opened by a sequence of events. -/
def sessions_opened : List SessionEvent → Nat
  | [] => 0
  | SessionEvent.opened :: es => sessions_opened es + 1
  | _ :: es => sessions_opened es

/-- Every close follows its open: with `live` sessions open at the start, no
`closed` event occurs while no session is open. -/
def closes_follow_opens : Nat → List SessionEvent → Bool
  | _, [] => true
  | live, SessionEvent.opened :: es => closes_follow_opens (live + 1) es
  | 0, SessionEvent.closed :: _ => false
  | live + 1, SessionEvent.closed :: es => closes_follow_opens live es
  | live, SessionEvent.command _ _ :: es => closes_follow_opens live es

/-- While no thread has found a word: the flag is down, and a thread that has
returned has gone through its whole range. -/
def ExhaustInv (s : Nat × List CrackThread) : Prop :=
  s.1 = 0 ∧ ∀ t ∈ s.2, t.ret.word = none ∧ (t.pc = ThreadPc.returned → t.data.endPos ≤ t.i)

/-- The value `sem_init` gives the admission semaphore when no limit is set. -/
def SEM_VALUE_MAX : Nat := 2147483647

/-- The steps of the listener (`process_connections`) and of the sessions
(`client_handler_thread`) that touch the admission semaphore or the statistics:
`sem_wait(&maxConnsLock)`; `accept` followed by `stats_add_connection`; a line
handled by a session; `stats_complete_connection` at the end of a session; the
`sem_post(maxConns)` that follows it. -/
inductive ServerEvent where
  | take_permit
  | accept
  | command (line : CString) (sched : List Nat)
  | session_end
  | release_permit

/-- The admission semaphore, the listener, the sessions and the statistics. -/
structure ServerState where
  permits : Nat
  accepting : Bool
  sessions : Nat
  closing : Nat
  stats : Statistics
  deriving DecidableEq

/-- The state `process_connections` sets up: the semaphore holds `maxConns`
permits, or `SEM_VALUE_MAX` when `maxConns` is 0. -/
def server_start (maxConns : Nat) : ServerState :=
  { permits := if maxConns = 0 then SEM_VALUE_MAX else maxConns,
    accepting := false, sessions := 0, closing := 0, stats := configure_stats }

/-- One step of the server; `none` when the step cannot be taken (the
semaphore is at 0, or there is no thread at that point of its code). -/
def server_step (H : Hash) (dict : Dictionary) (s : ServerState) :
    ServerEvent → Option ServerState
  | ServerEvent.take_permit =>
    if 0 < s.permits ∧ s.accepting = false then
      some { s with permits := s.permits - 1, accepting := true }
    else none
  | ServerEvent.accept =>
    if s.accepting = true then
      some { s with accepting := false, sessions := s.sessions + 1,
                    stats := stats_add_connection s.stats }
    else none
  | ServerEvent.command line sched =>
    if 0 < s.sessions then
      some { s with stats := (process_command H line dict s.stats sched).2 }
    else none
  | ServerEvent.session_end =>
    if 0 < s.sessions then
      some { s with sessions := s.sessions - 1, closing := s.closing + 1,
                    stats := stats_complete_connection s.stats }
    else none
  | ServerEvent.release_permit =>
    if 0 < s.closing then
      some { s with closing := s.closing - 1, permits := s.permits + 1 }
    else none

/-- The state after a sequence of steps, when each of them can be taken. -/
def server_run (H : Hash) (dict : Dictionary) : List ServerEvent → ServerState → Option ServerState
  | [], s => some s
  | e :: es, s =>
    match server_step H dict s e with
    | some s2 => server_run H dict es s2
    | none => none

/-- One statement of the code that touches the statistics or their semaphore:
`sem_wait(stats->lock)`, `sem_post(stats->lock)`, an assignment to a field, or
the `fprintf` of `stats_thread`, which reads the seven fields. -/
inductive StatsInstr where
  | sem_wait
  | sem_post
  | update (f : Statistics → Statistics)
  | report

/-- The statements of `stats_add_connection`. -/
def stats_add_connection_code : List StatsInstr :=
  [StatsInstr.sem_wait,
   StatsInstr.update
     (fun stats => { stats with numConnected := (stats.numConnected + 1) % UINT32_MOD }),
   StatsInstr.sem_post]

/-- The statements of `stats_complete_connection`. -/
def stats_complete_connection_code : List StatsInstr :=
  [StatsInstr.sem_wait,
   StatsInstr.update
     (fun stats =>
       { stats with numConnected := (stats.numConnected + (UINT32_MOD - 1)) % UINT32_MOD }),
   StatsInstr.update
     (fun stats => { stats with numCompleted := (stats.numCompleted + 1) % UINT32_MOD }),
   StatsInstr.sem_post]

/-- The statements of one round of `stats_thread` once `sigwait` has returned. -/
def stats_thread_code : List StatsInstr :=
  [StatsInstr.report]

/-- The semaphore of the statistics, the statistics, what each thread has
still to execute, and the reports printed so far. -/
structure StatsMachine where
  lock : Nat
  stats : Statistics
  threads : List (List StatsInstr)
  reports : List Statistics

/-- Thread `k` executes its next statement; a `sem_wait` on a semaphore at 0
leaves the thread where it is. -/
def stats_machine_step (m : StatsMachine) (k : Nat) : StatsMachine :=
  match m.threads.getD k [] with
  | [] => m
  | StatsInstr.sem_wait :: rest =>
    if 0 < m.lock then { m with lock := m.lock - 1, threads := m.threads.set k rest }
    else m
  | StatsInstr.sem_post :: rest =>
    { m with lock := m.lock + 1, threads := m.threads.set k rest }
  | StatsInstr.update f :: rest =>
    { m with stats := f m.stats, threads := m.threads.set k rest }
  | StatsInstr.report :: rest =>
    { m with reports := m.reports ++ [m.stats], threads := m.threads.set k rest }

/-- The threads execute as the schedule says, one statement per entry. -/
def stats_machine_run : List Nat → StatsMachine → StatsMachine
  | [], m => m
  | k :: sched, m => stats_machine_run sched (stats_machine_step m k)

/-! ## Start-up: the command line and the dictionary file -/

/-- How a start-up function ends: it calls `exit(status)`, or it returns a value. -/
inductive Startup (α : Type) where
  | exit (status : Nat)
  | returns (value : α)
  deriving DecidableEq

def USAGE_ERROR : Nat := 1
def DICT_FILE_ERROR : Nat := 2
def NO_WORDS_ERROR : Nat := 3
def UNABLE_OPEN_ERROR : Nat := 4
def MAX_ARGS : Nat := 6
def MIN_PORT : Int := 1024
def MAX_PORT : Int := 65535
def DEFAULT_DICTIONARY : CString := "/usr/share/dict/words".toList

/-- The `ServerDetails` struct; `none` is a NULL pointer. -/
structure ServerDetails where
  maxConns : Int
  portNum : Option CString
  dictFileName : Option CString
  deriving DecidableEq

/-- The digits `strtol` consumes are dropped. -/
def drop_digits : CString → CString
  | [] => []
  | c :: cs => if isdigit c then drop_digits cs else c :: cs

/-- The string at `end` after `strtol(s, &end, 10)`: what follows the digits, or
the whole of `s` when no digit follows the white space and the sign. -/
def strtol_end (s : CString) : CString :=
  match skip_space s with
  | [] => s
  | c :: cs =>
    if c = Char.ofNat 45 ∨ c = Char.ofNat 43 then
      (if (cs.head?.map isdigit).getD false then drop_digits cs else s)
    else (if isdigit c then drop_digits (c :: cs) else s)

/-- The number `strtol` reads, stored in an `int`; a usage error when `*end` is not NUL. -/
def string_to_number (arg : CString) : Startup Int :=
  if charAt (strtol_end arg) 0 ≠ Char.ofNat 0 then Startup.exit USAGE_ERROR
  else Startup.returns (atoi arg)

def validate_port_number (portNum : Int) : Startup Unit :=
  if portNum ≠ 0 ∧ (portNum < MIN_PORT ∨ portNum > MAX_PORT) then Startup.exit USAGE_ERROR
  else Startup.returns ()

def validate_max_connections (maxConns : Int) : Startup Int :=
  if maxConns < 0 then Startup.exit USAGE_ERROR else Startup.returns maxConns

/-- The `while (argc)` loop of `parse_command_line`, two arguments per round;
the loop is entered with an even number of arguments only. -/
def parse_options : List CString → ServerDetails → Startup ServerDetails
  | a0 :: a1 :: rest, param =>
    if a0 = "--maxconn".toList ∧ param.maxConns < 0 then
      match string_to_number a1 with
      | Startup.exit status => Startup.exit status
      | Startup.returns maxConns =>
        match validate_max_connections maxConns with
        | Startup.exit status => Startup.exit status
        | Startup.returns m => parse_options rest { param with maxConns := m }
    else if a0 = "--port".toList ∧ param.portNum = none then
      match string_to_number a1 with
      | Startup.exit status => Startup.exit status
      | Startup.returns portNum =>
        match validate_port_number portNum with
        | Startup.exit status => Startup.exit status
        | Startup.returns _ => parse_options rest { param with portNum := some a1 }
    else if a0 = "--dictionary".toList ∧ param.dictFileName = none then
      parse_options rest { param with dictFileName := some a1 }
    else Startup.exit USAGE_ERROR
  | _, param => Startup.returns param

/-- The arguments are `argv` without the program name. -/
def parse_command_line (args : List CString) : Startup ServerDetails :=
  if args.length > MAX_ARGS ∨ args.length % 2 = 1 then Startup.exit USAGE_ERROR
  else
    match parse_options args { maxConns := -1, portNum := none, dictFileName := none } with
    | Startup.exit status => Startup.exit status
    | Startup.returns param =>
      Startup.returns
        { maxConns := if param.maxConns = -1 then 0 else param.maxConns,
          portNum := some (param.portNum.getD "0".toList),
          dictFileName := some (param.dictFileName.getD DEFAULT_DICTIONARY) }

/-- The arguments in option position: the first, the third, the fifth, and so on. -/
def option_names : List CString → List CString
  | a0 :: _ :: rest => a0 :: option_names rest
  | [a0] => [a0]
  | [] => []

/-- The read loop of `fill_dictionary`; `words` holds the words kept so far. -/
def fill_dictionary_loop : List CString → List CString → List CString
  | [], words => words
  | line :: rest, words =>
    if line.length > MAX_WORD_LENGTH then fill_dictionary_loop rest words
    else fill_dictionary_loop rest (words ++ [line])

/-- The dictionary built from the lines of the file (`none`: the file cannot be opened). -/
def fill_dictionary (file : Option (List CString)) : Startup Dictionary :=
  match file with
  | none => Startup.exit DICT_FILE_ERROR
  | some lines =>
    if (fill_dictionary_loop lines []).length = 0 then Startup.exit NO_WORDS_ERROR
    else Startup.returns (fill_dictionary_loop lines [])

/-! ## A worker among others -/

/-- A thread that recorded a word has raised the flag. -/
def FlagInv (s : Nat × List CrackThread) : Prop :=
  (∃ t ∈ s.2, t.ret.word ≠ none) → s.1 = 1

/-- With the flag raised before the threads start, no thread gets past its
first test. -/
def EntryInv (s : Nat × List CrackThread) : Prop :=
  s.1 ≠ 0 ∧ ∀ t ∈ s.2, t.ret.word = none ∧ t.ret.numCalls = 0 ∧ t.pc ≠ ThreadPc.body

/-- The threads of `datas` once each of them has returned: they run from the
flag value `found` under the schedule, then to their end in order. -/
def crack_threads_run (H : Hash) (datas : List CrackThreadData) (found : Nat)
    (sched : List Nat) : Nat × List CrackThread :=
  finish_threads H (run_schedule H sched found (datas.map crack_thread_start)).1
    (run_schedule H sched found (datas.map crack_thread_start)).2

end CrackServer

namespace CrackClient

/-- A C string: the characters before the terminating NUL. -/
abbrev CString := List Char

def SERVER_INVALID : CString := ":invalid".toList ++ [Char.ofNat 10]
def INVALID_MESSAGE : CString := "Error in command".toList ++ [Char.ofNat 10]
def SERVER_FAILED : CString := ":failed".toList ++ [Char.ofNat 10]
def FAILED_MESSAGE : CString := "Unable to decrypt".toList ++ [Char.ofNat 10]

/-- The text `handle_response` prints on standard output. -/
def handle_response (response : CString) : CString :=
  if response = SERVER_INVALID then INVALID_MESSAGE
  else if response = SERVER_FAILED then FAILED_MESSAGE
  else response

def BUFFER_SIZE : Nat := 80

/-- The C library `fgets(buffer, n, in)` on the characters still to come from
`in`: `none` at end of file, else what is stored (at most `n - 1` characters,
ending after the first newline) and what is left in the stream. -/
def fgets_chars : Nat → CString → CString × CString
  | 0, stream => ([], stream)
  | _ + 1, [] => ([], [])
  | k + 1, c :: cs =>
    if c = Char.ofNat 10 then ([c], cs)
    else (c :: (fgets_chars k cs).1, (fgets_chars k cs).2)

def fgets (n : Nat) (stream : CString) : Option (CString × CString) :=
  match stream with
  | [] => none
  | _ :: _ => some (fgets_chars (n - 1) stream)

/-- The text `send_command` writes to the server. -/
def send_command (line : CString) : CString :=
  line ++ [Char.ofNat 10]

/-- What `communicate_with_server` has done when it ends. -/
structure Dialogue where
  sent : CString
  printed : CString
  unread : CString
  responses : Nat
  terminated : Bool
  deriving DecidableEq

/-- The read loop of `communicate_with_server` over the input lines (as
`read_line` returns them) and the characters the server sends. -/
def communicate_with_server : List CString → CString → Dialogue
  | [], stream =>
    { sent := [], printed := [], unread := stream, responses := 0, terminated := false }
  | line :: rest, stream =>
    if line.getD 0 (Char.ofNat 0) = Char.ofNat 35 ∨ line.getD 0 (Char.ofNat 0) = Char.ofNat 0 then
      communicate_with_server rest stream
    else
      match fgets (BUFFER_SIZE - 1) stream with
      | none =>
        { sent := send_command line, printed := [], unread := [], responses := 0,
          terminated := true }
      | some (buffer, stream2) =>
        { sent := send_command line ++ (communicate_with_server rest stream2).sent,
          printed := handle_response buffer ++ (communicate_with_server rest stream2).printed,
          unread := (communicate_with_server rest stream2).unread,
          responses := (communicate_with_server rest stream2).responses + 1,
          terminated := (communicate_with_server rest stream2).terminated }

/-- A line the client transmits: not empty and not beginning with `#`. -/
def is_command (line : CString) : Bool :=
  match line with
  | [] => false
  | c :: _ => c ≠ Char.ofNat 35

/-- The characters of the given lines, each followed by a newline. -/
def lines_text : List CString → CString
  | [] => []
  | r :: rs => r ++ [Char.ofNat 10] ++ lines_text rs

/-- What the client prints for the given response lines, in order. -/
def responses_printed : List CString → CString
  | [] => []
  | r :: rs => handle_response (r ++ [Char.ofNat 10]) ++ responses_printed rs

end CrackClient

namespace UqWordiply

/-- A C string: the characters before the terminating NUL. -/
abbrev CString := List Char

def MESSAGE_ONLY_LETTERS : CString :=
  "Guesses must contain only letters - try again.".toList ++ [Char.ofNat 10]
def MESSAGE_CONTAIN_STARTER : CString :=
  "Guesses must contain the starter word - try again.".toList ++ [Char.ofNat 10]
def MESSAGE_IS_STARTER : CString :=
  "Guesses can't be the starter word - try again.".toList ++ [Char.ofNat 10]
def MESSAGE_NOT_IN_DICT : CString :=
  "Guess not found in dictionary - try again.".toList ++ [Char.ofNat 10]
def MESSAGE_ALREADY_GUESSED : CString :=
  "You've already guessed that word - try again.".toList ++ [Char.ofNat 10]

/-- The fields of the `Game` struct that `valid_guess` reads;
`numDictionaryWords` is the length of `dictionary`. -/
structure Game where
  guessNum : Nat
  guesses : List CString
  starterWord : CString
  dictionary : List CString

def contains_non_alpha : CString → Bool
  | [] => false
  | c :: cs => if !CrackServer.isalpha c then true else contains_non_alpha cs

/-- Whether `needle` stands at the start of `haystack`. -/
def starts_with : CString → CString → Bool
  | [], _ => true
  | _ :: _, [] => false
  | n :: ns, h :: hs => if n = h then starts_with ns hs else false

/-- The C library `strstr(haystack, needle)`: whether the result is non-NULL. -/
def strstr : CString → CString → Bool
  | [], needle => starts_with needle []
  | h :: hs, needle => if starts_with needle (h :: hs) then true else strstr hs needle

def contains_starter_word (word starterWord : CString) : Bool :=
  if strstr word starterWord then true else false

def is_in_dictionary (word : CString) : List CString → Bool
  | [] => false
  | w :: ws => if word = w then true else is_in_dictionary word ws

/-- The loop of `already_guessed` from index `i`, with `fuel` rounds to go. -/
def already_guessed_loop (guess : CString) (guesses : List CString) : Nat → Nat → Bool
  | 0, _ => false
  | fuel + 1, i =>
    if guess = guesses.getD i [] then true
    else already_guessed_loop guess guesses fuel (i + 1)

def already_guessed (guess : CString) (guessNum : Nat) (guesses : List CString) : Bool :=
  already_guessed_loop guess guesses (guessNum - 1) 0

/-- The value `valid_guess` returns and the message it prints (nothing when
the guess is valid). -/
def valid_guess (guess : CString) (game : Game) : Bool × CString :=
  if contains_non_alpha guess then (false, MESSAGE_ONLY_LETTERS)
  else if !contains_starter_word guess game.starterWord then (false, MESSAGE_CONTAIN_STARTER)
  else if guess = game.starterWord then (false, MESSAGE_IS_STARTER)
  else if !is_in_dictionary guess game.dictionary then (false, MESSAGE_NOT_IN_DICT)
  else if already_guessed guess game.guessNum game.guesses then (false, MESSAGE_ALREADY_GUESSED)
  else (true, [])

end UqWordiply

namespace TestUqWordiply

/-- A C string: the characters before the terminating NUL. -/
abbrev CString := List Char

/-- The loop of `count_digits`, with `fuel` rounds to go. -/
def count_digits_loop : Nat → Nat → Nat → Nat
  | 0, _, numDigits => numDigits
  | fuel + 1, numCopy, numDigits =>
    if numCopy ≠ 0 then count_digits_loop fuel (numCopy / 10) (numDigits + 1)
    else numDigits

/-- The digits of a job number; `num + 1` rounds are more than the loop needs. -/
def count_digits (num : Nat) : Nat :=
  count_digits_loop (num + 1) num 0

/-- The text `sprintf(jobDesc, "Job %d %s", jobNum, checkDest)` produces. -/
def job_description (jobNum : Nat) (checkDest : CString) : CString :=
  "Job ".toList ++ Nat.toDigits 10 jobNum ++ " ".toList ++ checkDest

/-- The bytes `sprintf` stores in `jobDesc`: the text and the terminating NUL. -/
def job_description_bytes (jobNum : Nat) (checkDest : CString) : Nat :=
  (job_description jobNum checkDest).length + 1

/-- The size of the array `char jobDesc[11 + jobNumDigits]` in `run_uqcmp`. -/
def job_description_buffer (jobNum : Nat) : Nat :=
  11 + count_digits jobNum

end TestUqWordiply

namespace CrackServer

/-! ## The thread-creation loop -/


theorem create_threads_loop_ranges (c salt : CString) (D : List CString) (n W inc : Nat) :
    ∀ (fuel i s e : Nat), i + fuel = W →
      (create_threads_loop c salt D n W inc fuel i s e).map thread_range =
        (List.range fuel).map
          (fun k => (s + k * inc, if i + k = W - 1 then n else e + k * inc)) := by
  intro fuel
  induction fuel with
  | zero => intro i s e _; simp [create_threads_loop]
  | succ fuel ih =>
    intro i s e h
    have hne : W - 1 ≠ i ∨ fuel = 0 := by omega
    simp only [create_threads_loop, List.map_cons, List.range_succ_eq_map, List.map_map]
    rw [ih (i + 1) _ _ (by omega)]
    congr 1
    · simp [thread_range, create_crack_thread_data, eq_comm]
    · apply List.map_congr_left
      intro k hk
      have hk1 : k < fuel := List.mem_range.mp hk
      have h1 : W - 1 ≠ i := by omega
      simp only [Function.comp, h1, if_false, Nat.succ_eq_add_one]
      have e1 : i + 1 + k = i + (k + 1) := by omega
      rw [e1]
      congr 1
      · ring
      · split
        · rfl
        · ring

theorem create_threads_loop_fields (c salt : CString) (D : List CString) (n W inc : Nat) :
    ∀ (fuel i s e : Nat), ∀ d ∈ create_threads_loop c salt D n W inc fuel i s e,
      d.cipherText = c ∧ d.salt = salt ∧ d.words = D := by
  intro fuel
  induction fuel with
  | zero => intro i s e d hd; simp [create_threads_loop] at hd
  | succ fuel ih =>
    intro i s e d hd
    simp only [create_threads_loop, List.mem_cons] at hd
    rcases hd with hd | hd
    · subst hd; simp [create_crack_thread_data]
    · exact ih _ _ _ d hd

/-- The number of threads `crack_call` creates. -/
theorem crack_plan_threads (n N : Nat) :
    (crack_plan n N).1 = if N = 1 ∨ n < N then 1 else N := by
  unfold crack_plan
  by_cases h : n < N ∨ N = 1
  · have h2 : N = 1 ∨ n < N := h.symm
    simp [h, h2]
  · have h2 : ¬ (N = 1 ∨ n < N) := fun x => h x.symm
    simp [h, h2]

/-- Closed form of the ranges: thread `k` of `W` gets `[k * inc, (k + 1) * inc)`,
the last one ends at the dictionary size. -/
theorem crack_ranges_eq (c : CString) (N : Nat) (D : Dictionary) :
    (crack_thread_datas c N D).map thread_range =
      (List.range (crack_plan D.length N).1).map
        (fun k => (k * (D.length / (crack_plan D.length N).1),
          if k = (crack_plan D.length N).1 - 1 then D.length
          else (k + 1) * (D.length / (crack_plan D.length N).1))) := by
  unfold crack_thread_datas
  simp only []
  rw [create_threads_loop_ranges _ _ _ _ _ _ _ _ _ _ (by omega)]
  apply List.map_congr_left
  intro k hk
  have hk1 := List.mem_range.mp hk
  unfold crack_plan at hk1 ⊢
  by_cases h : D.length < N ∨ N = 1
  · simp only [h, if_true] at hk1 ⊢
    have : k = 0 := by omega
    subst this
    simp
  · simp only [h, if_false] at hk1 ⊢
    congr 1
    · ring
    · simp only [Nat.zero_add]
      split
      · rfl
      · ring

theorem crack_thread_datas_length (c : CString) (N : Nat) (D : Dictionary) :
    (crack_thread_datas c N D).length = (crack_plan D.length N).1 := by
  have h := congrArg List.length (crack_ranges_eq c N D)
  simpa using h

theorem crack_plan_bounds (n N : Nat) (hN : 1 ≤ N) (hn : 1 ≤ n) :
    1 ≤ (crack_plan n N).1 ∧ (crack_plan n N).1 ≤ n := by
  rw [crack_plan_threads]
  split <;> omega

theorem crack_ranges_getElem (c : CString) (N : Nat) (D : Dictionary) (i : Nat) :
    ((crack_thread_datas c N D).map thread_range)[i]? =
      if i < (crack_plan D.length N).1 then
        some (i * (D.length / (crack_plan D.length N).1),
          if i = (crack_plan D.length N).1 - 1 then D.length
          else (i + 1) * (D.length / (crack_plan D.length N).1))
      else none := by
  rw [crack_ranges_eq, List.getElem?_map]
  by_cases h : i < (crack_plan D.length N).1
  · rw [List.getElem?_range h]; simp [h]
  · rw [List.getElem?_eq_none (by simpa using h)]; simp [h]

/-- Arithmetic of the partition: with `1 ≤ W ≤ n` and `inc = n / W`, the index
`min (k / inc) (W - 1)` is the only `i < W` whose range holds `k < n`. -/
theorem partition_index_unique (n W k i : Nat) (hW : 1 ≤ W) (hWn : W ≤ n)
    (hi : i < W) (hlo : i * (n / W) ≤ k)
    (hhi : k < (if i = W - 1 then n else (i + 1) * (n / W))) :
    i = min (k / (n / W)) (W - 1) := by
  have hinc : 0 < n / W := Nat.div_pos hWn hW
  have h1 : i ≤ k / (n / W) := (Nat.le_div_iff_mul_le hinc).mpr hlo
  by_cases hlast : i = W - 1
  · rw [hlast] at h1 ⊢
    exact (Nat.min_eq_right h1).symm
  · rw [if_neg hlast] at hhi
    have h2 : k / (n / W) < i + 1 := (Nat.div_lt_iff_lt_mul hinc).mpr hhi
    have h3 : k / (n / W) = i := by omega
    rw [h3]
    exact (Nat.min_eq_left (by omega)).symm

theorem partition_index_exists (n W k : Nat) (hW : 1 ≤ W) (hWn : W ≤ n) (hk : k < n) :
    min (k / (n / W)) (W - 1) < W ∧
    min (k / (n / W)) (W - 1) * (n / W) ≤ k ∧
    k < (if min (k / (n / W)) (W - 1) = W - 1 then n
         else (min (k / (n / W)) (W - 1) + 1) * (n / W)) := by
  have hinc : 0 < n / W := Nat.div_pos hWn hW
  have hle : k / (n / W) * (n / W) ≤ k := Nat.div_mul_le_self k (n / W)
  by_cases h : k / (n / W) < W - 1
  · rw [Nat.min_eq_left (Nat.le_of_lt h)]
    refine ⟨by omega, hle, ?_⟩
    rw [if_neg (by omega)]
    exact (Nat.div_lt_iff_lt_mul hinc).mp (Nat.lt_succ_self _)
  · have h2 : W - 1 ≤ k / (n / W) := by omega
    rw [Nat.min_eq_right h2]
    refine ⟨by omega, ?_, by simp [hk]⟩
    exact Nat.le_trans (Nat.mul_le_mul_right _ h2) hle

/-- Every thread's range lies inside the dictionary. -/
theorem crack_thread_datas_endPos_le (c : CString) (N : Nat) (D : Dictionary) :
    ∀ d ∈ crack_thread_datas c N D, d.startPos ≤ d.endPos ∧ d.endPos ≤ D.length := by
  intro d hd
  have hm : thread_range d ∈ (crack_thread_datas c N D).map thread_range :=
    List.mem_map_of_mem _ hd
  rw [crack_ranges_eq] at hm
  obtain ⟨k, hk, hkd⟩ := List.mem_map.mp hm
  have hk1 := List.mem_range.mp hk
  have e1 : d.startPos = k * (D.length / (crack_plan D.length N).1) := by
    have := congrArg Prod.fst hkd; simpa [thread_range] using this.symm
  have e2 : d.endPos = if k = (crack_plan D.length N).1 - 1 then D.length
      else (k + 1) * (D.length / (crack_plan D.length N).1) := by
    have := congrArg Prod.snd hkd; simpa [thread_range] using this.symm
  have hWinc : (crack_plan D.length N).1 * (D.length / (crack_plan D.length N).1) ≤ D.length :=
    Nat.mul_div_le _ _
  have hk2 : (k + 1) * (D.length / (crack_plan D.length N).1) ≤
      (crack_plan D.length N).1 * (D.length / (crack_plan D.length N).1) :=
    Nat.mul_le_mul_right _ (by omega)
  have hk3 : k * (D.length / (crack_plan D.length N).1) ≤
      (k + 1) * (D.length / (crack_plan D.length N).1) :=
    Nat.mul_le_mul_right _ (by omega)
  rw [e1, e2]
  split <;> omega

/-- Every dictionary index lies in the range of some thread. -/
theorem crack_thread_datas_cover (c : CString) (N : Nat) (D : Dictionary) (hN : 1 ≤ N)
    (j : Nat) (hj : j < D.length) :
    ∃ d ∈ crack_thread_datas c N D, d.startPos ≤ j ∧ j < d.endPos := by
  have hb := crack_plan_bounds D.length N hN (by omega)
  obtain ⟨h1, h2, h3⟩ := partition_index_exists D.length _ j hb.1 hb.2 hj
  have hg := crack_ranges_getElem c N D (min (j / (D.length / (crack_plan D.length N).1))
    ((crack_plan D.length N).1 - 1))
  rw [if_pos h1, List.getElem?_map] at hg
  cases hd : (crack_thread_datas c N D)[min (j / (D.length / (crack_plan D.length N).1))
    ((crack_plan D.length N).1 - 1)]? with
  | none => rw [hd] at hg; simp at hg
  | some d =>
    rw [hd] at hg
    simp only [Option.map_some', Option.some.injEq, thread_range, Prod.mk.injEq] at hg
    refine ⟨d, List.getElem?_mem hd, ?_, ?_⟩
    · rw [hg.1]; exact h2
    · rw [hg.2]; exact h3

/-! ## Steps of the threads -/

theorem crack_thread_step_data (H : Hash) (f : Nat) (t : CrackThread) :
    (crack_thread_step H f t).2.data = t.data := by
  unfold crack_thread_step
  split
  · split <;> rfl
  · simp only []; split <;> rfl
  · rfl

theorem crack_thread_step_inv (H : Hash) (f : Nat) (t : CrackThread) (h : ThreadInv H t) :
    ThreadInv H (crack_thread_step H f t).2 := by
  obtain ⟨h1, h2, h3, h4, h5, h6⟩ := h
  unfold crack_thread_step
  split
  next hpc =>
    have hw : t.ret.word = none := by
      cases hwd : t.ret.word with
      | none => rfl
      | some x => have := (h5 x hwd).1; rw [hpc] at this; cases this
    split
    next hc =>
      refine ⟨h1, h2, fun _ => hc.1, h4, ?_, h6⟩
      intro x hx; simp only [hw] at hx; cases hx
    next hc =>
      refine ⟨h1, h2, fun hb => (by cases hb), h4, ?_, h6⟩
      intro x hx; simp only [hw] at hx; cases hx
  next hpc =>
    have hw : t.ret.word = none := by
      cases hwd : t.ret.word with
      | none => rfl
      | some x => have := (h5 x hwd).1; rw [hpc] at this; cases this
    have hi := h3 hpc
    simp only []
    split
    next hm =>
      refine ⟨h1, h2, fun hb => (by cases hb), h4, ?_, ?_⟩
      · intro x hx
        simp only [Option.some.injEq] at hx
        subst hx
        exact ⟨rfl, hi, rfl, hm⟩
      · simp only [h6, hw]; simp
    next hm =>
      refine ⟨?_, ?_, fun hb => (by cases hb), ?_, ?_, ?_⟩
      · simp only []; omega
      · intro _; simp only []; omega
      · intro k hk1 hk2
        simp only [] at hk2
        by_cases hki : k = t.i
        · subst hki; exact hm
        · exact h4 k hk1 (by omega)
      · intro x hx; simp only [hw] at hx; cases hx
      · simp only [h6, hw]; simp; omega
  next hpc => exact ⟨h1, h2, h3, h4, h5, h6⟩

theorem crack_thread_step_word (H : Hash) (f : Nat) (t : CrackThread)
    (h : t.ret.word ≠ none) : (crack_thread_step H f t).2.ret.word ≠ none := by
  unfold crack_thread_step
  split
  · split <;> exact h
  · simp only []; split
    · simp
    · exact h
  · exact h

theorem crack_thread_step_flag (H : Hash) (f : Nat) (t : CrackThread) :
    (crack_thread_step H f t).1 = f ∨
      ((crack_thread_step H f t).1 = 1 ∧ (crack_thread_step H f t).2.ret.word ≠ none) := by
  unfold crack_thread_step
  split
  · split <;> (left; rfl)
  · simp only []; split
    · right; simp
    · left; rfl
  · left; rfl

theorem crack_thread_step_found (H : Hash) (f : Nat) (t : CrackThread)
    (h : (crack_thread_step H f t).1 ≠ 0) :
    f ≠ 0 ∨ (crack_thread_step H f t).2.ret.word ≠ none := by
  rcases crack_thread_step_flag H f t with h1 | h1
  · left; rw [h1] at h; exact h
  · right; exact h1.2

theorem crack_thread_step_found_mono (H : Hash) (f : Nat) (t : CrackThread) (h : f ≠ 0) :
    (crack_thread_step H f t).1 ≠ 0 := by
  unfold crack_thread_step
  split
  · split <;> exact h
  · simp only []; split
    · simp
    · exact h
  · exact h

theorem crack_thread_step_progress (H : Hash) (f : Nat) (t : CrackThread) (j : Nat)
    (hj : H (t.data.words.getD j []) t.data.salt = t.data.cipherText)
    (h1 : t.i ≤ j) (h2 : j < t.data.endPos) (h3 : t.pc ≠ ThreadPc.returned) :
    (crack_thread_step H f t).2.ret.word ≠ none ∨ f ≠ 0 ∨
      ((crack_thread_step H f t).2.i ≤ j ∧ j < (crack_thread_step H f t).2.data.endPos ∧
        (crack_thread_step H f t).2.pc ≠ ThreadPc.returned) := by
  unfold crack_thread_step
  split
  next hpc =>
    split
    next hc => right; right; exact ⟨h1, h2, by simp⟩
    next hc =>
      right; left
      intro hf
      exact hc ⟨by omega, hf⟩
  next hpc =>
    simp only []
    split
    next hm => left; simp
    next hm =>
      right; right
      refine ⟨?_, h2, by simp⟩
      simp only []
      by_cases hij : t.i = j
      · rw [hij] at hm; exact absurd hj hm
      · omega
  next hpc => exact absurd hpc h3

/-! ## Schedules and joins as sequences of steps -/

theorem threads_step_cases (H : Hash) :
    ∀ (ts : List CrackThread) (k f : Nat),
      threads_step H k f ts = (f, ts) ∨
      ∃ l1 t l2, ts = l1 ++ t :: l2 ∧
        threads_step H k f ts =
          ((crack_thread_step H f t).1, l1 ++ (crack_thread_step H f t).2 :: l2) := by
  intro ts
  induction ts with
  | nil => intro k f; left; cases k <;> rfl
  | cons t ts ih =>
    intro k f
    cases k with
    | zero => right; exact ⟨[], t, ts, rfl, rfl⟩
    | succ k =>
      rcases ih k f with h | ⟨l1, u, l2, h1, h2⟩
      · left; simp only [threads_step, h]
      · right
        refine ⟨t :: l1, u, l2, by simp [h1], ?_⟩
        simp only [threads_step, h2, List.cons_append]

theorem threads_step_reach (H : Hash) (k f : Nat) (ts : List CrackThread) :
    Relation.ReflTransGen (ThreadsStep H) (f, ts) (threads_step H k f ts) := by
  rcases threads_step_cases H ts k f with h | ⟨l1, t, l2, h1, h2⟩
  · rw [h]
  · rw [h2, h1]
    exact Relation.ReflTransGen.single (ThreadsStep.step f l1 t l2)

theorem run_schedule_reach (H : Hash) :
    ∀ (sched : List Nat) (f : Nat) (ts : List CrackThread),
      Relation.ReflTransGen (ThreadsStep H) (f, ts) (run_schedule H sched f ts) := by
  intro sched
  induction sched with
  | nil => intro f ts; exact Relation.ReflTransGen.refl
  | cons k sched ih =>
    intro f ts
    simp only [run_schedule]
    exact Relation.ReflTransGen.trans (threads_step_reach H k f ts) (ih _ _)

theorem crack_thread_run_reach (H : Hash) (l1 l2 : List CrackThread) :
    ∀ (fuel f : Nat) (t : CrackThread),
      Relation.ReflTransGen (ThreadsStep H) (f, l1 ++ t :: l2)
        ((crack_thread_run H fuel f t).1, l1 ++ (crack_thread_run H fuel f t).2 :: l2) := by
  intro fuel
  induction fuel with
  | zero => intro f t; exact Relation.ReflTransGen.refl
  | succ fuel ih =>
    intro f t
    simp only [crack_thread_run]
    exact Relation.ReflTransGen.head (ThreadsStep.step f l1 t l2) (ih _ _)

theorem finish_threads_reach (H : Hash) :
    ∀ (ts l1 : List CrackThread) (f : Nat),
      Relation.ReflTransGen (ThreadsStep H) (f, l1 ++ ts)
        ((finish_threads H f ts).1, l1 ++ (finish_threads H f ts).2) := by
  intro ts
  induction ts with
  | nil => intro l1 f; exact Relation.ReflTransGen.refl
  | cons t ts ih =>
    intro l1 f
    simp only [finish_threads]
    refine Relation.ReflTransGen.trans (crack_thread_run_reach H l1 ts (crack_thread_fuel t) f t) ?_
    have h := ih (l1 ++ [(crack_thread_run H (crack_thread_fuel t) f t).2])
      (crack_thread_run H (crack_thread_fuel t) f t).1
    simpa using h

/-- The joined threads are reached from the created ones by thread steps. -/
theorem crack_joined_reach (H : Hash) (c : CString) (N : Nat) (D : Dictionary)
    (sched : List Nat) :
    ∃ f, Relation.ReflTransGen (ThreadsStep H)
      (0, (crack_thread_datas c N D).map crack_thread_start)
      (f, crack_joined H c N D sched) := by
  have h := finish_threads_reach H
    (run_schedule H sched 0 ((crack_thread_datas c N D).map crack_thread_start)).2 []
    (run_schedule H sched 0 ((crack_thread_datas c N D).map crack_thread_start)).1
  exact ⟨_, Relation.ReflTransGen.trans
    (run_schedule_reach H sched 0 ((crack_thread_datas c N D).map crack_thread_start))
    (by simpa [crack_joined] using h)⟩

/-! ## Every thread returns -/

theorem crack_thread_step_measure (H : Hash) (f : Nat) (t : CrackThread) :
    thread_measure (crack_thread_step H f t).2 ≤ thread_measure t - 1 := by
  unfold crack_thread_step
  split
  next hpc =>
    split
    next hc => simp only [thread_measure, hpc]; omega
    next hc => simp [thread_measure]
  next hpc =>
    simp only []
    split
    · simp [thread_measure]
    · simp only [thread_measure, hpc]; omega
  next hpc => simp [thread_measure, hpc]

theorem crack_thread_run_returned (H : Hash) :
    ∀ (fuel f : Nat) (t : CrackThread), thread_measure t ≤ fuel →
      (crack_thread_run H fuel f t).2.pc = ThreadPc.returned := by
  intro fuel
  induction fuel with
  | zero =>
    intro f t h
    simp only [crack_thread_run]
    unfold thread_measure at h
    split at h
    · omega
    · omega
    · assumption
  | succ fuel ih =>
    intro f t h
    simp only [crack_thread_run]
    apply ih
    have := crack_thread_step_measure H f t
    omega

theorem thread_measure_le_fuel (t : CrackThread) : thread_measure t ≤ crack_thread_fuel t := by
  unfold thread_measure crack_thread_fuel
  split <;> omega

theorem finish_threads_returned (H : Hash) :
    ∀ (ts : List CrackThread) (f : Nat), ∀ t ∈ (finish_threads H f ts).2,
      t.pc = ThreadPc.returned := by
  intro ts
  induction ts with
  | nil => intro f t ht; simp [finish_threads] at ht
  | cons u ts ih =>
    intro f t ht
    simp only [finish_threads, List.mem_cons] at ht
    rcases ht with ht | ht
    · rw [ht]; exact crack_thread_run_returned H _ f u (thread_measure_le_fuel u)
    · exact ih _ t ht

/-- Every thread has returned when `crack_call` has joined them. -/
theorem crack_joined_returned (H : Hash) (c : CString) (N : Nat) (D : Dictionary)
    (sched : List Nat) : ∀ t ∈ crack_joined H c N D sched, t.pc = ThreadPc.returned := by
  intro t ht
  exact finish_threads_returned H _ _ t ht

/-! ## Invariants of the steps -/

theorem threadsInv_step (H : Hash) (c : CString) (D : Dictionary)
    (s s2 : Nat × List CrackThread) (hs : ThreadsStep H s s2) (h : ThreadsInv H c D s) :
    ThreadsInv H c D s2 := by
  cases hs with
  | step f l1 t l2 =>
    intro u hu
    simp only [List.mem_append, List.mem_cons] at hu
    have ht := h t (by simp)
    rcases hu with hu | hu | hu
    · exact h u (by simp [hu])
    · subst hu
      rw [crack_thread_step_data]
      exact ⟨ht.1, ht.2.1, ht.2.2.1, ht.2.2.2.1, crack_thread_step_inv H f t ht.2.2.2.2⟩
    · exact h u (by simp [hu])

theorem foundInv_step (H : Hash) (s s2 : Nat × List CrackThread) (hs : ThreadsStep H s s2)
    (h : FoundInv s) : FoundInv s2 := by
  cases hs with
  | step f l1 t l2 =>
    intro hf
    rcases crack_thread_step_found H f t hf with h1 | h1
    · obtain ⟨u, hu, hw⟩ := h h1
      simp only [List.mem_append, List.mem_cons] at hu
      rcases hu with hu | hu | hu
      · exact ⟨u, by simp [hu], hw⟩
      · subst hu
        exact ⟨_, by simp, crack_thread_step_word H f u hw⟩
      · exact ⟨u, by simp [hu], hw⟩
    · exact ⟨_, by simp, h1⟩

theorem word_step (H : Hash) (f : Nat) (l1 l2 : List CrackThread) (t : CrackThread)
    (h : ∃ u ∈ l1 ++ t :: l2, u.ret.word ≠ none) :
    ∃ u ∈ l1 ++ (crack_thread_step H f t).2 :: l2, u.ret.word ≠ none := by
  obtain ⟨u, hu, hw⟩ := h
  simp only [List.mem_append, List.mem_cons] at hu
  rcases hu with hu | hu | hu
  · exact ⟨u, by simp [hu], hw⟩
  · subst hu
    exact ⟨_, by simp, crack_thread_step_word H f u hw⟩
  · exact ⟨u, by simp [hu], hw⟩

theorem progressInv_step (H : Hash) (c : CString) (D : Dictionary) (j : Nat)
    (hj : H (D.getD j []) (c.take SALT_LENGTH) = c)
    (s s2 : Nat × List CrackThread) (hs : ThreadsStep H s s2)
    (h : ThreadsInv H c D s ∧ FoundInv s ∧ ProgressInv j s) :
    ThreadsInv H c D s2 ∧ FoundInv s2 ∧ ProgressInv j s2 := by
  refine ⟨threadsInv_step H c D s s2 hs h.1, foundInv_step H s s2 hs h.2.1, ?_⟩
  obtain ⟨hinv, hfound, hprog⟩ := h
  cases hs with
  | step f l1 t l2 =>
    rcases hprog with hw | ⟨u, hu, hu1, hu2, hu3⟩
    · left; exact word_step H f l1 l2 t hw
    · simp only [List.mem_append, List.mem_cons] at hu
      have hcase : u = t ∨ u ∈ l1 ∨ u ∈ l2 := by tauto
      rcases hcase with hu | hu | hu
      · subst hu
        have hd := hinv u (by simp)
        have hj2 : H (u.data.words.getD j []) u.data.salt = u.data.cipherText := by
          rw [hd.1, hd.2.1, hd.2.2.1]; exact hj
        rcases crack_thread_step_progress H f u j hj2 hu1 hu2 hu3 with h1 | h1 | h1
        · left; exact ⟨_, by simp, h1⟩
        · left; exact word_step H f l1 l2 u (hfound h1)
        · right; exact ⟨_, by simp, h1⟩
      · right; exact ⟨u, by simp [hu], hu1, hu2, hu3⟩
      · right; exact ⟨u, by simp [hu], hu1, hu2, hu3⟩

theorem threadsInv_reach (H : Hash) (c : CString) (D : Dictionary)
    (s s2 : Nat × List CrackThread) (hr : Relation.ReflTransGen (ThreadsStep H) s s2)
    (h : ThreadsInv H c D s) : ThreadsInv H c D s2 := by
  induction hr with
  | refl => exact h
  | tail _ hstep ih => exact threadsInv_step H c D _ _ hstep ih

theorem progressInv_reach (H : Hash) (c : CString) (D : Dictionary) (j : Nat)
    (hj : H (D.getD j []) (c.take SALT_LENGTH) = c)
    (s s2 : Nat × List CrackThread) (hr : Relation.ReflTransGen (ThreadsStep H) s s2)
    (h : ThreadsInv H c D s ∧ FoundInv s ∧ ProgressInv j s) :
    ThreadsInv H c D s2 ∧ FoundInv s2 ∧ ProgressInv j s2 := by
  induction hr with
  | refl => exact h
  | tail _ hstep ih => exact progressInv_step H c D j hj _ _ hstep ih

/-! ## The join loop and the reply of `crack_call` -/

theorem join_loop_none :
    ∀ (ts : List CrackThread) (stats : Statistics) (r : Option CString),
      (∀ t ∈ ts, t.ret.word = none) →
      (join_loop ts stats r).2 = r ∧
      (join_loop ts stats r).1.successCracks = stats.successCracks := by
  intro ts
  induction ts with
  | nil => intro stats r _; exact ⟨rfl, rfl⟩
  | cons t ts ih =>
    intro stats r h
    have ht : t.ret.word = none := h t (by simp)
    have h2 := ih (stats_add_crypt_call stats t.ret.numCalls) r
      (fun u hu => h u (by simp [hu]))
    simp only [join_loop, ht]
    exact h2

theorem join_loop_some (w : CString) :
    ∀ (ts : List CrackThread) (stats : Statistics) (r : Option CString),
      (∀ t ∈ ts, ∀ x, t.ret.word = some x → x = w) →
      (r = some w ∨ ∃ t ∈ ts, t.ret.word ≠ none) →
      (join_loop ts stats r).2 = some w := by
  intro ts
  induction ts with
  | nil =>
    intro stats r _ h
    rcases h with h | ⟨t, ht, _⟩
    · simpa [join_loop] using h
    · simp at ht
  | cons t ts ih =>
    intro stats r hall h
    have hall2 : ∀ u ∈ ts, ∀ x, u.ret.word = some x → x = w :=
      fun u hu => hall u (by simp [hu])
    cases hw : t.ret.word with
    | none =>
      simp only [join_loop, hw]
      apply ih _ _ hall2
      rcases h with h | ⟨u, hu, hu2⟩
      · left; exact h
      · simp only [List.mem_cons] at hu
        rcases hu with hu | hu
        · subst hu; exact absurd hw hu2
        · right; exact ⟨u, hu, hu2⟩
    | some x =>
      simp only [join_loop, hw]
      apply ih _ _ hall2
      left
      rw [hall t (by simp) x hw]

theorem join_loop_failedCracks :
    ∀ (ts : List CrackThread) (stats : Statistics) (r : Option CString),
      (join_loop ts stats r).1.failedCracks = stats.failedCracks := by
  intro ts
  induction ts with
  | nil => intro stats r; rfl
  | cons t ts ih =>
    intro stats r
    cases hw : t.ret.word with
    | none => simp only [join_loop, hw]; rw [ih]; rfl
    | some x => simp only [join_loop, hw]; rw [ih]; rfl

theorem crack_call_of_some (H : Hash) (c : CString) (N : Nat) (D : Dictionary)
    (stats : Statistics) (sched : List Nat) (w : CString)
    (h : (join_loop (crack_joined H c N D sched) stats none).2 = some w) :
    crack_call H c N D stats sched =
      (w, (join_loop (crack_joined H c N D sched) stats none).1) := by
  simp only [crack_call, h]

theorem crack_call_of_none (H : Hash) (c : CString) (N : Nat) (D : Dictionary)
    (stats : Statistics) (sched : List Nat)
    (h : (join_loop (crack_joined H c N D sched) stats none).2 = none) :
    crack_call H c N D stats sched =
      (FAILED, stats_add_crack_request_fail
        (join_loop (crack_joined H c N D sched) stats none).1) := by
  simp only [crack_call, h]

/-! ## The created threads -/

theorem crack_thread_start_inv (H : Hash) (d : CrackThreadData) :
    ThreadInv H (crack_thread_start d) := by
  refine ⟨Nat.le_refl _, fun h => h, fun h => (by cases h), ?_, ?_, ?_⟩
  · intro k h1 h2
    simp only [crack_thread_start] at h1 h2
    omega
  · intro x hx; simp [crack_thread_start] at hx
  · simp [crack_thread_start]

theorem crack_thread_datas_fields (c : CString) (N : Nat) (D : Dictionary) :
    ∀ d ∈ crack_thread_datas c N D,
      d.cipherText = c ∧ d.salt = c.take SALT_LENGTH ∧ d.words = D :=
  fun d hd => create_threads_loop_fields _ _ _ _ _ _ _ _ _ _ d hd

theorem threadsInv_init (H : Hash) (c : CString) (N : Nat) (D : Dictionary) :
    ThreadsInv H c D (0, (crack_thread_datas c N D).map crack_thread_start) := by
  intro t ht
  obtain ⟨d, hd, rfl⟩ := List.mem_map.mp ht
  have h1 := crack_thread_datas_fields c N D d hd
  have h2 := crack_thread_datas_endPos_le c N D d hd
  exact ⟨h1.1, h1.2.1, h1.2.2, h2.2, crack_thread_start_inv H d⟩

theorem progressInv_init (c : CString) (N : Nat) (D : Dictionary) (hN : 1 ≤ N)
    (j : Nat) (hj : j < D.length) :
    ProgressInv j (0, (crack_thread_datas c N D).map crack_thread_start) := by
  obtain ⟨d, hd, h1, h2⟩ := crack_thread_datas_cover c N D hN j hj
  right
  exact ⟨crack_thread_start d, List.mem_map_of_mem _ hd, h1, h2, by simp [crack_thread_start]⟩

/-- Every word a joined thread returns is a dictionary word hashing to the cipher text. -/
theorem crack_joined_sound (H : Hash) (c : CString) (N : Nat) (D : Dictionary)
    (sched : List Nat) :
    ∀ t ∈ crack_joined H c N D sched, ∀ x, t.ret.word = some x →
      x ∈ D ∧ H x (c.take SALT_LENGTH) = c := by
  intro t ht x hx
  obtain ⟨f, hr⟩ := crack_joined_reach H c N D sched
  have hinv := threadsInv_reach H c D _ _ hr (threadsInv_init H c N D) t ht
  obtain ⟨e1, e2, e3, hle, -, -, -, -, h5, -⟩ := hinv
  obtain ⟨-, hi, hxi, hh⟩ := h5 x hx
  refine ⟨?_, ?_⟩
  · rw [hxi, e3, List.getD_eq_getElem _ _ (by omega)]
    exact List.getElem_mem _
  · rw [← e2, ← e1]; exact hh

/-- When no dictionary word hashes to the cipher text, the request fails. -/
theorem crack_call_not_found (H : Hash) (c : CString) (N : Nat) (D : Dictionary)
    (stats : Statistics) (sched : List Nat)
    (hno : ∀ y ∈ D, H y (c.take SALT_LENGTH) ≠ c) :
    (crack_call H c N D stats sched).1 = FAILED ∧
    (crack_call H c N D stats sched).2.successCracks = stats.successCracks ∧
    (crack_call H c N D stats sched).2.failedCracks =
      (stats.failedCracks + 1) % UINT32_MOD := by
  have hnone : ∀ t ∈ crack_joined H c N D sched, t.ret.word = none := by
    intro t ht
    cases hw : t.ret.word with
    | none => rfl
    | some x =>
      have := crack_joined_sound H c N D sched t ht x hw
      exact absurd this.2 (hno x this.1)
  have hj := join_loop_none _ stats none hnone
  rw [crack_call_of_none H c N D stats sched hj.1]
  refine ⟨rfl, ?_, ?_⟩
  · simp only [stats_add_crack_request_fail]; exact hj.2
  · simp only [stats_add_crack_request_fail, join_loop_failedCracks]

/-- When a dictionary word hashes to the cipher text and every word that does
equals `w`, the reply is `w` and the failure branch is not taken. -/
theorem crack_call_found (H : Hash) (c : CString) (N : Nat) (D : Dictionary)
    (stats : Statistics) (sched : List Nat) (w : CString) (hN : 1 ≤ N)
    (hw : w ∈ D) (hc : H w (c.take SALT_LENGTH) = c)
    (huniq : ∀ y ∈ D, H y (c.take SALT_LENGTH) = c → y = w) :
    (crack_call H c N D stats sched).1 = w ∧
    (crack_call H c N D stats sched).2.failedCracks = stats.failedCracks := by
  obtain ⟨j, hjlt, hjw⟩ := List.getElem_of_mem hw
  have hj : H (D.getD j []) (c.take SALT_LENGTH) = c := by
    rw [List.getD_eq_getElem _ _ hjlt, hjw]; exact hc
  obtain ⟨f, hr⟩ := crack_joined_reach H c N D sched
  have hinv := progressInv_reach H c D j hj _ _ hr
    ⟨threadsInv_init H c N D, fun h => absurd rfl h, progressInv_init c N D hN j hjlt⟩
  have hex : ∃ t ∈ crack_joined H c N D sched, t.ret.word ≠ none := by
    rcases hinv.2.2 with h | ⟨t, ht, -, -, h3⟩
    · exact h
    · exact absurd (crack_joined_returned H c N D sched t ht) h3
  have hall : ∀ t ∈ crack_joined H c N D sched, ∀ x, t.ret.word = some x → x = w := by
    intro t ht x hx
    have := crack_joined_sound H c N D sched t ht x hx
    exact huniq x this.1 this.2
  have hres := join_loop_some w _ stats none hall (Or.inr hex)
  rw [crack_call_of_some H c N D stats sched w hres]
  exact ⟨rfl, join_loop_failedCracks _ _ _⟩

/-! ## The threads keep their arguments; the single-thread search -/

theorem threads_data_step (H : Hash) (s s2 : Nat × List CrackThread)
    (hs : ThreadsStep H s s2) :
    s2.2.map CrackThread.data = s.2.map CrackThread.data := by
  cases hs with
  | step f l1 t l2 => simp [crack_thread_step_data]

theorem threads_data_reach (H : Hash) (s s2 : Nat × List CrackThread)
    (hr : Relation.ReflTransGen (ThreadsStep H) s s2) :
    s2.2.map CrackThread.data = s.2.map CrackThread.data := by
  induction hr with
  | refl => rfl
  | tail _ hstep ih => rw [threads_data_step H _ _ hstep, ih]

/-- The joined threads are the created threads, in creation order. -/
theorem crack_joined_data (H : Hash) (c : CString) (N : Nat) (D : Dictionary)
    (sched : List Nat) :
    (crack_joined H c N D sched).map CrackThread.data = crack_thread_datas c N D := by
  obtain ⟨f, hr⟩ := crack_joined_reach H c N D sched
  have h := threads_data_reach H _ _ hr
  simp only [List.map_map] at h
  rw [h]
  have : (CrackThread.data ∘ crack_thread_start) = id := by
    funext d; rfl
  rw [this, List.map_id]

theorem crack_joined_length (H : Hash) (c : CString) (N : Nat) (D : Dictionary)
    (sched : List Nat) :
    (crack_joined H c N D sched).length = (crack_thread_datas c N D).length := by
  have h := congrArg List.length (crack_joined_data H c N D sched)
  simpa using h

/-- With one thread, the reply is the first dictionary word (by index) that
hashes to the cipher text, and the matching call is counted. -/
theorem crack_call_single_first_match (H : Hash) (c : CString) (N : Nat) (D : Dictionary)
    (stats : Statistics) (sched : List Nat) (j : Nat) (hN : 1 ≤ N)
    (hW : (crack_plan D.length N).1 = 1)
    (hj : j < D.length) (hjc : H (D.getD j []) (c.take SALT_LENGTH) = c)
    (hfirst : ∀ k, k < j → H (D.getD k []) (c.take SALT_LENGTH) ≠ c) :
    crack_call H c N D stats sched =
      (D.getD j [],
        stats_add_crack_request_pass (stats_add_crypt_call stats (j + 1))) := by
  have hlen : (crack_joined H c N D sched).length = 1 := by
    rw [crack_joined_length, crack_thread_datas_length, hW]
  obtain ⟨t, ht⟩ := List.length_eq_one.mp hlen
  have hmem : t ∈ crack_joined H c N D sched := by rw [ht]; simp
  have hdata := crack_joined_data H c N D sched
  have hrange := crack_ranges_eq c N D
  rw [← hdata, ht, hW] at hrange
  simp only [thread_range, List.map_cons, List.map_nil, List.range_succ, List.range_zero,
    List.nil_append, Nat.zero_mul, if_true, List.cons.injEq, Prod.mk.injEq, and_true] at hrange
  have hstart : t.data.startPos = 0 := hrange.1
  obtain ⟨f, hr⟩ := crack_joined_reach H c N D sched
  have hinv := progressInv_reach H c D j hjc _ _ hr
    ⟨threadsInv_init H c N D, fun h => absurd rfl h, progressInv_init c N D hN j hj⟩
  have hex : ∃ u ∈ crack_joined H c N D sched, u.ret.word ≠ none := by
    rcases hinv.2.2 with h | ⟨u, hu, -, -, h3⟩
    · exact h
    · exact absurd (crack_joined_returned H c N D sched u hu) h3
  obtain ⟨u, hu, huw⟩ := hex
  rw [ht] at hu
  simp only [List.mem_singleton] at hu
  subst hu
  obtain ⟨e1, e2, e3, -, -, -, -, h4, h5, h6⟩ := hinv.1 u hmem
  cases hw : u.ret.word with
  | none => exact absurd hw huw
  | some x =>
    obtain ⟨-, -, hx, hxc⟩ := h5 x hw
    rw [e1, e2, e3] at h4
    rw [e1, e2] at hxc
    rw [e3] at hx
    have hij : u.i = j := by
      rcases Nat.lt_trichotomy u.i j with h | h | h
      · exact absurd (hx ▸ hxc) (hfirst u.i h)
      · exact h
      · exact absurd hjc (h4 j (by omega) h)
    have hnum : u.ret.numCalls = j + 1 := by
      rw [h6, hw, hij, hstart]; simp
    have hjoin : join_loop (crack_joined H c N D sched) stats none =
        (stats_add_crack_request_pass (stats_add_crypt_call stats (j + 1)), some x) := by
      rw [ht]; simp [join_loop, hw, hnum]
    have h2 : (join_loop (crack_joined H c N D sched) stats none).2 = some x := by
      rw [hjoin]
    rw [crack_call_of_some H c N D stats sched x h2, hjoin, hx, hij]

/-! ## Characters -/

theorem uint32_le_iff (a b : UInt32) : a ≤ b ↔ a.toNat ≤ b.toNat := by
  simp [UInt32.le_def, BitVec.le_def, UInt32.toNat]

theorem isalpha_eq (c : Char) : isalpha c = c.isAlpha := by
  simp only [isalpha, Char.isAlpha, Char.isUpper, Char.isLower, Char.toNat, ge_iff_le]
  have e1 : ∀ n : UInt32, (decide (n ≤ c.val)) = decide (n.toNat ≤ c.val.toNat) := by
    intro n; simp [uint32_le_iff]
  have e2 : ∀ n : UInt32, (decide (c.val ≤ n)) = decide (c.val.toNat ≤ n.toNat) := by
    intro n; simp [uint32_le_iff]
  rw [e1, e1, e2, e2]
  rfl

theorem isdigit_eq (c : Char) : isdigit c = c.isDigit := by
  simp only [isdigit, Char.isDigit, Char.toNat, ge_iff_le]
  have e1 : ∀ n : UInt32, (decide (n ≤ c.val)) = decide (n.toNat ≤ c.val.toNat) := by
    intro n; simp [uint32_le_iff]
  have e2 : ∀ n : UInt32, (decide (c.val ≤ n)) = decide (c.val.toNat ≤ n.toNat) := by
    intro n; simp [uint32_le_iff]
  rw [e1, e2]
  rfl

theorem char_eq_ofNat_iff (c : Char) (k : Nat) (hk : (Char.ofNat k).toNat = k) :
    c = Char.ofNat k ↔ c.toNat = k := by
  constructor
  · intro h; subst h; exact hk
  · intro h
    have := congrArg Char.ofNat h
    rwa [Char.ofNat_toNat] at this

/-- A salt character is a letter, a digit, a full stop or a slash. -/
theorem valid_salt_character_iff (c : Char) :
    valid_salt_character c = true ↔
      (c.isAlpha = true ∨ c.isDigit = true ∨ c = '.' ∨ c = '/') := by
  have h1 : c = '.' ↔ c.toNat = 46 := char_eq_ofNat_iff c 46 rfl
  have h2 : c = '/' ↔ c.toNat = 47 := char_eq_ofNat_iff c 47 rfl
  rw [← isalpha_eq, ← isdigit_eq, h1, h2]
  simp only [valid_salt_character, isdigit, ASCII_MIN, ASCII_MAX, Bool.or_eq_true,
    Bool.and_eq_true, decide_eq_true_eq]
  constructor
  · rintro (h | h)
    · left; exact h
    · right; omega
  · rintro (h | h | h | h)
    · left; exact h
    · right; omega
    · right; omega
    · right; omega

theorem valid_salt_iff (s : CString) :
    valid_salt s = true ↔
      (s.length = 2 ∧ ∀ ch ∈ s, ch.isAlpha = true ∨ ch.isDigit = true ∨ ch = '.' ∨ ch = '/') := by
  match s with
  | [] => simp [valid_salt, SALT_LENGTH]
  | [a] => simp [valid_salt, SALT_LENGTH]
  | [a, b] =>
    have hloop : valid_salt [a, b] = (valid_salt_character a && valid_salt_character b) := by
      simp [valid_salt, SALT_LENGTH, valid_salt_loop, charAt]
    rw [hloop]
    simp only [List.length_cons, List.length_nil, List.mem_cons, List.mem_singleton,
      List.not_mem_nil, or_false, forall_eq_or_imp, forall_eq, ← valid_salt_character_iff,
      Bool.and_eq_true]
    simp
  | a :: b :: c :: rest => simp [valid_salt, SALT_LENGTH]

/-- What `valid_thread_num` tests: the value `atoi` reads lies in 1..50 and the
field has at most two characters. -/
theorem valid_thread_num_iff (s : CString) :
    valid_thread_num s = true ↔ (1 ≤ atoi s ∧ atoi s ≤ 50 ∧ s.length ≤ 2) := by
  unfold valid_thread_num
  simp only [MIN_THREADS, MAX_THREADS]
  by_cases h1 : atoi s < 1
  · simp [h1]
  · by_cases h2 : atoi s > 50
    · simp [h1, h2]
    · by_cases h3 : s.length > 2
      · simp [h1, h2, h3]
      · simp [h1, h2, h3]; omega

theorem demo_hash_injective (s : CString) :
    ∀ a b, demo_hash a s = demo_hash b s → a = b := by
  intro a b h
  exact List.append_cancel_left h

/-! ## The crack engine -/

/-- C1: when the word `w` is in the dictionary, the hash is injective in the word
for the salt `s` and the cipher text `H w s` begins with `s`, `crack_call` on that
cipher text replies `w` for every thread count `N ≥ 1` (so for 1..50) and under
every interleaving of its threads; the failure branch is not taken (the count of
failed cracks is unchanged and the reply is the `:failed` text only if `w` is). -/
theorem crack_call_returns_word (H : Hash) (D : Dictionary) (w s : CString) (N : Nat)
    (stats : Statistics) (sched : List Nat)
    (hw : w ∈ D) (hN : 1 ≤ N)
    (hinj : ∀ a b, H a s = H b s → a = b)
    (hpre : (H w s).take SALT_LENGTH = s) :
    (crack_call H (H w s) N D stats sched).1 = w ∧
    (crack_call H (H w s) N D stats sched).2.failedCracks = stats.failedCracks ∧
    (w ≠ FAILED → (crack_call H (H w s) N D stats sched).1 ≠ FAILED) := by
  have h := crack_call_found H (H w s) N D stats sched w hN hw (by rw [hpre])
    (fun y _ hy => hinj y w (by rw [hpre] at hy; exact hy))
  exact ⟨h.1, h.2, fun hne => by rw [h.1]; exact hne⟩

theorem crack_call_returns_word_witness :
    (crack_call demo_hash (demo_hash "hello".toList "ab".toList) 2 demo_dictionary
      configure_stats [1, 0, 1, 0]).1 = "hello".toList :=
  (crack_call_returns_word demo_hash demo_dictionary "hello".toList "ab".toList 2
    configure_stats [1, 0, 1, 0] (by decide) (by decide)
    (demo_hash_injective "ab".toList) (by decide)).1

/-- C2: when the word `w` is not in the dictionary (hash injective in the word
for the salt `s`, cipher text `H w s` beginning with `s`), `crack_call` replies
`:failed` for every thread count `N ≥ 1` and under every interleaving; it counts
one failed crack and no successful one. -/
theorem crack_call_fails_for_absent_word (H : Hash) (D : Dictionary) (w s : CString)
    (N : Nat) (stats : Statistics) (sched : List Nat)
    (hw : w ∉ D) (hN : 1 ≤ N)
    (hinj : ∀ a b, H a s = H b s → a = b)
    (hpre : (H w s).take SALT_LENGTH = s) :
    (crack_call H (H w s) N D stats sched).1 = FAILED ∧
    (crack_call H (H w s) N D stats sched).2.successCracks = stats.successCracks ∧
    (crack_call H (H w s) N D stats sched).2.failedCracks =
      (stats.failedCracks + 1) % UINT32_MOD := by
  have _ := hN
  apply crack_call_not_found
  intro y hy hyc
  rw [hpre] at hyc
  exact hw (hinj y w hyc ▸ hy)

theorem crack_call_fails_for_absent_word_witness :
    (crack_call demo_hash (demo_hash "nope".toList "ab".toList) 2 demo_dictionary
      configure_stats [1, 0, 0, 1]).1 = FAILED :=
  (crack_call_fails_for_absent_word demo_hash demo_dictionary "nope".toList "ab".toList 2
    configure_stats [1, 0, 0, 1] (by decide) (by decide)
    (demo_hash_injective "ab".toList) (by decide)).1

/-- C3, as stated, fails: under a hash that sends the words `a` and `b` to the
same cipher text, over the dictionary `[a, b]` the request with one thread
replies `a`, the first match, and the request with two threads, the second
running first, replies `b`: the join loop keeps the word of the last thread
that found one. -/
theorem crack_call_reply_depends_on_worker_count :
    (crack_call colliding_hash "ab...........".toList 1 ["a".toList, "b".toList]
        configure_stats []).1 = "a".toList ∧
    (crack_call colliding_hash "ab...........".toList 2 ["a".toList, "b".toList]
        configure_stats [1, 1]).1 = "b".toList ∧
    ¬ (∀ N1 N2 : Nat, 1 ≤ N1 → N1 ≤ 50 → 1 ≤ N2 → N2 ≤ 50 →
        ∀ sched1 sched2 : List Nat,
          (crack_call colliding_hash "ab...........".toList N1 ["a".toList, "b".toList]
            configure_stats sched1).1 =
          (crack_call colliding_hash "ab...........".toList N2 ["a".toList, "b".toList]
            configure_stats sched2).1) := by
  refine ⟨by decide, by decide, ?_⟩
  intro h
  have h12 := h 1 2 (by decide) (by decide) (by decide) (by decide) [] [1, 1]
  revert h12
  decide

/-- C3, amended: worker-count invariance.  When the dictionary words that hash
to the cipher text are all the same string (as they are when the hash is
injective in the word for the salt of the cipher text), the reply of
`crack_call` is the same string for all thread counts `N1, N2 ≥ 1` (so for all
of 1..50) and all interleavings; taking `N2 = 1`, the multi-worker search
replies what the single-worker search replies. -/
theorem crack_call_worker_count_invariant (H : Hash) (c : CString) (D : Dictionary)
    (N1 N2 : Nat) (stats1 stats2 : Statistics) (sched1 sched2 : List Nat)
    (hN1 : 1 ≤ N1) (hN2 : 1 ≤ N2)
    (hsame : ∀ y ∈ D, ∀ z ∈ D, H y (c.take SALT_LENGTH) = c →
      H z (c.take SALT_LENGTH) = c → z = y) :
    (crack_call H c N1 D stats1 sched1).1 = (crack_call H c N2 D stats2 sched2).1 := by
  by_cases hex : ∃ y ∈ D, H y (c.take SALT_LENGTH) = c
  · obtain ⟨y, hy, hyc⟩ := hex
    have huniq : ∀ z ∈ D, H z (c.take SALT_LENGTH) = c → z = y :=
      fun z hz hzc => hsame y hy z hz hyc hzc
    rw [(crack_call_found H c N1 D stats1 sched1 y hN1 hy hyc huniq).1,
      (crack_call_found H c N2 D stats2 sched2 y hN2 hy hyc huniq).1]
  · have hno : ∀ y ∈ D, H y (c.take SALT_LENGTH) ≠ c := fun y hy hyc => hex ⟨y, hy, hyc⟩
    rw [(crack_call_not_found H c N1 D stats1 sched1 hno).1,
      (crack_call_not_found H c N2 D stats2 sched2 hno).1]

theorem crack_call_worker_count_invariant_witness :
    (crack_call demo_hash "abworld".toList 3 demo_dictionary configure_stats [2, 1, 0, 2, 1]).1 =
      (crack_call demo_hash "abworld".toList 1 demo_dictionary configure_stats []).1 :=
  crack_call_worker_count_invariant demo_hash "abworld".toList demo_dictionary 3 1
    configure_stats configure_stats [2, 1, 0, 2, 1] [] (by decide) (by decide)
    (fun y _ z _ hy hz => demo_hash_injective _ z y (hz.trans hy.symm))

/-- C5: for a dictionary of `n ≥ 1` words and a request of `N ≥ 1` threads, with `W`
the number of threads `crack_call` creates (`1 ≤ W ≤ n`) and `inc = n / W`:
thread `i < W - 1` gets `[i * inc, (i + 1) * inc)`, the last thread gets
`[(W - 1) * inc, n)`, each range ends where the next one starts, every index
below `n` lies in exactly one range, and no range passes `n`. -/
theorem crack_call_ranges_partition (c : CString) (N : Nat) (D : Dictionary)
    (hN : 1 ≤ N) (hn : 1 ≤ D.length) :
    1 ≤ (crack_ranges c N D).length ∧ (crack_ranges c N D).length ≤ D.length ∧
    (∀ i, i + 1 < (crack_ranges c N D).length →
      (crack_ranges c N D)[i]? =
        some (i * (D.length / (crack_ranges c N D).length),
          (i + 1) * (D.length / (crack_ranges c N D).length))) ∧
    (crack_ranges c N D)[(crack_ranges c N D).length - 1]? =
      some (((crack_ranges c N D).length - 1) * (D.length / (crack_ranges c N D).length),
        D.length) ∧
    (∀ i r r2, (crack_ranges c N D)[i]? = some r → (crack_ranges c N D)[i + 1]? = some r2 →
      r.2 = r2.1) ∧
    (∀ k, k < D.length →
      ∃! i : Nat, ∃ r : Nat × Nat, (crack_ranges c N D)[i]? = some r ∧ r.1 ≤ k ∧ k < r.2) ∧
    (∀ r ∈ crack_ranges c N D, r.1 < r.2 ∧ r.2 ≤ D.length) := by
  have hlen : (crack_ranges c N D).length = (crack_plan D.length N).1 := by
    simp only [crack_ranges, List.length_map]; exact crack_thread_datas_length c N D
  have hb := crack_plan_bounds D.length N hN hn
  have hget := crack_ranges_getElem c N D
  rw [hlen]
  simp only [crack_ranges]
  have hinc : 0 < D.length / (crack_plan D.length N).1 := Nat.div_pos hb.2 hb.1
  have hWinc : (crack_plan D.length N).1 * (D.length / (crack_plan D.length N).1) ≤ D.length :=
    Nat.mul_div_le _ _
  refine ⟨hb.1, hb.2, ?_, ?_, ?_, ?_, ?_⟩
  · intro i hi
    rw [hget, if_pos (by omega), if_neg (by omega)]
  · rw [hget, if_pos (by omega), if_pos rfl]
  · intro i r r2 h1 h2
    rw [hget] at h1 h2
    by_cases hi : i + 1 < (crack_plan D.length N).1
    · rw [if_pos (by omega), if_neg (by omega)] at h1
      rw [if_pos hi] at h2
      simp only [Option.some.injEq] at h1 h2
      rw [← h1, ← h2]
    · rw [if_neg hi] at h2; cases h2
  · intro k hk
    obtain ⟨e1, e2, e3⟩ := partition_index_exists D.length _ k hb.1 hb.2 hk
    have hg0 := hget (min (k / (D.length / (crack_plan D.length N).1))
      ((crack_plan D.length N).1 - 1))
    rw [if_pos e1] at hg0
    refine ⟨min (k / (D.length / (crack_plan D.length N).1)) ((crack_plan D.length N).1 - 1),
      ⟨_, hg0, e2, e3⟩, ?_⟩
    rintro i ⟨r, hr, hr1, hr2⟩
    rw [hget] at hr
    by_cases hi : i < (crack_plan D.length N).1
    · rw [if_pos hi] at hr
      simp only [Option.some.injEq] at hr
      rw [← hr] at hr1 hr2
      exact partition_index_unique D.length _ k i hb.1 hb.2 hi hr1 hr2
    · rw [if_neg hi] at hr; cases hr
  · intro r hr
    obtain ⟨i, hi⟩ := List.getElem?_of_mem hr
    rw [hget] at hi
    by_cases hiW : i < (crack_plan D.length N).1
    · rw [if_pos hiW] at hi
      simp only [Option.some.injEq] at hi
      rw [← hi]
      have h1 : (i + 1) * (D.length / (crack_plan D.length N).1) ≤
          (crack_plan D.length N).1 * (D.length / (crack_plan D.length N).1) :=
        Nat.mul_le_mul_right _ (by omega)
      have h2 : i * (D.length / (crack_plan D.length N).1) + D.length / (crack_plan D.length N).1
          = (i + 1) * (D.length / (crack_plan D.length N).1) := by ring
      simp only []
      split <;> omega
    · rw [if_neg hiW] at hi; cases hi

theorem crack_call_ranges_partition_witness :
    (crack_ranges "abhello".toList 2 (demo_dictionary ++ demo_dictionary ++ ["x".toList]))[1]? =
      some ((2 - 1) * (7 / 2), 7) := by
  have h := (crack_call_ranges_partition "abhello".toList 2
    (demo_dictionary ++ demo_dictionary ++ ["x".toList]) (by decide) (by decide)).2.2.2.1
  exact h

/-- C6: for a request of `N ≥ 1` threads over a dictionary of `n` words,
`crack_call` creates (and joins) 1 thread when `N = 1` or `N > n`, and `N`
threads otherwise. -/
theorem crack_call_effective_threads (H : Hash) (c : CString) (N : Nat) (D : Dictionary)
    (sched : List Nat) (hN : 1 ≤ N) :
    (crack_thread_datas c N D).length = (if N = 1 ∨ D.length < N then 1 else N) ∧
    (crack_joined H c N D sched).length = (if N = 1 ∨ D.length < N then 1 else N) := by
  have _ := hN
  rw [crack_joined_length, crack_thread_datas_length, crack_plan_threads]
  exact ⟨rfl, rfl⟩

theorem crack_call_effective_threads_witness :
    (crack_thread_datas "abhello".toList 2 demo_dictionary).length = 2 :=
  (crack_call_effective_threads demo_hash "abhello".toList 2 demo_dictionary [] (by decide)).1

/-- C7, as stated, fails: for the 3-word dictionary and `N = 4`, `crack_call`
creates one thread, not three. -/
theorem crack_call_no_cap_to_dictionary_size :
    (crack_thread_datas (demo_hash "hello".toList "ab".toList) 4 demo_dictionary).length = 1 ∧
    (crack_thread_datas (demo_hash "hello".toList "ab".toList) 4 demo_dictionary).length ≠ 3 := by
  decide

/-- C7, amended: when the requested thread count `N` exceeds the dictionary size,
`crack_call` uses one thread, whose range is the whole dictionary; for the 3-word
dictionary hello, world, abc and `N = 4` it uses one thread over `[0, 3)` and
replies `hello` for the cipher text of `hello` (a hash beginning with its salt). -/
theorem crack_call_single_thread_when_oversubscribed (H : Hash) (c : CString) (N : Nat)
    (D : Dictionary) (stats : Statistics) (sched : List Nat)
    (hN : D.length < N)
    (hpre : (H "hello".toList "ab".toList).take SALT_LENGTH = "ab".toList) :
    crack_ranges c N D = [(0, D.length)] ∧
    (crack_joined H c N D sched).length = 1 ∧
    crack_ranges (H "hello".toList "ab".toList) 4 demo_dictionary = [(0, 3)] ∧
    (crack_call H (H "hello".toList "ab".toList) 4 demo_dictionary stats sched).1 =
      "hello".toList := by
  have hW : (crack_plan D.length N).1 = 1 := by
    rw [crack_plan_threads, if_pos (Or.inr hN)]
  have hW4 : (crack_plan demo_dictionary.length 4).1 = 1 := by decide
  refine ⟨?_, ?_, ?_, ?_⟩
  · simp only [crack_ranges]
    rw [crack_ranges_eq, hW]
    simp [List.range_succ]
  · rw [crack_joined_length, crack_thread_datas_length, hW]
  · simp only [crack_ranges]
    rw [crack_ranges_eq, hW4]
    simp [List.range_succ, demo_dictionary]
  · have h := crack_call_single_first_match H (H "hello".toList "ab".toList) 4 demo_dictionary
      stats sched 0 (by decide) hW4 (by decide) (by rw [hpre]; rfl)
      (fun k hk => absurd hk (Nat.not_lt_zero k))
    rw [h]
    rfl

theorem crack_call_single_thread_when_oversubscribed_witness :
    (crack_call demo_hash (demo_hash "hello".toList "ab".toList) 4 demo_dictionary
      configure_stats [0, 0]).1 = "hello".toList :=
  (crack_call_single_thread_when_oversubscribed demo_hash "abhello".toList 4 demo_dictionary
    configure_stats [0, 0] (by decide) (by decide)).2.2.2

/-! ## Commands -/

/-- C4: for a command line whose fields are `crypt`, TEXT and a valid SALT,
`process_command` replies `H TEXT SALT` (the 13 characters beginning with SALT
that the hash produces), adds 1 to `crypts` and 1 to `cryptCalls` (modulo `2 ^ 32`,
the counters being `uint32_t`) and leaves every other statistic as it was. -/
theorem process_command_crypt (H : Hash) (command text salt : CString) (dict : Dictionary)
    (stats : Statistics) (sched : List Nat)
    (hsplit : split_by_char command (Char.ofNat 32) MAX_FIELDS = ["crypt".toList, text, salt])
    (hsalt : valid_salt salt = true) :
    process_command H command dict stats sched =
      (H text salt,
        { stats with
          crypts := (stats.crypts + 1) % UINT32_MOD
          cryptCalls := (stats.cryptCalls + 1) % UINT32_MOD }) := by
  unfold process_command
  rw [hsplit]
  simp only [if_neg (show ¬ ("crypt".toList = "crack".toList) by decide), if_true, hsalt]
  rfl

theorem process_command_crypt_witness :
    process_command demo_hash "crypt hello ab".toList demo_dictionary configure_stats [] =
      ("abhello".toList, { configure_stats with crypts := 1, cryptCalls := 1 }) :=
  process_command_crypt demo_hash "crypt hello ab".toList "hello".toList "ab".toList
    demo_dictionary configure_stats [] (by decide) (by decide)

/-- C8: for a command line whose fields are `crack`, CIPHER and N, if CIPHER is
not 13 characters long or one of its first two characters is not a valid salt
character, `process_command` replies `:invalid`; only `cracks` changes, so
`cryptCalls`, `successCracks` and `failedCracks` are as before and the reply does
not depend on the hash. -/
theorem process_command_crack_bad_cipher (H : Hash) (command cipher n : CString)
    (dict : Dictionary) (stats : Statistics) (sched : List Nat)
    (hsplit : split_by_char command (Char.ofNat 32) MAX_FIELDS = ["crack".toList, cipher, n])
    (hbad : cipher.length ≠ CIPHER_LENGTH ∨ valid_salt_character (charAt cipher 0) = false ∨
      valid_salt_character (charAt cipher 1) = false) :
    process_command H command dict stats sched =
      (INVALID, { stats with cracks := (stats.cracks + 1) % UINT32_MOD }) := by
  unfold process_command
  rw [hsplit]
  simp only [if_true]
  by_cases hlen : cipher.length ≠ CIPHER_LENGTH
  · have hc : (decide (cipher.length ≠ CIPHER_LENGTH) || !valid_thread_num n) = true := by
      simp [hlen]
    rw [if_pos hc]; rfl
  · by_cases hn : valid_thread_num n = true
    · have hc : ¬ (decide (cipher.length ≠ CIPHER_LENGTH) || !valid_thread_num n) = true := by
        simp [hlen, hn]
      have hch : (!(valid_salt_character (charAt cipher 0) &&
          valid_salt_character (charAt cipher 1))) = true := by
        rcases hbad with h | h | h
        · exact absurd h hlen
        · simp [h]
        · simp [h]
      rw [if_neg hc, if_pos hch]; rfl
    · have hc : (decide (cipher.length ≠ CIPHER_LENGTH) || !valid_thread_num n) = true := by
        simp [hn]
      rw [if_pos hc]; rfl

theorem process_command_crack_bad_cipher_witness :
    process_command demo_hash "crack abcdefghij 1".toList demo_dictionary configure_stats [] =
      (INVALID, { configure_stats with cracks := 1 }) :=
  process_command_crack_bad_cipher demo_hash "crack abcdefghij 1".toList "abcdefghij".toList
    "1".toList demo_dictionary configure_stats [] (by decide) (Or.inl (by decide))

/-- C9, where the code departs from it: the thread-count field `5x` is not a decimal
numeral, yet `valid_thread_num` accepts it (and ` 5`, `+5`, `5 ` likewise), and
the command `crack abcdefghijklm 5x` is served as a crack with 5 requested
threads: three hash calls, the reply `:failed` and not `:invalid`. -/
theorem valid_thread_num_accepts_non_numeral :
    valid_thread_num "5x".toList = true ∧ valid_thread_num " 5".toList = true ∧
    valid_thread_num "+5".toList = true ∧ valid_thread_num "5 ".toList = true ∧
    atoi "5x".toList = 5 ∧
    split_by_char "crack abcdefghijklm 5x".toList (Char.ofNat 32) MAX_FIELDS =
      ["crack".toList, "abcdefghijklm".toList, "5x".toList] ∧
    process_command demo_hash "crack abcdefghijklm 5x".toList demo_dictionary
        configure_stats [] =
      (FAILED, { configure_stats with cracks := 1, failedCracks := 1, cryptCalls := 3 }) := by
  decide

/-- C10: `valid_salt s` holds exactly when `s` has length 2 and each character is
an ASCII letter, a digit, a full stop or a slash; and a command line whose
fields are `crypt`, TEXT and a SALT failing this test, or `crypt` alone, or
`crypt` and one more field, is answered `:invalid` with only `crypts` changed:
no hash call is made (`cryptCalls` is as before). -/
theorem valid_salt_and_crypt_rejection (s : CString) (H : Hash) (command text salt : CString)
    (dict : Dictionary) (stats : Statistics) (sched : List Nat)
    (hcase :
      (split_by_char command (Char.ofNat 32) MAX_FIELDS = ["crypt".toList, text, salt] ∧
        valid_salt salt = false) ∨
      split_by_char command (Char.ofNat 32) MAX_FIELDS = ["crypt".toList] ∨
      split_by_char command (Char.ofNat 32) MAX_FIELDS = ["crypt".toList, text]) :
    (valid_salt s = true ↔
      (s.length = 2 ∧
        ∀ ch ∈ s, ch.isAlpha = true ∨ ch.isDigit = true ∨ ch = '.' ∨ ch = '/')) ∧
    process_command H command dict stats sched =
      (INVALID, { stats with crypts := (stats.crypts + 1) % UINT32_MOD }) := by
  refine ⟨valid_salt_iff s, ?_⟩
  unfold process_command
  rcases hcase with ⟨hsplit, hsalt⟩ | hsplit | hsplit
  · rw [hsplit]
    simp only [if_neg (show ¬ ("crypt".toList = "crack".toList) by decide), if_true, hsalt]
    rfl
  · rw [hsplit]
    simp only [if_neg (show ¬ ("crypt".toList = "crack".toList) by decide), if_true]
    rfl
  · rw [hsplit]
    simp only [if_neg (show ¬ ("crypt".toList = "crack".toList) by decide), if_true]
    rfl

theorem valid_salt_and_crypt_rejection_witness :
    (valid_salt "a/".toList = true ↔
      ("a/".toList.length = 2 ∧
        ∀ ch ∈ "a/".toList, ch.isAlpha = true ∨ ch.isDigit = true ∨ ch = '.' ∨ ch = '/')) ∧
    process_command demo_hash "crypt hello !!".toList demo_dictionary configure_stats [] =
      (INVALID, { configure_stats with crypts := (configure_stats.crypts + 1) % UINT32_MOD }) :=
  valid_salt_and_crypt_rejection "a/".toList demo_hash "crypt hello !!".toList "hello".toList
    "!!".toList demo_dictionary configure_stats [] (Or.inl ⟨by decide, by decide⟩)

/-! ## What a command leaves untouched -/

theorem join_loop_frame :
    ∀ (ts : List CrackThread) (stats : Statistics) (r : Option CString),
      (join_loop ts stats r).1.numConnected = stats.numConnected ∧
      (join_loop ts stats r).1.numCompleted = stats.numCompleted ∧
      (join_loop ts stats r).1.cracks = stats.cracks ∧
      (join_loop ts stats r).1.crypts = stats.crypts := by
  intro ts
  induction ts with
  | nil => intro stats r; exact ⟨rfl, rfl, rfl, rfl⟩
  | cons t ts ih =>
    intro stats r
    cases hw : t.ret.word with
    | none =>
      simp only [join_loop, hw]
      exact ih _ _
    | some x =>
      simp only [join_loop, hw]
      exact ih _ _

theorem crack_call_frame (H : Hash) (c : CString) (N : Nat) (D : Dictionary)
    (stats : Statistics) (sched : List Nat) :
    (crack_call H c N D stats sched).2.numConnected = stats.numConnected ∧
    (crack_call H c N D stats sched).2.numCompleted = stats.numCompleted ∧
    (crack_call H c N D stats sched).2.cracks = stats.cracks ∧
    (crack_call H c N D stats sched).2.crypts = stats.crypts := by
  have h := join_loop_frame (crack_joined H c N D sched) stats none
  cases hr : (join_loop (crack_joined H c N D sched) stats none).2 with
  | none => rw [crack_call_of_none H c N D stats sched hr]; exact h
  | some w => rw [crack_call_of_some H c N D stats sched w hr]; exact h

/-- No command changes the connection counters. -/
theorem process_command_connections (H : Hash) (command : CString) (dict : Dictionary)
    (stats : Statistics) (sched : List Nat) :
    (process_command H command dict stats sched).2.numConnected = stats.numConnected ∧
    (process_command H command dict stats sched).2.numCompleted = stats.numCompleted := by
  unfold process_command
  split
  · exact ⟨rfl, rfl⟩
  · split
    · split
      · split
        · exact ⟨rfl, rfl⟩
        · split
          · exact ⟨rfl, rfl⟩
          · exact ⟨(crack_call_frame H _ _ dict _ sched).1, (crack_call_frame H _ _ dict _ sched).2.1⟩
      · exact ⟨rfl, rfl⟩
    · split
      · split
        · split
          · exact ⟨rfl, rfl⟩
          · exact ⟨rfl, rfl⟩
        · exact ⟨rfl, rfl⟩
      · exact ⟨rfl, rfl⟩

/-! ## Commands: the remaining cases -/

/-- C11: for every command line whose first field is neither `crack` nor `crypt`
(the empty line, whose only field is empty, included; also a line without any
field), `process_command` replies `:invalid` and leaves the statistics, all
seven fields, as they were. -/
theorem process_command_unknown (H : Hash) (command : CString) (dict : Dictionary)
    (stats : Statistics) (sched : List Nat)
    (h1 : (split_by_char command (Char.ofNat 32) MAX_FIELDS).head? ≠ some "crack".toList)
    (h2 : (split_by_char command (Char.ofNat 32) MAX_FIELDS).head? ≠ some "crypt".toList) :
    process_command H command dict stats sched = (INVALID, stats) := by
  unfold process_command
  cases hs : split_by_char command (Char.ofNat 32) MAX_FIELDS with
  | nil => rfl
  | cons p0 rest =>
    rw [hs] at h1 h2
    simp only [List.head?_cons, ne_eq, Option.some.injEq] at h1 h2
    simp only [if_neg h1, if_neg h2]

theorem process_command_unknown_witness :
    process_command demo_hash [] demo_dictionary configure_stats [] = (INVALID, configure_stats) ∧
    process_command demo_hash "hello world".toList demo_dictionary configure_stats [] =
      (INVALID, configure_stats) :=
  ⟨process_command_unknown demo_hash [] demo_dictionary configure_stats []
      (by decide) (by decide),
   process_command_unknown demo_hash "hello world".toList demo_dictionary configure_stats []
      (by decide) (by decide)⟩

/-- C18: with a single worker (the requested count `N` is 1 or exceeds the
dictionary size), if `j` is the least index whose word hashes to the cipher
text, `crack_call` replies the word at index `j` and adds `j + 1` to `cryptCalls`
(modulo `2 ^ 32`): the matching hash call is counted.  It counts one successful
crack and no failed one. -/
theorem crack_call_single_worker_least_index (H : Hash) (c : CString) (N : Nat)
    (D : Dictionary) (stats : Statistics) (sched : List Nat) (j : Nat)
    (hN : 1 ≤ N) (hW : N = 1 ∨ D.length < N)
    (hj : j < D.length) (hjc : H (D.getD j []) (c.take SALT_LENGTH) = c)
    (hleast : ∀ k, k < j → H (D.getD k []) (c.take SALT_LENGTH) ≠ c) :
    (crack_call H c N D stats sched).1 = D.getD j [] ∧
    (crack_call H c N D stats sched).2.cryptCalls = (stats.cryptCalls + (j + 1)) % UINT32_MOD ∧
    (crack_call H c N D stats sched).2.successCracks =
      (stats.successCracks + 1) % UINT32_MOD ∧
    (crack_call H c N D stats sched).2.failedCracks = stats.failedCracks := by
  have hW1 : (crack_plan D.length N).1 = 1 := by
    rw [crack_plan_threads, if_pos hW]
  rw [crack_call_single_first_match H c N D stats sched j hN hW1 hj hjc hleast]
  exact ⟨rfl, rfl, rfl, rfl⟩

theorem crack_call_single_worker_least_index_witness :
    (crack_call demo_hash "abworld".toList 1 demo_dictionary configure_stats [0, 0]).1 =
      "world".toList ∧
    (crack_call demo_hash "abworld".toList 1 demo_dictionary configure_stats [0, 0]).2.cryptCalls
      = (0 + (1 + 1)) % UINT32_MOD := by
  have h := crack_call_single_worker_least_index demo_hash "abworld".toList 1 demo_dictionary
    configure_stats [0, 0] 1 (by decide) (by decide) (by decide) (by decide) (by decide)
  exact ⟨h.1, h.2.1⟩

/-! ## Sessions and the connection counters -/

theorem uint32_mod_eq : UINT32_MOD = 4294967296 := by
  norm_num [UINT32_MOD]

theorem session_events_counters (H : Hash) (dict : Dictionary) :
    ∀ (events : List SessionEvent) (stats : Statistics) (live : Nat),
      closes_follow_opens live events = true → stats.numConnected = live →
      stats.numConnected + stats.numCompleted + sessions_opened events < UINT32_MOD →
      (session_events H dict events stats).numConnected +
        (session_events H dict events stats).numCompleted =
          stats.numConnected + stats.numCompleted + sessions_opened events := by
  intro events
  induction events with
  | nil => intro stats live _ _ _; rw [session_events, sessions_opened]; rfl
  | cons e es ih =>
    intro stats live hco hlive hlt
    cases e with
    | opened =>
      rw [closes_follow_opens] at hco
      simp only [sessions_opened] at hlt ⊢
      rw [session_events, session_event]
      have h1 : (stats_add_connection stats).numConnected = live + 1 := by
        simp only [stats_add_connection, uint32_mod_eq] at hlt ⊢
        omega
      have h2 : (stats_add_connection stats).numCompleted = stats.numCompleted := rfl
      generalize stats_add_connection stats = s2 at h1 h2 ⊢
      have hih := ih s2 (live + 1) hco h1 (by omega)
      omega
    | closed =>
      cases live with
      | zero => rw [closes_follow_opens] at hco; cases hco
      | succ l =>
        rw [closes_follow_opens] at hco
        simp only [sessions_opened] at hlt ⊢
        rw [session_events, session_event]
        have h1 : (stats_complete_connection stats).numConnected = l := by
          simp only [stats_complete_connection, uint32_mod_eq] at hlt ⊢
          omega
        have h2 : (stats_complete_connection stats).numCompleted = stats.numCompleted + 1 := by
          simp only [stats_complete_connection, uint32_mod_eq] at hlt ⊢
          omega
        generalize stats_complete_connection stats = s2 at h1 h2 ⊢
        have hih := ih s2 l hco h1 (by omega)
        omega
    | command line sched =>
      have hco2 : closes_follow_opens live es = true := by
        cases live <;> (rw [closes_follow_opens] at hco; exact hco)
      simp only [sessions_opened] at hlt ⊢
      rw [session_events, session_event]
      have hc := process_command_connections H line dict stats sched
      generalize (process_command H line dict stats sched).2 = s2 at hc ⊢
      obtain ⟨hc1, hc2⟩ := hc
      have hih := ih s2 live hco2 (by omega) (by omega)
      rw [hih, hc1, hc2]

theorem closes_follow_opens_take :
    ∀ (events : List SessionEvent) (live k : Nat), closes_follow_opens live events = true →
      closes_follow_opens live (events.take k) = true := by
  intro events
  induction events with
  | nil => intro live k h; simpa using h
  | cons e es ih =>
    intro live k h
    cases k with
    | zero => cases live <;> simp [closes_follow_opens]
    | succ k =>
      cases e with
      | opened =>
        simp only [List.take_succ_cons, closes_follow_opens] at h ⊢
        exact ih _ _ h
      | closed =>
        cases live with
        | zero => simp [closes_follow_opens] at h
        | succ l =>
          simp only [List.take_succ_cons, closes_follow_opens] at h ⊢
          exact ih _ _ h
      | command line sched =>
        cases live <;>
          (simp only [List.take_succ_cons, closes_follow_opens] at h ⊢; exact ih _ _ h)

theorem sessions_opened_take_le :
    ∀ (events : List SessionEvent) (k : Nat),
      sessions_opened (events.take k) ≤ sessions_opened events := by
  intro events
  induction events with
  | nil => intro k; simp [sessions_opened]
  | cons e es ih =>
    intro k
    cases k with
    | zero => simp [sessions_opened]
    | succ k =>
      have := ih k
      cases e <;> simp only [List.take_succ_cons, sessions_opened] <;> omega

/-- C15: starting from the zeroed statistics, after any sequence of session
opens (`stats_add_connection`), session closes (`stats_complete_connection`) and
commands in which every close follows its open, and with fewer than `2 ^ 32`
sessions opened (the counters are `uint32_t`): connected + completed is the
number of sessions opened; the sum after any prefix of the sequence is at most
the sum after the whole of it; and a command changes neither counter. -/
theorem connection_counters_count_sessions (H : Hash) (dict : Dictionary)
    (events : List SessionEvent)
    (hco : closes_follow_opens 0 events = true)
    (hlt : sessions_opened events < UINT32_MOD) :
    (session_events H dict events configure_stats).numConnected +
      (session_events H dict events configure_stats).numCompleted = sessions_opened events ∧
    (∀ k, (session_events H dict (events.take k) configure_stats).numConnected +
        (session_events H dict (events.take k) configure_stats).numCompleted ≤
      (session_events H dict events configure_stats).numConnected +
        (session_events H dict events configure_stats).numCompleted) ∧
    (∀ (stats : Statistics) (line : CString) (sched : List Nat),
      (session_event H dict stats (SessionEvent.command line sched)).numConnected =
        stats.numConnected ∧
      (session_event H dict stats (SessionEvent.command line sched)).numCompleted =
        stats.numCompleted) := by
  have hall := session_events_counters H dict events configure_stats 0 hco rfl
    (by simpa [configure_stats] using hlt)
  refine ⟨by simpa [configure_stats] using hall, ?_, ?_⟩
  · intro k
    have hk := sessions_opened_take_le events k
    have hp := session_events_counters H dict (events.take k) configure_stats 0
      (closes_follow_opens_take events 0 k hco) rfl
      (by simp only [configure_stats]; omega)
    rw [hp, hall]
    omega
  · intro stats line sched
    exact process_command_connections H line dict stats sched

theorem connection_counters_count_sessions_witness :
    (session_events demo_hash demo_dictionary
      [SessionEvent.opened, SessionEvent.opened, SessionEvent.command "crypt hello ab".toList [],
        SessionEvent.closed, SessionEvent.opened] configure_stats).numConnected +
    (session_events demo_hash demo_dictionary
      [SessionEvent.opened, SessionEvent.opened, SessionEvent.command "crypt hello ab".toList [],
        SessionEvent.closed, SessionEvent.opened] configure_stats).numCompleted = 3 :=
  (connection_counters_count_sessions demo_hash demo_dictionary
    [SessionEvent.opened, SessionEvent.opened, SessionEvent.command "crypt hello ab".toList [],
      SessionEvent.closed, SessionEvent.opened] (by decide) (by decide)).1

/-! ## The admission semaphore -/

theorem server_step_inv (H : Hash) (dict : Dictionary) (K : Nat) (s s2 : ServerState)
    (e : ServerEvent) (hstep : server_step H dict s e = some s2)
    (hinv : s.permits + (if s.accepting = true then 1 else 0) + s.sessions + s.closing = K ∧
      s.stats.numConnected = s.sessions % UINT32_MOD) :
    s2.permits + (if s2.accepting = true then 1 else 0) + s2.sessions + s2.closing = K ∧
      s2.stats.numConnected = s2.sessions % UINT32_MOD := by
  obtain ⟨h1, h2⟩ := hinv
  cases e with
  | take_permit =>
    simp only [server_step] at hstep
    split at hstep
    next hc =>
      simp only [Option.some.injEq] at hstep
      subst hstep
      simp only [hc.2] at h1
      simp only [if_true]
      exact ⟨by simp at h1; omega, h2⟩
    next => cases hstep
  | accept =>
    simp only [server_step] at hstep
    split at hstep
    next hc =>
      simp only [Option.some.injEq] at hstep
      subst hstep
      simp only [hc, if_true] at h1
      refine ⟨by simp; omega, ?_⟩
      simp only [stats_add_connection, h2, uint32_mod_eq]
      omega
    next => cases hstep
  | command line sched =>
    simp only [server_step] at hstep
    split at hstep
    next hc =>
      simp only [Option.some.injEq] at hstep
      subst hstep
      exact ⟨h1, by rw [(process_command_connections H line dict s.stats sched).1]; exact h2⟩
    next => cases hstep
  | session_end =>
    simp only [server_step] at hstep
    split at hstep
    next hc =>
      simp only [Option.some.injEq] at hstep
      subst hstep
      refine ⟨by simp only []; omega, ?_⟩
      simp only [stats_complete_connection, h2, uint32_mod_eq]
      omega
    next => cases hstep
  | release_permit =>
    simp only [server_step] at hstep
    split at hstep
    next hc =>
      simp only [Option.some.injEq] at hstep
      subst hstep
      exact ⟨by simp only []; omega, h2⟩
    next => cases hstep

theorem server_run_inv (H : Hash) (dict : Dictionary) (K : Nat) :
    ∀ (events : List ServerEvent) (s s2 : ServerState),
      server_run H dict events s = some s2 →
      (s.permits + (if s.accepting = true then 1 else 0) + s.sessions + s.closing = K ∧
        s.stats.numConnected = s.sessions % UINT32_MOD) →
      (s2.permits + (if s2.accepting = true then 1 else 0) + s2.sessions + s2.closing = K ∧
        s2.stats.numConnected = s2.sessions % UINT32_MOD) := by
  intro events
  induction events with
  | nil =>
    intro s s2 h hinv
    simp only [server_run, Option.some.injEq] at h
    subst h; exact hinv
  | cons e es ih =>
    intro s s2 h hinv
    simp only [server_run] at h
    cases hs : server_step H dict s e with
    | none => rw [hs] at h; cases h
    | some s1 =>
      rw [hs] at h
      exact ih s1 s2 h (server_step_inv H dict K s s1 e hs hinv)

/-- C16: with `--maxconn K`, `K ≥ 1`, in every state the server reaches by its
steps (take a permit, accept and connected++, handle a line, end a session with
connected-- and completed++, release the permit), connected is at most `K`, and
connected plus the free permits is at most `K`. -/
theorem admission_bound (H : Hash) (dict : Dictionary) (K : Nat) (events : List ServerEvent)
    (s : ServerState) (hK : 1 ≤ K)
    (hrun : server_run H dict events (server_start K) = some s) :
    s.stats.numConnected ≤ K ∧ s.stats.numConnected + s.permits ≤ K := by
  have h0 : (server_start K).permits + (if (server_start K).accepting = true then 1 else 0) +
      (server_start K).sessions + (server_start K).closing = K ∧
      (server_start K).stats.numConnected = (server_start K).sessions % UINT32_MOD := by
    have hk : ¬ K = 0 := by omega
    simp [server_start, hk, configure_stats]
  obtain ⟨h1, h2⟩ := server_run_inv H dict K events (server_start K) s hrun h0
  have h3 : s.sessions % UINT32_MOD ≤ s.sessions := Nat.mod_le _ _
  constructor <;> omega

theorem admission_bound_witness :
    server_run demo_hash demo_dictionary
        [ServerEvent.take_permit, ServerEvent.accept, ServerEvent.take_permit,
          ServerEvent.accept, ServerEvent.session_end, ServerEvent.release_permit,
          ServerEvent.take_permit] (server_start 2) =
      some { permits := 0, accepting := true, sessions := 1, closing := 0,
             stats := { configure_stats with numConnected := 1, numCompleted := 1 } } ∧
    (1 : Nat) ≤ 2 ∧ 1 + 0 ≤ 2 :=
  ⟨by decide,
   admission_bound demo_hash demo_dictionary 2
    [ServerEvent.take_permit, ServerEvent.accept, ServerEvent.take_permit,
      ServerEvent.accept, ServerEvent.session_end, ServerEvent.release_permit,
      ServerEvent.take_permit]
    { permits := 0, accepting := true, sessions := 1, closing := 0,
      stats := { configure_stats with numConnected := 1, numCompleted := 1 } }
    (by decide) (by decide)⟩

/-! ## A crack that fails tests every word once -/

theorem range_sum_inner (m inc n : Nat) :
    ∀ k, k ≤ m →
      ((List.range k).map (fun i => (if i = m then n else (i + 1) * inc) - i * inc)).sum =
        k * inc := by
  intro k
  induction k with
  | zero => intro _; simp
  | succ k ih =>
    intro hk
    rw [List.range_succ, List.map_append, List.sum_append, ih (by omega)]
    have hne : ¬ k = m := by omega
    simp only [List.map_cons, List.map_nil, List.sum_cons, List.sum_nil, if_neg hne,
      Nat.add_zero]
    rw [Nat.succ_mul, Nat.add_sub_cancel_left]

theorem range_sum_total (m inc n : Nat) (h : (m + 1) * inc ≤ n) :
    ((List.range (m + 1)).map (fun i => (if i = m then n else (i + 1) * inc) - i * inc)).sum =
      n := by
  rw [List.range_succ, List.map_append, List.sum_append, range_sum_inner m inc n m (Nat.le_refl m)]
  simp only [List.map_cons, List.map_nil, List.sum_cons, List.sum_nil, if_true, Nat.add_zero]
  rw [Nat.succ_mul] at h
  omega

/-- The ranges of the threads add up to the dictionary size. -/
theorem crack_ranges_sum (c : CString) (N : Nat) (D : Dictionary) (hN : 1 ≤ N) :
    ((crack_thread_datas c N D).map (fun d => d.endPos - d.startPos)).sum = D.length := by
  have h1 : (crack_thread_datas c N D).map (fun d => d.endPos - d.startPos) =
      ((crack_thread_datas c N D).map thread_range).map (fun r => r.2 - r.1) := by
    rw [List.map_map]; rfl
  rw [h1, crack_ranges_eq, List.map_map]
  have hW : 1 ≤ (crack_plan D.length N).1 := by
    rw [crack_plan_threads]; split <;> omega
  obtain ⟨m, hm⟩ : ∃ m, (crack_plan D.length N).1 = m + 1 := ⟨_, (Nat.sub_add_cancel hW).symm⟩
  have hle : (m + 1) * (D.length / (m + 1)) ≤ D.length := Nat.mul_div_le _ _
  rw [hm]
  have := range_sum_total m (D.length / (m + 1)) D.length hle
  simpa [Function.comp] using this

theorem stats_add_crypt_call_twice (stats : Statistics) (a b : Nat) :
    stats_add_crypt_call (stats_add_crypt_call stats a) b = stats_add_crypt_call stats (a + b) := by
  simp only [stats_add_crypt_call, uint32_mod_eq]
  congr 1
  omega

theorem join_loop_none_calls :
    ∀ (ts : List CrackThread) (t : CrackThread) (stats : Statistics) (r : Option CString),
      (∀ u ∈ t :: ts, u.ret.word = none) →
      join_loop (t :: ts) stats r =
        (stats_add_crypt_call stats ((t :: ts).map (fun u => u.ret.numCalls)).sum, r) := by
  intro ts
  induction ts with
  | nil =>
    intro t stats r h
    have ht : t.ret.word = none := h t (by simp)
    simp [join_loop, ht]
  | cons t2 ts ih =>
    intro t stats r h
    have ht : t.ret.word = none := h t (by simp)
    have h2 := ih t2 (stats_add_crypt_call stats t.ret.numCalls) r
      (fun u hu => h u (by simp only [List.mem_cons] at hu ⊢; exact Or.inr hu))
    have e : join_loop (t :: t2 :: ts) stats r =
        join_loop (t2 :: ts) (stats_add_crypt_call stats t.ret.numCalls) r := by
      simp only [join_loop, ht]
    rw [e, h2, stats_add_crypt_call_twice]
    simp

theorem crack_thread_step_exhaust (H : Hash) (t : CrackThread)
    (hw : t.ret.word = none)
    (hr : t.pc = ThreadPc.returned → t.data.endPos ≤ t.i)
    (hb : t.pc = ThreadPc.body →
      H (t.data.words.getD t.i []) t.data.salt ≠ t.data.cipherText) :
    (crack_thread_step H 0 t).1 = 0 ∧ (crack_thread_step H 0 t).2.ret.word = none ∧
      ((crack_thread_step H 0 t).2.pc = ThreadPc.returned →
        (crack_thread_step H 0 t).2.data.endPos ≤ (crack_thread_step H 0 t).2.i) := by
  unfold crack_thread_step
  split
  next hpc =>
    split
    next hc => exact ⟨rfl, hw, fun h => (by cases h)⟩
    next hc =>
      refine ⟨rfl, hw, fun _ => ?_⟩
      simp only []
      by_contra hlt
      exact hc ⟨by omega, rfl⟩
  next hpc =>
    simp only []
    rw [if_neg (hb hpc)]
    exact ⟨rfl, hw, fun h => (by cases h)⟩
  next hpc => exact ⟨rfl, hw, hr⟩

theorem exhaust_step (H : Hash) (c : CString) (D : Dictionary)
    (hno : ∀ y ∈ D, H y (c.take SALT_LENGTH) ≠ c)
    (s s2 : Nat × List CrackThread) (hs : ThreadsStep H s s2)
    (h : ThreadsInv H c D s ∧ ExhaustInv s) :
    ThreadsInv H c D s2 ∧ ExhaustInv s2 := by
  refine ⟨threadsInv_step H c D s s2 hs h.1, ?_⟩
  obtain ⟨hinv, hf, hall⟩ := h
  cases hs with
  | step f l1 t l2 =>
    simp only at hf
    subst hf
    have ht := hall t (by simp)
    obtain ⟨e1, e2, e3, hle, -, -, h3, -, -, -⟩ := hinv t (by simp)
    have hb : t.pc = ThreadPc.body →
        H (t.data.words.getD t.i []) t.data.salt ≠ t.data.cipherText := by
      intro hpc
      have hi := h3 hpc
      rw [e1, e2, e3, List.getD_eq_getElem _ _ (by omega)]
      exact hno _ (List.getElem_mem _)
    have hstep := crack_thread_step_exhaust H t ht.1 ht.2 hb
    refine ⟨hstep.1, ?_⟩
    intro u hu
    simp only [List.mem_append, List.mem_cons] at hu
    rcases hu with hu | hu | hu
    · exact hall u (by simp [hu])
    · subst hu; exact hstep.2
    · exact hall u (by simp [hu])

theorem exhaust_reach (H : Hash) (c : CString) (D : Dictionary)
    (hno : ∀ y ∈ D, H y (c.take SALT_LENGTH) ≠ c)
    (s s2 : Nat × List CrackThread) (hr : Relation.ReflTransGen (ThreadsStep H) s s2)
    (h : ThreadsInv H c D s ∧ ExhaustInv s) :
    ThreadsInv H c D s2 ∧ ExhaustInv s2 := by
  induction hr with
  | refl => exact h
  | tail _ hstep ih => exact exhaust_step H c D hno _ _ hstep ih

/-- When no dictionary word hashes to the cipher text, every joined thread
has made one hash call per index of its range. -/
theorem crack_joined_exhaust (H : Hash) (c : CString) (N : Nat) (D : Dictionary)
    (sched : List Nat) (hno : ∀ y ∈ D, H y (c.take SALT_LENGTH) ≠ c) :
    ∀ t ∈ crack_joined H c N D sched,
      t.ret.word = none ∧ t.ret.numCalls = t.data.endPos - t.data.startPos := by
  intro t ht
  obtain ⟨f, hr⟩ := crack_joined_reach H c N D sched
  have hinit : ExhaustInv (0, (crack_thread_datas c N D).map crack_thread_start) := by
    refine ⟨rfl, ?_⟩
    intro u hu
    obtain ⟨d, -, rfl⟩ := List.mem_map.mp hu
    exact ⟨rfl, fun h => (by cases h)⟩
  obtain ⟨hinv, -, hall⟩ := exhaust_reach H c D hno _ _ hr ⟨threadsInv_init H c N D, hinit⟩
  obtain ⟨hw, hend⟩ := hall t ht
  obtain ⟨-, -, -, -, h1, h2, -, -, -, h6⟩ := hinv t ht
  have hd : t.data ∈ crack_thread_datas c N D := by
    rw [← crack_joined_data H c N D sched]
    exact List.mem_map_of_mem _ ht
  have hse := (crack_thread_datas_endPos_le c N D t.data hd).1
  have hi := hend (crack_joined_returned H c N D sched t ht)
  have hi2 := h2 hse
  refine ⟨hw, ?_⟩
  rw [h6, hw]
  simp only [if_true]
  omega

/-- A failing crack: the reply is `:failed`, one failed crack is counted and
the hash calls counted are as many as the dictionary has words. -/
theorem crack_call_exhaust (H : Hash) (c : CString) (N : Nat) (D : Dictionary)
    (stats : Statistics) (sched : List Nat) (hN : 1 ≤ N)
    (hno : ∀ y ∈ D, H y (c.take SALT_LENGTH) ≠ c) :
    crack_call H c N D stats sched =
      (FAILED, stats_add_crack_request_fail (stats_add_crypt_call stats D.length)) := by
  have hall := crack_joined_exhaust H c N D sched hno
  have hlen : (crack_joined H c N D sched).length = (crack_plan D.length N).1 := by
    rw [crack_joined_length, crack_thread_datas_length]
  have hW : 1 ≤ (crack_plan D.length N).1 := by
    rw [crack_plan_threads]; split <;> omega
  have hsum : ((crack_joined H c N D sched).map (fun u => u.ret.numCalls)).sum = D.length := by
    have e : (crack_joined H c N D sched).map (fun u => u.ret.numCalls) =
        ((crack_joined H c N D sched).map CrackThread.data).map
          (fun d => d.endPos - d.startPos) := by
      rw [List.map_map]
      exact List.map_congr_left (fun u hu => (hall u hu).2)
    rw [e, crack_joined_data, crack_ranges_sum c N D hN]
  cases hj : crack_joined H c N D sched with
  | nil => rw [hj] at hlen; simp at hlen; omega
  | cons t ts =>
    rw [hj] at hall hsum
    have hjl := join_loop_none_calls ts t stats none (fun u hu => (hall u hu).1)
    rw [hsum] at hjl
    have h2 : (join_loop (crack_joined H c N D sched) stats none).2 = none := by
      rw [hj, hjl]
    rw [crack_call_of_none H c N D stats sched h2, hj, hjl]

theorem process_command_crack_valid (H : Hash) (command cipher n : CString)
    (dict : Dictionary) (stats : Statistics) (sched : List Nat)
    (hsplit : split_by_char command (Char.ofNat 32) MAX_FIELDS = ["crack".toList, cipher, n])
    (hlen : cipher.length = CIPHER_LENGTH) (hn : valid_thread_num n = true)
    (hc0 : valid_salt_character (charAt cipher 0) = true)
    (hc1 : valid_salt_character (charAt cipher 1) = true) :
    process_command H command dict stats sched =
      crack_call H cipher (atoi n).toNat dict (stats_add_crack_request stats) sched := by
  unfold process_command
  rw [hsplit]
  have h1 : ¬ (decide (cipher.length ≠ CIPHER_LENGTH) || !valid_thread_num n) = true := by
    simp [hlen, hn]
  have h2 : ¬ (!(valid_salt_character (charAt cipher 0) &&
      valid_salt_character (charAt cipher 1))) = true := by
    simp [hc0, hc1]
  simp only [if_true, if_neg h1, if_neg h2]

theorem valid_thread_num_toNat (n : CString) (hn : valid_thread_num n = true) :
    1 ≤ (atoi n).toNat ∧ (atoi n).toNat ≤ 50 := by
  have h := (valid_thread_num_iff n).mp hn
  omega

/-- C17: for every dictionary and every accepted thread count, a valid crypt
command and a validated crack command for which no dictionary word hashes to
the cipher text, served one after the other in either order, add 1 to `crypts`,
1 to `cracks`, 1 to `failedCracks`, nothing to `successCracks` and the dictionary
size plus 1 to `cryptCalls` (modulo `2 ^ 32`), under every interleaving of the
threads: the failing crack hashes every dictionary word exactly once. -/
theorem crypt_and_failing_crack_statistics (H : Hash) (dict : Dictionary) (stats : Statistics)
    (crypt_line text salt crack_line cipher n : CString) (sched1 sched2 : List Nat)
    (hcrypt : split_by_char crypt_line (Char.ofNat 32) MAX_FIELDS = ["crypt".toList, text, salt])
    (hsalt : valid_salt salt = true)
    (hcrack : split_by_char crack_line (Char.ofNat 32) MAX_FIELDS = ["crack".toList, cipher, n])
    (hlen : cipher.length = CIPHER_LENGTH) (hn : valid_thread_num n = true)
    (hc0 : valid_salt_character (charAt cipher 0) = true)
    (hc1 : valid_salt_character (charAt cipher 1) = true)
    (hno : ∀ y ∈ dict, H y (cipher.take SALT_LENGTH) ≠ cipher) :
    process_commands H dict [(crypt_line, sched1), (crack_line, sched2)] stats =
      { stats with
        cracks := (stats.cracks + 1) % UINT32_MOD
        failedCracks := (stats.failedCracks + 1) % UINT32_MOD
        crypts := (stats.crypts + 1) % UINT32_MOD
        cryptCalls := (stats.cryptCalls + (dict.length + 1)) % UINT32_MOD } ∧
    process_commands H dict [(crack_line, sched2), (crypt_line, sched1)] stats =
      { stats with
        cracks := (stats.cracks + 1) % UINT32_MOD
        failedCracks := (stats.failedCracks + 1) % UINT32_MOD
        crypts := (stats.crypts + 1) % UINT32_MOD
        cryptCalls := (stats.cryptCalls + (dict.length + 1)) % UINT32_MOD } := by
  have hN := (valid_thread_num_toNat n hn).1
  have hcr : ∀ st : Statistics, process_command H crypt_line dict st sched1 =
      (H text salt, stats_add_crypt_call (stats_add_crypt_request st) 1) := by
    intro st
    unfold process_command
    rw [hcrypt]
    simp only [if_neg (show ¬ ("crypt".toList = "crack".toList) by decide), if_true, hsalt]
    rfl
  constructor
  · simp only [process_commands]
    rw [hcr stats,
      process_command_crack_valid H crack_line cipher n dict _ sched2 hcrack hlen hn hc0 hc1,
      crack_call_exhaust H cipher _ dict _ sched2 hN hno]
    simp only [stats_add_crack_request_fail, stats_add_crypt_call, stats_add_crack_request,
      stats_add_crypt_request, uint32_mod_eq, Statistics.mk.injEq, true_and, and_true]
    omega
  · simp only [process_commands]
    rw [process_command_crack_valid H crack_line cipher n dict _ sched2 hcrack hlen hn hc0 hc1,
      crack_call_exhaust H cipher _ dict _ sched2 hN hno, hcr]
    simp only [stats_add_crack_request_fail, stats_add_crypt_call, stats_add_crack_request,
      stats_add_crypt_request, uint32_mod_eq, Statistics.mk.injEq, true_and, and_true]
    omega

theorem crypt_and_failing_crack_statistics_witness :
    process_commands demo_hash13 demo_dictionary
      [("crypt hello ab".toList, []), ("crack abnope....... 2".toList, [1, 0, 1, 1])]
      configure_stats =
      { configure_stats with cracks := 1, failedCracks := 1, crypts := 1, cryptCalls := 4 } :=
  (crypt_and_failing_crack_statistics demo_hash13 demo_dictionary configure_stats
    "crypt hello ab".toList "hello".toList "ab".toList
    "crack abnope....... 2".toList "abnope.......".toList "2".toList [] [1, 0, 1, 1]
    (by decide) (by decide) (by decide) (by decide) (by decide) (by decide) (by decide)
    (by decide)).1

/-! ## The states of the statistics while a command is served -/

theorem join_loop_trace_last :
    ∀ (ts : List CrackThread) (stats : Statistics) (r : Option CString),
      (join_loop_trace ts stats).getLastD stats = (join_loop ts stats r).1 := by
  intro ts
  induction ts with
  | nil => intro stats r; rfl
  | cons t ts ih =>
    intro stats r
    cases hw : t.ret.word with
    | none =>
      simp only [join_loop_trace, join_loop, hw, List.getLastD_cons]
      exact ih _ _
    | some x =>
      simp only [join_loop_trace, join_loop, hw, List.getLastD_cons]
      exact ih _ _

theorem crack_call_trace_last (H : Hash) (c : CString) (N : Nat) (D : Dictionary)
    (stats : Statistics) (sched : List Nat) :
    (crack_call_trace H c N D stats sched).getLastD stats =
      (crack_call H c N D stats sched).2 := by
  unfold crack_call_trace
  simp only []
  cases hr : (join_loop (crack_joined H c N D sched) stats none).2 with
  | none =>
    rw [crack_call_of_none H c N D stats sched hr]
    simp [List.getLastD_eq_getLast?]
  | some w =>
    rw [crack_call_of_some H c N D stats sched w hr]
    exact join_loop_trace_last _ _ _

/-- The last state of the trace of a command is the state `process_command` leaves. -/
theorem process_command_trace_last (H : Hash) (command : CString) (dict : Dictionary)
    (stats : Statistics) (sched : List Nat) :
    (process_command_trace H command dict stats sched).getLastD stats =
      (process_command H command dict stats sched).2 := by
  unfold process_command_trace process_command
  split
  · rfl
  · split
    · split
      · split
        · rfl
        · split
          · rfl
          · simp only [List.getLastD_cons]
            exact crack_call_trace_last H _ _ dict _ sched
      · rfl
    · split
      · split
        · split
          · rfl
          · rfl
        · rfl
      · rfl

/-! ## Two threads that both find a word -/

theorem crack_thread_step_test (H : Hash) (t : CrackThread) (hpc : t.pc = ThreadPc.test)
    (hi : t.i < t.data.endPos) :
    crack_thread_step H 0 t = (0, { t with pc := ThreadPc.body }) := by
  simp [crack_thread_step, hpc, hi]

theorem crack_thread_step_match (H : Hash) (f : Nat) (t : CrackThread)
    (hpc : t.pc = ThreadPc.body)
    (hm : H (t.data.words.getD t.i []) t.data.salt = t.data.cipherText) :
    crack_thread_step H f t =
      (1, { t with ret := { word := some (t.data.words.getD t.i []),
                            numCalls := t.ret.numCalls + 1 },
                   pc := ThreadPc.returned }) := by
  simp only [crack_thread_step, hpc]
  rw [if_pos hm]

theorem crack_thread_run_of_returned (H : Hash) :
    ∀ (fuel f : Nat) (t : CrackThread), t.pc = ThreadPc.returned →
      crack_thread_run H fuel f t = (f, t) := by
  intro fuel
  induction fuel with
  | zero => intro f t _; rfl
  | succ fuel ih =>
    intro f t h
    have hs : crack_thread_step H f t = (f, t) := by
      simp only [crack_thread_step, h]
    simp only [crack_thread_run, hs]
    exact ih f t h

/-- With the same word twice in the dictionary, two threads, and both threads
past the test of the flag before either raises it, both return the word and
the join loop counts the request as successful twice. -/
theorem crack_call_duplicate_words_twice (H : Hash) (c w : CString) (stats : Statistics)
    (hc : H w (c.take SALT_LENGTH) = c) :
    crack_call H c 2 [w, w] stats [0, 1, 0, 1] =
      (w, stats_add_crack_request_pass (stats_add_crypt_call
        (stats_add_crack_request_pass (stats_add_crypt_call stats 1)) 1)) := by
  have hd : crack_thread_datas c 2 [w, w] =
      [create_crack_thread_data c (c.take SALT_LENGTH) [w, w] 0 1,
       create_crack_thread_data c (c.take SALT_LENGTH) [w, w] 1 2] := by
    simp [crack_thread_datas, crack_plan, create_threads_loop]
  have s1 := crack_thread_step_test H
    (crack_thread_start (create_crack_thread_data c (c.take SALT_LENGTH) [w, w] 0 1)) rfl
    (Nat.lt_succ_self 0)
  have s2 := crack_thread_step_test H
    (crack_thread_start (create_crack_thread_data c (c.take SALT_LENGTH) [w, w] 1 2)) rfl
    (Nat.lt_succ_self 1)
  have s3 := crack_thread_step_match H 0
    { crack_thread_start (create_crack_thread_data c (c.take SALT_LENGTH) [w, w] 0 1) with
      pc := ThreadPc.body } rfl hc
  have s4 := crack_thread_step_match H 1
    { crack_thread_start (create_crack_thread_data c (c.take SALT_LENGTH) [w, w] 1 2) with
      pc := ThreadPc.body } rfl hc
  have hrun : run_schedule H [0, 1, 0, 1] 0
      ((crack_thread_datas c 2 [w, w]).map crack_thread_start) =
      (1, [{ crack_thread_start (create_crack_thread_data c (c.take SALT_LENGTH) [w, w] 0 1) with
              ret := { word := some w, numCalls := 1 }, pc := ThreadPc.returned },
           { crack_thread_start (create_crack_thread_data c (c.take SALT_LENGTH) [w, w] 1 2) with
              ret := { word := some w, numCalls := 1 }, pc := ThreadPc.returned }]) := by
    rw [hd]
    simp only [List.map_cons, List.map_nil, run_schedule, threads_step, s1, s2, s3, s4]
    rfl
  have hjoined : crack_joined H c 2 [w, w] [0, 1, 0, 1] =
      [{ crack_thread_start (create_crack_thread_data c (c.take SALT_LENGTH) [w, w] 0 1) with
              ret := { word := some w, numCalls := 1 }, pc := ThreadPc.returned },
       { crack_thread_start (create_crack_thread_data c (c.take SALT_LENGTH) [w, w] 1 2) with
              ret := { word := some w, numCalls := 1 }, pc := ThreadPc.returned }] := by
    show (finish_threads H
      (run_schedule H [0, 1, 0, 1] 0 ((crack_thread_datas c 2 [w, w]).map crack_thread_start)).1
      (run_schedule H [0, 1, 0, 1] 0 ((crack_thread_datas c 2 [w, w]).map crack_thread_start)).2).2
      = _
    rw [hrun]
    simp only [finish_threads]
    rw [crack_thread_run_of_returned H _ _ _ rfl, crack_thread_run_of_returned H _ _ _ rfl]
  have hjoin : join_loop (crack_joined H c 2 [w, w] [0, 1, 0, 1]) stats none =
      (stats_add_crack_request_pass (stats_add_crypt_call
        (stats_add_crack_request_pass (stats_add_crypt_call stats 1)) 1), some w) := by
    rw [hjoined]; rfl
  have h2 : (join_loop (crack_joined H c 2 [w, w] [0, 1, 0, 1]) stats none).2 = some w := by
    rw [hjoin]
  rw [crack_call_of_some H c 2 [w, w] stats [0, 1, 0, 1] w h2, hjoin]

/-- C12, where the code departs from it: from the zeroed statistics, one crack
command over a dictionary that holds the word `a` twice, served by two threads
that both pass the test of the flag before either raises it, leaves
`successCracks = 2`, `failedCracks = 0` and `cracks = 1`: the sum of the first two
is not `cracks`. -/
theorem statistics_conservation_fails_on_duplicate_words :
    process_commands demo_hash13 ["a".toList, "a".toList]
        [("crack aba.......... 2".toList, [0, 1, 0, 1])] configure_stats =
      { configure_stats with cracks := 1, successCracks := 2, cryptCalls := 2 } ∧
    (process_commands demo_hash13 ["a".toList, "a".toList]
        [("crack aba.......... 2".toList, [0, 1, 0, 1])] configure_stats).successCracks +
      (process_commands demo_hash13 ["a".toList, "a".toList]
        [("crack aba.......... 2".toList, [0, 1, 0, 1])] configure_stats).failedCracks ≠
      (process_commands demo_hash13 ["a".toList, "a".toList]
        [("crack aba.......... 2".toList, [0, 1, 0, 1])] configure_stats).cracks := by
  decide

/-- C13, where the code departs from it: for every hash, every word `w` and
every validated crack command for 2 threads whose cipher text is the hash of
`w`, over the dictionary that holds `w` twice and under the schedule in which
both threads pass the test of the flag before either raises it, the request
adds 1 to `cracks` and 2 to `successCracks` (modulo `2 ^ 32`): the success counter
is incremented twice for one request. -/
theorem crack_duplicate_words_counted_twice (H : Hash) (command cipher w : CString)
    (stats : Statistics)
    (hsplit : split_by_char command (Char.ofNat 32) MAX_FIELDS =
      ["crack".toList, cipher, "2".toList])
    (hlen : cipher.length = CIPHER_LENGTH)
    (hc0 : valid_salt_character (charAt cipher 0) = true)
    (hc1 : valid_salt_character (charAt cipher 1) = true)
    (hc : H w (cipher.take SALT_LENGTH) = cipher) :
    (process_command H command [w, w] stats [0, 1, 0, 1]).1 = w ∧
    (process_command H command [w, w] stats [0, 1, 0, 1]).2.cracks =
      (stats.cracks + 1) % UINT32_MOD ∧
    (process_command H command [w, w] stats [0, 1, 0, 1]).2.successCracks =
      (stats.successCracks + 2) % UINT32_MOD ∧
    (process_command H command [w, w] stats [0, 1, 0, 1]).2.failedCracks =
      stats.failedCracks := by
  have h2 : (atoi "2".toList).toNat = 2 := by decide
  rw [process_command_crack_valid H command cipher "2".toList [w, w] stats [0, 1, 0, 1]
    hsplit hlen (by decide) hc0 hc1, h2, crack_call_duplicate_words_twice H cipher w _ hc]
  refine ⟨rfl, rfl, ?_, rfl⟩
  simp only [stats_add_crack_request_pass, stats_add_crypt_call, stats_add_crack_request,
    uint32_mod_eq]
  omega

theorem crack_duplicate_words_counted_twice_witness :
    (process_command demo_hash13 "crack aba.......... 2".toList ["a".toList, "a".toList]
      configure_stats [0, 1, 0, 1]).2.successCracks = (0 + 2) % UINT32_MOD :=
  (crack_duplicate_words_counted_twice demo_hash13 "crack aba.......... 2".toList
    "aba..........".toList "a".toList configure_stats (by decide) (by decide) (by decide)
    (by decide) (by decide)).2.2.1

/-- C14, where the code departs from it: the states of the statistics while the
crack command of the duplicate-word scenario is served, from the zeroed
statistics, are `cracks = 1` first, and after the second thread is joined
`successCracks = 2` with `cracks = 1`: a state with
`successCracks + failedCracks > cracks`, which is also the state the command leaves. -/
theorem statistics_trace_exceeds_cracks :
    (process_commands_trace demo_hash13 ["a".toList, "a".toList]
        [("crack aba.......... 2".toList, [0, 1, 0, 1])] configure_stats) =
      [{ configure_stats with cracks := 1 },
       { configure_stats with cracks := 1, cryptCalls := 1 },
       { configure_stats with cracks := 1, successCracks := 1, cryptCalls := 1 },
       { configure_stats with cracks := 1, successCracks := 1, cryptCalls := 2 },
       { configure_stats with cracks := 1, successCracks := 2, cryptCalls := 2 }] ∧
    (∃ s ∈ process_commands_trace demo_hash13 ["a".toList, "a".toList]
        [("crack aba.......... 2".toList, [0, 1, 0, 1])] configure_stats,
      s.cracks < s.successCracks + s.failedCracks) ∧
    (process_command demo_hash13 "crack aba.......... 2".toList ["a".toList, "a".toList]
      configure_stats [0, 1, 0, 1]).2 =
      { configure_stats with cracks := 1, successCracks := 2, cryptCalls := 2 } := by
  decide

/-! ## The statistics semaphore and the reporter -/

/-- A second updater is held back by the semaphore while the first is inside
`stats_complete_connection`: its `sem_wait` does not pass. -/
theorem stats_updates_are_serialized (stats : Statistics) :
    (stats_machine_run [0, 0, 1, 1]
      { lock := 1, stats := stats,
        threads := [stats_complete_connection_code, stats_add_connection_code],
        reports := [] }).threads.getD 1 [] = stats_add_connection_code :=
  rfl

/-- C19, where the code departs from it: `stats_thread` prints the fields without
taking the semaphore.  With one session connected, a session thread inside
`stats_complete_connection` (semaphore taken, `numConnected` decremented,
`numCompleted` not yet incremented) does not hold back the reporter, whose report
shows connected 0 and completed 0: neither the statistics before the update
(1 and 0) nor those after it (0 and 1). -/
theorem report_observes_half_applied_update :
    (stats_machine_run [0, 0, 1, 0, 0]
      { lock := 1, stats := { configure_stats with numConnected := 1 },
        threads := [stats_complete_connection_code, stats_thread_code],
        reports := [] }).reports =
      [{ configure_stats with numConnected := 0, numCompleted := 0 }] ∧
    (stats_machine_run [0, 0, 1, 0, 0]
      { lock := 1, stats := { configure_stats with numConnected := 1 },
        threads := [stats_complete_connection_code, stats_thread_code],
        reports := [] }).stats =
      stats_complete_connection { configure_stats with numConnected := 1 } ∧
    (stats_machine_run [0, 0]
      { lock := 1, stats := { configure_stats with numConnected := 1 },
        threads := [stats_complete_connection_code, stats_thread_code],
        reports := [] }).lock = 0 ∧
    ({ configure_stats with numConnected := 0, numCompleted := 0 } : Statistics) ≠
      { configure_stats with numConnected := 1 } ∧
    ({ configure_stats with numConnected := 0, numCompleted := 0 } : Statistics) ≠
      stats_complete_connection { configure_stats with numConnected := 1 } := by
  decide

/-! ## Loading the dictionary -/

theorem fill_dictionary_loop_eq :
    ∀ (lines words : List CString),
      fill_dictionary_loop lines words =
        words ++ lines.filter (fun l => decide (l.length ≤ MAX_WORD_LENGTH)) := by
  intro lines
  induction lines with
  | nil => intro words; simp [fill_dictionary_loop]
  | cons l rest ih =>
    intro words
    rw [fill_dictionary_loop]
    by_cases h : l.length > MAX_WORD_LENGTH
    · rw [if_pos h, ih, List.filter_cons_of_neg]
      simpa using h
    · rw [if_neg h, ih, List.filter_cons_of_pos]
      · simp
      · simpa using h

/-- C25: for every list of lines read from the dictionary file, `fill_dictionary`
ends start-up with status 3 when no line has at most 8 characters, and otherwise
returns exactly the lines of at most 8 characters, in file order and with
duplicates kept; `numWords` is the length of that list. -/
theorem fill_dictionary_keeps_short_lines (lines : List CString) :
    fill_dictionary (some lines) =
      (if ∀ l ∈ lines, 8 < l.length then Startup.exit 3
       else Startup.returns (lines.filter (fun l => decide (l.length ≤ 8)))) ∧
    (fill_dictionary (some lines) = Startup.exit 3 ↔ ∀ l ∈ lines, 8 < l.length) := by
  have hloop : fill_dictionary_loop lines [] = lines.filter (fun l => decide (l.length ≤ 8)) := by
    rw [fill_dictionary_loop_eq]; rfl
  have hempty : (lines.filter (fun l => decide (l.length ≤ 8))).length = 0 ↔
      ∀ l ∈ lines, 8 < l.length := by
    rw [List.length_eq_zero, List.filter_eq_nil_iff]
    constructor
    · intro h l hl; have := h l hl; simpa using this
    · intro h l hl; have := h l hl; simpa using this
  have hfill : fill_dictionary (some lines) =
      (if ∀ l ∈ lines, 8 < l.length then Startup.exit 3
       else Startup.returns (lines.filter (fun l => decide (l.length ≤ 8)))) := by
    simp only [fill_dictionary, hloop, NO_WORDS_ERROR]
    by_cases h : ∀ l ∈ lines, 8 < l.length
    · rw [if_pos (hempty.mpr h), if_pos h]
    · rw [if_neg (fun hc => h (hempty.mp hc)), if_neg h]
  refine ⟨hfill, ?_⟩
  rw [hfill]
  by_cases h : ∀ l ∈ lines, 8 < l.length
  · simp [h]
  · simp only [if_neg h, false_iff, reduceCtorEq]
    exact h

/-- C26, as stated, fails: an empty line of the file is kept, so a
loaded dictionary can hold a word of length 0. -/
theorem fill_dictionary_keeps_empty_line :
    fill_dictionary (some ["".toList, "abc".toList]) =
      Startup.returns ["".toList, "abc".toList] ∧
    ¬ (∀ D, fill_dictionary (some ["".toList, "abc".toList]) = Startup.returns D →
        ∀ w ∈ D, 1 ≤ w.length ∧ w.length ≤ 8) := by
  refine ⟨by decide, ?_⟩
  intro h
  have := (h ["".toList, "abc".toList] (by decide) "".toList (by simp)).1
  simp at this

/-- C26, amended: every word of the dictionary `fill_dictionary` returns has at
most 8 characters, the dictionary holds at least one word, and a word may be
empty. -/
theorem fill_dictionary_word_lengths (file : Option (List CString)) (D : Dictionary)
    (h : fill_dictionary file = Startup.returns D) :
    (∀ w ∈ D, w.length ≤ 8) ∧ 1 ≤ D.length := by
  cases file with
  | none => simp [fill_dictionary] at h
  | some lines =>
    simp only [fill_dictionary] at h
    by_cases h0 : (fill_dictionary_loop lines []).length = 0
    · simp [h0] at h
    · rw [if_neg h0] at h
      injection h with h
      subst h
      refine ⟨?_, by omega⟩
      intro w hw
      rw [fill_dictionary_loop_eq] at hw
      simp only [List.nil_append, List.mem_filter, decide_eq_true_eq, MAX_WORD_LENGTH] at hw
      exact hw.2

theorem fill_dictionary_word_lengths_witness :
    (∀ w ∈ ["hello".toList, "".toList], w.length ≤ 8) ∧
      1 ≤ ["hello".toList, "".toList].length :=
  fill_dictionary_word_lengths (some ["hello".toList, "abcdefghi".toList, "".toList])
    ["hello".toList, "".toList] (by decide)

/-! ## Replies and the sentinels -/

/-- C22: the colon is no salt character, so for every accepted command
`crypt TEXT SALT` whose hash begins with SALT, as the hash primitive's results
do, the reply is the hash, it does not begin with a colon, and it is neither
`:invalid` nor `:failed`. -/
theorem crypt_reply_is_no_sentinel (H : Hash) (command text salt : CString) (dict : Dictionary)
    (stats : Statistics) (sched : List Nat)
    (hsplit : split_by_char command (Char.ofNat 32) MAX_FIELDS = ["crypt".toList, text, salt])
    (hsalt : valid_salt salt = true)
    (hH : (H text salt).take SALT_LENGTH = salt) :
    valid_salt_character ':' = false ∧
    (process_command H command dict stats sched).1 = H text salt ∧
    (process_command H command dict stats sched).1.head? ≠ some ':' ∧
    (process_command H command dict stats sched).1 ≠ INVALID ∧
    (process_command H command dict stats sched).1 ≠ FAILED := by
  have hreply : (process_command H command dict stats sched).1 = H text salt := by
    unfold process_command
    rw [hsplit]
    simp only [if_neg (show ¬ ("crypt".toList = "crack".toList) by decide), if_true, hsalt]
    rfl
  have hcolon : valid_salt_character ':' = false := by decide
  have hhead : (H text salt).head? ≠ some ':' := by
    intro hc
    have hs := (valid_salt_iff salt).mp hsalt
    cases hr : H text salt with
    | nil => rw [hr] at hc; simp at hc
    | cons a rest =>
      rw [hr] at hc hH
      simp only [List.head?_cons, Option.some.injEq] at hc
      subst hc
      have hmem : ':' ∈ salt := by
        rw [← hH]; simp [SALT_LENGTH]
      have := (valid_salt_character_iff ':').mpr (hs.2 ':' hmem)
      rw [hcolon] at this
      cases this
  rw [hreply]
  refine ⟨hcolon, rfl, hhead, ?_, ?_⟩
  · intro hc; rw [hc] at hhead; exact hhead (by decide)
  · intro hc; rw [hc] at hhead; exact hhead (by decide)

theorem crypt_reply_is_no_sentinel_witness :
    valid_salt_character ':' = false ∧
    (process_command demo_hash "crypt hello ab".toList demo_dictionary configure_stats []).1 =
      demo_hash "hello".toList "ab".toList ∧
    (process_command demo_hash "crypt hello ab".toList demo_dictionary configure_stats []).1.head? ≠
      some ':' ∧
    (process_command demo_hash "crypt hello ab".toList demo_dictionary configure_stats []).1 ≠
      INVALID ∧
    (process_command demo_hash "crypt hello ab".toList demo_dictionary configure_stats []).1 ≠
      FAILED :=
  crypt_reply_is_no_sentinel demo_hash "crypt hello ab".toList "hello".toList "ab".toList
    demo_dictionary configure_stats [] (by decide) (by decide) (by decide)

/-! ## The command line of crackserver -/

theorem string_to_number_exit (arg : CString) (status : Nat)
    (h : string_to_number arg = Startup.exit status) : status = USAGE_ERROR := by
  unfold string_to_number at h
  split at h
  · injection h with h; exact h.symm
  · cases h

theorem validate_port_number_iff (portNum : Int) :
    validate_port_number portNum = Startup.returns () ↔
      (portNum = 0 ∨ (1024 ≤ portNum ∧ portNum ≤ 65535)) := by
  unfold validate_port_number
  simp only [MIN_PORT, MAX_PORT]
  split
  · rename_i h
    simp only [reduceCtorEq, false_iff]
    omega
  · rename_i h
    simp only [true_iff]
    omega

theorem validate_max_connections_returns (maxConns m : Int)
    (h : validate_max_connections maxConns = Startup.returns m) : 0 ≤ m := by
  unfold validate_max_connections at h
  split at h
  · cases h
  · injection h with h; omega

/-- What a run of the option loop that reaches its end has seen: every name in
option position is one that was still unset, and no name twice. -/
theorem parse_options_returns :
    ∀ (n : Nat) (args : List CString) (param r : ServerDetails),
      args.length ≤ n → args.length % 2 = 0 →
      parse_options args param = Startup.returns r →
      (∀ o ∈ option_names args,
        (o = "--maxconn".toList ∧ param.maxConns < 0) ∨
        (o = "--port".toList ∧ param.portNum = none) ∨
        (o = "--dictionary".toList ∧ param.dictFileName = none)) ∧
      (option_names args).Nodup := by
  intro n
  induction n with
  | zero =>
    intro args param r hlen _ _
    have : args = [] := List.length_eq_zero.mp (by omega)
    subst this
    simp [option_names]
  | succ n ih =>
    intro args param r hlen heven hret
    match args, hlen, heven, hret with
    | [], _, _, _ => simp [option_names]
    | [a], _, heven, _ => simp at heven
    | a0 :: a1 :: rest, hlen, heven, hret =>
      have hlen2 : rest.length ≤ n := by simp only [List.length_cons] at hlen; omega
      have heven2 : rest.length % 2 = 0 := by simp only [List.length_cons] at heven; omega
      rw [parse_options] at hret
      simp only [option_names, List.mem_cons, List.nodup_cons, forall_eq_or_imp]
      split at hret
      · rename_i h1
        split at hret
        · cases hret
        · rename_i maxConns hnum
          split at hret
          · cases hret
          · rename_i m hval
            have hm := validate_max_connections_returns _ _ hval
            have hrec := ih rest _ r hlen2 heven2 hret
            refine ⟨⟨Or.inl h1, ?_⟩, ?_, hrec.2⟩
            · intro o ho
              rcases hrec.1 o ho with h | h | h
              · exact absurd h.2 (by simp only [not_lt]; exact hm)
              · exact Or.inr (Or.inl h)
              · exact Or.inr (Or.inr h)
            · intro hmem
              rcases hrec.1 a0 hmem with h | h | h
              · exact absurd h.2 (by simp only [not_lt]; exact hm)
              · rw [h1.1] at h; exact absurd h.1 (by decide)
              · rw [h1.1] at h; exact absurd h.1 (by decide)
      · split at hret
        · rename_i h1 h2
          split at hret
          · cases hret
          · split at hret
            · cases hret
            · have hrec := ih rest _ r hlen2 heven2 hret
              refine ⟨⟨Or.inr (Or.inl h2), ?_⟩, ?_, hrec.2⟩
              · intro o ho
                rcases hrec.1 o ho with h | h | h
                · exact Or.inl h
                · exact absurd h.2 (by simp)
                · exact Or.inr (Or.inr h)
              · intro hmem
                rcases hrec.1 a0 hmem with h | h | h
                · rw [h2.1] at h; exact absurd h.1 (by decide)
                · exact absurd h.2 (by simp)
                · rw [h2.1] at h; exact absurd h.1 (by decide)
        · split at hret
          · rename_i h1 h2 h3
            have hrec := ih rest _ r hlen2 heven2 hret
            refine ⟨⟨Or.inr (Or.inr h3), ?_⟩, ?_, hrec.2⟩
            · intro o ho
              rcases hrec.1 o ho with h | h | h
              · exact Or.inl h
              · exact Or.inr (Or.inl h)
              · exact absurd h.2 (by simp)
            · intro hmem
              rcases hrec.1 a0 hmem with h | h | h
              · rw [h3.1] at h; exact absurd h.1 (by decide)
              · rw [h3.1] at h; exact absurd h.1 (by decide)
              · exact absurd h.2 (by simp)
          · cases hret

/-- The option loop ends start-up with the usage error only. -/
theorem parse_options_exit :
    ∀ (n : Nat) (args : List CString) (param : ServerDetails) (status : Nat),
      args.length ≤ n → parse_options args param = Startup.exit status →
      status = USAGE_ERROR := by
  intro n
  induction n with
  | zero =>
    intro args param status hlen h
    have : args = [] := List.length_eq_zero.mp (by omega)
    subst this
    simp [parse_options] at h
  | succ n ih =>
    intro args param status hlen h
    match args, hlen, h with
    | [], _, h => simp [parse_options] at h
    | [a], _, h => simp [parse_options] at h
    | a0 :: a1 :: rest, hlen, h =>
      have hlen2 : rest.length ≤ n := by simp only [List.length_cons] at hlen; omega
      rw [parse_options] at h
      split at h
      · split at h
        · rename_i s hnum
          injection h with h; subst h
          exact string_to_number_exit _ _ hnum
        · split at h
          · rename_i s hval
            injection h with h; subst h
            unfold validate_max_connections at hval
            split at hval
            · injection hval with hval; exact hval.symm
            · cases hval
          · exact ih rest _ status hlen2 h
      · split at h
        · split at h
          · rename_i s hnum
            injection h with h; subst h
            exact string_to_number_exit _ _ hnum
          · split at h
            · rename_i s hval
              injection h with h; subst h
              unfold validate_port_number at hval
              split at hval
              · injection hval with hval; exact hval.symm
              · cases hval
            · exact ih rest _ status hlen2 h
        · split at h
          · exact ih rest _ status hlen2 h
          · injection h with h; exact h.symm

theorem parse_command_line_exit (args : List CString) (status : Nat)
    (h : parse_command_line args = Startup.exit status) : status = USAGE_ERROR := by
  unfold parse_command_line at h
  split at h
  · injection h with h; exact h.symm
  · split at h
    · rename_i s hopt
      injection h with h; subst h
      exact parse_options_exit _ args _ _ (Nat.le_refl _) hopt
    · cases h

theorem parse_command_line_returns (args : List CString) (r : ServerDetails)
    (h : parse_command_line args = Startup.returns r) :
    args.length % 2 = 0 ∧
    (∀ o ∈ option_names args,
      o = "--maxconn".toList ∨ o = "--port".toList ∨ o = "--dictionary".toList) ∧
    (option_names args).Nodup := by
  unfold parse_command_line at h
  split at h
  · cases h
  · rename_i hlen
    have heven : args.length % 2 = 0 := by omega
    split at h
    · cases h
    · rename_i param hopt
      have hp := parse_options_returns _ args _ param (Nat.le_refl _) heven hopt
      refine ⟨heven, ?_, hp.2⟩
      intro o ho
      rcases hp.1 o ho with h | h | h
      · exact Or.inl h.1
      · exact Or.inr (Or.inl h.1)
      · exact Or.inr (Or.inr h.1)

/-- C23, where the code departs from it: `parse_command_line` accepts `--port`
values that are no decimal integer in range: the empty string, a number after
white space and a sign, and a number above 65535 that the conversion to `int`
wraps into the accepted range; none of these ends start-up with the usage
error, while the value 80 does. -/
theorem parse_command_line_accepts_bad_port :
    parse_command_line ["--port".toList, "".toList] =
      Startup.returns { maxConns := 0, portNum := some "".toList,
                        dictFileName := some DEFAULT_DICTIONARY } ∧
    parse_command_line ["--port".toList, " +2000".toList] =
      Startup.returns { maxConns := 0, portNum := some " +2000".toList,
                        dictFileName := some DEFAULT_DICTIONARY } ∧
    parse_command_line ["--port".toList, "4294968320".toList] =
      Startup.returns { maxConns := 0, portNum := some "4294968320".toList,
                        dictFileName := some DEFAULT_DICTIONARY } ∧
    parse_command_line ["--port".toList, "80".toList] = Startup.exit 1 := by
  decide

/-- C24: an argument list in which `--port`, `--maxconn` or `--dictionary`
stands in option position more than once (two positions of the option names
hold the same name), or in which an argument in option
position is none of the three names, or in which the last option has no value,
makes `parse_command_line` end start-up with the usage error, exit status 1. -/
theorem parse_command_line_rejects_bad_options (args : List CString)
    (h : (∃ i j : Nat, i < j ∧ j < (option_names args).length ∧
        (option_names args)[i]? = (option_names args)[j]?) ∨
      (∃ o ∈ option_names args,
        o ≠ "--maxconn".toList ∧ o ≠ "--port".toList ∧ o ≠ "--dictionary".toList) ∨
      args.length % 2 = 1) :
    parse_command_line args = Startup.exit 1 := by
  cases hres : parse_command_line args with
  | exit status => rw [parse_command_line_exit args status hres]; rfl
  | returns r =>
    exfalso
    obtain ⟨heven, hknown, hnodup⟩ := parse_command_line_returns args r hres
    rcases h with ⟨i, j, hij, hj, ho⟩ | ⟨o, ho, h1, h2, h3⟩ | h
    · exact List.nodup_iff_getElem?_ne_getElem?.mp hnodup i j hij hj ho
    · rcases hknown o ho with h | h | h
      · exact h1 h
      · exact h2 h
      · exact h3 h
    · omega

theorem parse_command_line_rejects_bad_options_witness :
    parse_command_line ["--maxconn".toList, "0".toList, "--maxconn".toList, "0".toList] =
      Startup.exit 1 :=
  parse_command_line_rejects_bad_options
    ["--maxconn".toList, "0".toList, "--maxconn".toList, "0".toList]
    (Or.inl ⟨0, 1, by decide, by decide, by decide⟩)

/-! ## One worker among others -/

theorem crack_thread_step_new_word (H : Hash) (f : Nat) (t : CrackThread)
    (h : (crack_thread_step H f t).2.ret.word ≠ none) :
    t.ret.word ≠ none ∨ (crack_thread_step H f t).1 = 1 := by
  unfold crack_thread_step at h ⊢
  cases hpc : t.pc with
  | test =>
    simp only [hpc] at h ⊢
    split at h <;> exact Or.inl h
  | body =>
    simp only [hpc] at h ⊢
    split
    · exact Or.inr rfl
    · rename_i hne
      rw [if_neg hne] at h
      exact Or.inl h
  | returned =>
    simp only [hpc] at h
    exact Or.inl h

theorem flagInv_step (H : Hash) (s s2 : Nat × List CrackThread) (hs : ThreadsStep H s s2)
    (h : FlagInv s) : FlagInv s2 := by
  cases hs with
  | step f l1 t l2 =>
    rintro ⟨u, hu, hw⟩
    simp only [List.mem_append, List.mem_cons] at hu
    have hold : (∃ v ∈ l1 ++ t :: l2, v.ret.word ≠ none) →
        (crack_thread_step H f t).1 = 1 := by
      intro hv
      have hf : f = 1 := h hv
      rcases crack_thread_step_flag H f t with h1 | h1
      · rw [h1]; exact hf
      · exact h1.1
    rcases hu with hu | hu | hu
    · exact hold ⟨u, by simp [hu], hw⟩
    · subst hu
      rcases crack_thread_step_new_word H f t hw with h1 | h1
      · exact hold ⟨t, by simp, h1⟩
      · exact h1
    · exact hold ⟨u, by simp [hu], hw⟩

theorem flagInv_reach (H : Hash) (s s2 : Nat × List CrackThread)
    (hr : Relation.ReflTransGen (ThreadsStep H) s s2) (h : FlagInv s) : FlagInv s2 := by
  induction hr with
  | refl => exact h
  | tail _ hs ih => exact flagInv_step H _ _ hs ih

theorem crack_thread_step_entry (H : Hash) (f : Nat) (t : CrackThread) (hf : f ≠ 0)
    (h : t.ret.word = none ∧ t.ret.numCalls = 0 ∧ t.pc ≠ ThreadPc.body) :
    (crack_thread_step H f t).1 = f ∧ (crack_thread_step H f t).2.ret.word = none ∧
      (crack_thread_step H f t).2.ret.numCalls = 0 ∧
      (crack_thread_step H f t).2.pc ≠ ThreadPc.body := by
  obtain ⟨h1, h2, h3⟩ := h
  unfold crack_thread_step
  cases hpc : t.pc with
  | test =>
    have hno : ¬ (t.i < t.data.endPos ∧ f = 0) := fun hc => hf hc.2
    simp [if_neg hno, h1, h2]
  | body => exact absurd hpc h3
  | returned => simp [h1, h2, hpc]

theorem entryInv_step (H : Hash) (s s2 : Nat × List CrackThread) (hs : ThreadsStep H s s2)
    (h : EntryInv s) : EntryInv s2 := by
  cases hs with
  | step f l1 t l2 =>
    obtain ⟨hf, hall⟩ := h
    have hf : f ≠ 0 := hf
    have ht := crack_thread_step_entry H f t hf (hall t (by simp))
    refine ⟨?_, ?_⟩
    · show (crack_thread_step H f t).1 ≠ 0
      rw [ht.1]; exact hf
    · intro u hu
      simp only [List.mem_append, List.mem_cons] at hu
      rcases hu with hu | hu | hu
      · exact hall u (by simp [hu])
      · subst hu; exact ht.2
      · exact hall u (by simp [hu])

theorem entryInv_reach (H : Hash) (s s2 : Nat × List CrackThread)
    (hr : Relation.ReflTransGen (ThreadsStep H) s s2) (h : EntryInv s) : EntryInv s2 := by
  induction hr with
  | refl => exact h
  | tail _ hs ih => exact entryInv_step H _ _ hs ih

theorem workersInv_step (H : Hash) (s s2 : Nat × List CrackThread) (hs : ThreadsStep H s s2)
    (h : ∀ t ∈ s.2, ThreadInv H t) : ∀ t ∈ s2.2, ThreadInv H t := by
  cases hs with
  | step f l1 t l2 =>
    intro u hu
    simp only [List.mem_append, List.mem_cons] at hu
    rcases hu with hu | hu | hu
    · exact h u (by simp [hu])
    · subst hu; exact crack_thread_step_inv H f t (h t (by simp))
    · exact h u (by simp [hu])

theorem workersInv_reach (H : Hash) (s s2 : Nat × List CrackThread)
    (hr : Relation.ReflTransGen (ThreadsStep H) s s2)
    (h : ∀ t ∈ s.2, ThreadInv H t) : ∀ t ∈ s2.2, ThreadInv H t := by
  induction hr with
  | refl => exact h
  | tail _ hs ih => exact workersInv_step H _ _ hs ih

theorem crack_threads_run_reach (H : Hash) (datas : List CrackThreadData) (found : Nat)
    (sched : List Nat) :
    Relation.ReflTransGen (ThreadsStep H) (found, datas.map crack_thread_start)
      (crack_threads_run H datas found sched) := by
  have h1 := run_schedule_reach H sched found (datas.map crack_thread_start)
  have h2 := finish_threads_reach H
    (run_schedule H sched found (datas.map crack_thread_start)).2 []
    (run_schedule H sched found (datas.map crack_thread_start)).1
  simp only [List.nil_append] at h2
  exact h1.trans h2

theorem crack_threads_run_data (H : Hash) (datas : List CrackThreadData) (found : Nat)
    (sched : List Nat) :
    (crack_threads_run H datas found sched).2.map CrackThread.data = datas := by
  rw [threads_data_reach H _ _ (crack_threads_run_reach H datas found sched)]
  simp only [List.map_map]
  conv_rhs => rw [← List.map_id datas]
  apply List.map_congr_left
  intro d _
  rfl

/-- C27: threads started on any worker inputs whose ranges `[start, end)` lie
within their words, from any value of the shared flag and under any schedule,
all return; a thread that returns a word returns `words[i]` for an index `i` of
its range with `H(words[i], salt)` equal to its cipher text, and the flag is 1
afterwards; its `numCalls` is at most `end - start`; and when the flag is
nonzero at the start, every thread returns the NULL word with `numCalls = 0`. -/
theorem crack_thread_contract (H : Hash) (datas : List CrackThreadData) (found : Nat)
    (sched : List Nat)
    (hrange : ∀ d ∈ datas, d.startPos ≤ d.endPos ∧ d.endPos ≤ d.words.length) :
    (crack_threads_run H datas found sched).2.map CrackThread.data = datas ∧
    ∀ t ∈ (crack_threads_run H datas found sched).2,
      t.pc = ThreadPc.returned ∧
      (∀ w, t.ret.word = some w →
        (∃ i, t.data.startPos ≤ i ∧ i < t.data.endPos ∧ t.data.words[i]? = some w ∧
          H w t.data.salt = t.data.cipherText) ∧
        (crack_threads_run H datas found sched).1 = 1) ∧
      t.ret.numCalls ≤ t.data.endPos - t.data.startPos ∧
      (found ≠ 0 → t.ret.word = none ∧ t.ret.numCalls = 0) := by
  have hr := crack_threads_run_reach H datas found sched
  have hdata := crack_threads_run_data H datas found sched
  refine ⟨hdata, ?_⟩
  intro t ht
  have hd : t.data ∈ datas := by
    rw [← hdata]; exact List.mem_map_of_mem _ ht
  obtain ⟨hse, hew⟩ := hrange t.data hd
  have hinv : ThreadInv H t := by
    refine workersInv_reach H _ _ hr ?_ t ht
    intro u hu
    simp only [List.mem_map] at hu
    obtain ⟨d, -, rfl⟩ := hu
    exact crack_thread_start_inv H d
  have hflag : FlagInv (crack_threads_run H datas found sched) := by
    refine flagInv_reach H _ _ hr ?_
    rintro ⟨u, hu, hw⟩
    simp only [List.mem_map] at hu
    obtain ⟨d, -, rfl⟩ := hu
    exact absurd rfl hw
  obtain ⟨h1, h2, -, -, h5, h6⟩ := hinv
  refine ⟨finish_threads_returned H _ _ t ht, ?_, ?_, ?_⟩
  · intro w hw
    obtain ⟨-, hi, hwi, hh⟩ := h5 w hw
    refine ⟨⟨t.i, h1, hi, ?_, hh⟩, hflag ⟨t, ht, by rw [hw]; simp⟩⟩
    rw [hwi, List.getD_eq_getElem _ _ (by omega), List.getElem?_eq_getElem]
  · have hi := h2 hse
    cases hw : t.ret.word with
    | none => rw [hw] at h6; simp only [if_true] at h6; omega
    | some w =>
      obtain ⟨-, hlt, -, -⟩ := h5 w hw
      rw [hw] at h6
      simp only [reduceCtorEq, if_false] at h6
      omega
  · intro hf
    have hentry : EntryInv (crack_threads_run H datas found sched) := by
      refine entryInv_reach H _ _ hr ⟨hf, ?_⟩
      intro u hu
      simp only [List.mem_map] at hu
      obtain ⟨d, -, rfl⟩ := hu
      exact ⟨rfl, rfl, by simp [crack_thread_start]⟩
    exact ⟨(hentry.2 t ht).1, (hentry.2 t ht).2.1⟩

theorem crack_thread_contract_witness :
    (crack_threads_run demo_hash
        [create_crack_thread_data "abworld".toList "ab".toList demo_dictionary 0 1,
         create_crack_thread_data "abworld".toList "ab".toList demo_dictionary 1 3]
        0 [0, 1, 1, 0]).2.map CrackThread.data =
      [create_crack_thread_data "abworld".toList "ab".toList demo_dictionary 0 1,
       create_crack_thread_data "abworld".toList "ab".toList demo_dictionary 1 3] ∧
    ∀ t ∈ (crack_threads_run demo_hash
        [create_crack_thread_data "abworld".toList "ab".toList demo_dictionary 0 1,
         create_crack_thread_data "abworld".toList "ab".toList demo_dictionary 1 3]
        0 [0, 1, 1, 0]).2,
      t.pc = ThreadPc.returned ∧
      (∀ w, t.ret.word = some w →
        (∃ i, t.data.startPos ≤ i ∧ i < t.data.endPos ∧ t.data.words[i]? = some w ∧
          demo_hash w t.data.salt = t.data.cipherText) ∧
        (crack_threads_run demo_hash
          [create_crack_thread_data "abworld".toList "ab".toList demo_dictionary 0 1,
           create_crack_thread_data "abworld".toList "ab".toList demo_dictionary 1 3]
          0 [0, 1, 1, 0]).1 = 1) ∧
      t.ret.numCalls ≤ t.data.endPos - t.data.startPos ∧
      ((0 : Nat) ≠ 0 → t.ret.word = none ∧ t.ret.numCalls = 0) :=
  crack_thread_contract demo_hash
    [create_crack_thread_data "abworld".toList "ab".toList demo_dictionary 0 1,
     create_crack_thread_data "abworld".toList "ab".toList demo_dictionary 1 3]
    0 [0, 1, 1, 0] (by decide)

/-! ## The reply to a crack request that finds a word -/

theorem join_loop_result :
    ∀ (ts : List CrackThread) (stats : Statistics) (r : Option CString),
      (r ≠ none ∨ ∃ t ∈ ts, t.ret.word ≠ none) →
      ∃ x, (join_loop ts stats r).2 = some x ∧
        (r = some x ∨ ∃ t ∈ ts, t.ret.word = some x) := by
  intro ts
  induction ts with
  | nil =>
    intro stats r h
    rcases h with h | ⟨t, ht, _⟩
    · cases r with
      | none => exact absurd rfl h
      | some x => exact ⟨x, rfl, Or.inl rfl⟩
    · simp at ht
  | cons t ts ih =>
    intro stats r h
    cases hw : t.ret.word with
    | none =>
      simp only [join_loop, hw]
      have h2 : r ≠ none ∨ ∃ u ∈ ts, u.ret.word ≠ none := by
        rcases h with h | ⟨u, hu, hu2⟩
        · exact Or.inl h
        · simp only [List.mem_cons] at hu
          rcases hu with hu | hu
          · subst hu; exact absurd hw hu2
          · exact Or.inr ⟨u, hu, hu2⟩
      obtain ⟨x, hx, hx2⟩ := ih (stats_add_crypt_call stats t.ret.numCalls) r h2
      refine ⟨x, hx, ?_⟩
      rcases hx2 with hx2 | ⟨u, hu, hu2⟩
      · exact Or.inl hx2
      · exact Or.inr ⟨u, by simp [hu], hu2⟩
    | some y =>
      simp only [join_loop, hw]
      obtain ⟨x, hx, hx2⟩ := ih
        (stats_add_crack_request_pass (stats_add_crypt_call stats t.ret.numCalls)) (some y)
        (Or.inl (by simp))
      refine ⟨x, hx, Or.inr ?_⟩
      rcases hx2 with hx2 | ⟨u, hu, hu2⟩
      · injection hx2 with hx2
        subst hx2
        exact ⟨t, by simp, hw⟩
      · exact ⟨u, by simp [hu], hu2⟩

/-- When some dictionary word hashes to the cipher text, the reply is a
dictionary word that hashes to it. -/
theorem crack_call_match (H : Hash) (c : CString) (N : Nat) (D : Dictionary)
    (stats : Statistics) (sched : List Nat) (hN : 1 ≤ N)
    (hmatch : ∃ w ∈ D, H w (c.take SALT_LENGTH) = c) :
    (crack_call H c N D stats sched).1 ∈ D ∧
      H (crack_call H c N D stats sched).1 (c.take SALT_LENGTH) = c := by
  obtain ⟨w, hw, hc⟩ := hmatch
  obtain ⟨j, hjlt, hjw⟩ := List.getElem_of_mem hw
  have hj : H (D.getD j []) (c.take SALT_LENGTH) = c := by
    rw [List.getD_eq_getElem _ _ hjlt, hjw]; exact hc
  obtain ⟨f, hr⟩ := crack_joined_reach H c N D sched
  have hinv := progressInv_reach H c D j hj _ _ hr
    ⟨threadsInv_init H c N D, fun h => absurd rfl h, progressInv_init c N D hN j hjlt⟩
  have hex : ∃ t ∈ crack_joined H c N D sched, t.ret.word ≠ none := by
    rcases hinv.2.2 with h | ⟨t, ht, -, -, h3⟩
    · exact h
    · exact absurd (crack_joined_returned H c N D sched t ht) h3
  obtain ⟨x, hx, hx2⟩ := join_loop_result _ stats none (Or.inr hex)
  rw [crack_call_of_some H c N D stats sched x hx]
  rcases hx2 with hx2 | ⟨t, ht, hx2⟩
  · cases hx2
  · exact crack_joined_sound H c N D sched t ht x hx2

/-- C28, as stated, fails: `:failed` has 7 characters, so the load
keeps it as a word; the crack request for its hash finds it, counts a success
and replies `:failed`, for which the client prints `Unable to decrypt`. -/
theorem crack_reply_collides_with_sentinel :
    fill_dictionary (some [":failed".toList]) = Startup.returns [":failed".toList] ∧
    process_command demo_hash13 "crack ab:failed.... 1".toList [":failed".toList]
        configure_stats [] =
      (FAILED, { configure_stats with cracks := 1, successCracks := 1, cryptCalls := 1 }) ∧
    CrackClient.handle_response (FAILED ++ [Char.ofNat 10]) = CrackClient.FAILED_MESSAGE := by
  decide

/-- C28, amended: for a dictionary that holds neither `:invalid` nor `:failed`
and a validated crack request for which some dictionary word hashes to the
cipher text, under every schedule of the threads the reply is a dictionary word
that hashes to the cipher text, it is neither `:invalid` nor `:failed`, and the
client prints the reply line as it is. -/
theorem crack_reply_is_no_sentinel (H : Hash) (command cipher n : CString)
    (dict : Dictionary) (stats : Statistics) (sched : List Nat)
    (hI : INVALID ∉ dict) (hF : FAILED ∉ dict)
    (hsplit : split_by_char command (Char.ofNat 32) MAX_FIELDS = ["crack".toList, cipher, n])
    (hlen : cipher.length = CIPHER_LENGTH) (hn : valid_thread_num n = true)
    (hc0 : valid_salt_character (charAt cipher 0) = true)
    (hc1 : valid_salt_character (charAt cipher 1) = true)
    (hmatch : ∃ w ∈ dict, H w (cipher.take SALT_LENGTH) = cipher) :
    (process_command H command dict stats sched).1 ∈ dict ∧
    H (process_command H command dict stats sched).1 (cipher.take SALT_LENGTH) = cipher ∧
    (process_command H command dict stats sched).1 ≠ INVALID ∧
    (process_command H command dict stats sched).1 ≠ FAILED ∧
    CrackClient.handle_response
        ((process_command H command dict stats sched).1 ++ [Char.ofNat 10]) =
      (process_command H command dict stats sched).1 ++ [Char.ofNat 10] := by
  rw [process_command_crack_valid H command cipher n dict stats sched hsplit hlen hn hc0 hc1]
  have hN := (valid_thread_num_toNat n hn).1
  obtain ⟨hmem, hhash⟩ :=
    crack_call_match H cipher (atoi n).toNat dict (stats_add_crack_request stats) sched hN hmatch
  generalize (crack_call H cipher (atoi n).toNat dict (stats_add_crack_request stats) sched).1 = r
    at hmem hhash ⊢
  have h1 : r ≠ INVALID := fun h => hI (h ▸ hmem)
  have h2 : r ≠ FAILED := fun h => hF (h ▸ hmem)
  refine ⟨hmem, hhash, h1, h2, ?_⟩
  unfold CrackClient.handle_response
  have e1 : ¬ r ++ [Char.ofNat 10] = CrackClient.SERVER_INVALID := by
    intro h
    exact h1 (List.append_cancel_right (show r ++ [Char.ofNat 10] = INVALID ++ [Char.ofNat 10] from h))
  have e2 : ¬ r ++ [Char.ofNat 10] = CrackClient.SERVER_FAILED := by
    intro h
    exact h2 (List.append_cancel_right (show r ++ [Char.ofNat 10] = FAILED ++ [Char.ofNat 10] from h))
  rw [if_neg e1, if_neg e2]

theorem crack_reply_is_no_sentinel_witness :
    (process_command demo_hash13 "crack abworld...... 2".toList demo_dictionary
        configure_stats [1, 0]).1 ∈ demo_dictionary ∧
    demo_hash13 (process_command demo_hash13 "crack abworld...... 2".toList demo_dictionary
        configure_stats [1, 0]).1 ("abworld......".toList.take SALT_LENGTH) =
      "abworld......".toList ∧
    (process_command demo_hash13 "crack abworld...... 2".toList demo_dictionary
        configure_stats [1, 0]).1 ≠ INVALID ∧
    (process_command demo_hash13 "crack abworld...... 2".toList demo_dictionary
        configure_stats [1, 0]).1 ≠ FAILED ∧
    CrackClient.handle_response
        ((process_command demo_hash13 "crack abworld...... 2".toList demo_dictionary
          configure_stats [1, 0]).1 ++ [Char.ofNat 10]) =
      (process_command demo_hash13 "crack abworld...... 2".toList demo_dictionary
        configure_stats [1, 0]).1 ++ [Char.ofNat 10] :=
  crack_reply_is_no_sentinel demo_hash13 "crack abworld...... 2".toList
    "abworld......".toList "2".toList demo_dictionary configure_stats [1, 0]
    (by decide) (by decide) (by decide) (by decide) (by decide) (by decide) (by decide)
    ⟨"world".toList, by decide, by decide⟩


end CrackServer

namespace CrackClient

/-! ## crackclient (src/a4/crackclient.c) -/

/-- C20: `handle_response` prints `Error in command` and a newline when the
response is exactly `:invalid` and a newline, `Unable to decrypt` and a newline
when it is exactly `:failed` and a newline, and prints every other response
unchanged. -/
theorem handle_response_translation (response : CString) :
    handle_response (":invalid".toList ++ [Char.ofNat 10]) =
      "Error in command".toList ++ [Char.ofNat 10] ∧
    handle_response (":failed".toList ++ [Char.ofNat 10]) =
      "Unable to decrypt".toList ++ [Char.ofNat 10] ∧
    (response ≠ ":invalid".toList ++ [Char.ofNat 10] →
      response ≠ ":failed".toList ++ [Char.ofNat 10] →
      handle_response response = response) := by
  refine ⟨by decide, by decide, ?_⟩
  intro h1 h2
  unfold handle_response
  rw [if_neg (show ¬ response = SERVER_INVALID from h1),
    if_neg (show ¬ response = SERVER_FAILED from h2)]

theorem handle_response_translation_witness :
    handle_response ("hello".toList ++ [Char.ofNat 10]) = "hello".toList ++ [Char.ofNat 10] :=
  (handle_response_translation ("hello".toList ++ [Char.ofNat 10])).2.2 (by decide) (by decide)

/-! ## The dialogue with the server -/

theorem fgets_chars_line (r rest : CString) (hnl : Char.ofNat 10 ∉ r) :
    ∀ n, r.length < n →
      fgets_chars n (r ++ Char.ofNat 10 :: rest) = (r ++ [Char.ofNat 10], rest) := by
  induction r with
  | nil =>
    intro n hn
    cases n with
    | zero => omega
    | succ n => simp [fgets_chars]
  | cons c cs ih =>
    intro n hn
    cases n with
    | zero => omega
    | succ n =>
      have hc : c ≠ Char.ofNat 10 := fun h => hnl (by simp [h])
      have hcs : Char.ofNat 10 ∉ cs := fun h => hnl (by simp [h])
      simp only [List.length_cons] at hn
      have hrec := ih hcs n (by omega)
      rw [List.cons_append, fgets_chars, if_neg hc, hrec]
      rfl

/-- A response line of at most 77 characters is read whole by one `fgets`. -/
theorem fgets_line (r : CString) (rs : List CString) (hlen : r.length ≤ 77)
    (hnl : Char.ofNat 10 ∉ r) :
    fgets (BUFFER_SIZE - 1) (lines_text (r :: rs)) = some (r ++ [Char.ofNat 10], lines_text rs) := by
  have h := fgets_chars_line r (lines_text rs) hnl 78 (by omega)
  have e : lines_text (r :: rs) = r ++ Char.ofNat 10 :: lines_text rs := by
    simp [lines_text]
  rw [e]
  cases r with
  | nil => simpa [fgets, BUFFER_SIZE] using h
  | cons c cs => simpa [fgets, BUFFER_SIZE] using h

theorem is_command_iff (line : CString) (hnul : Char.ofNat 0 ∉ line) :
    (line.getD 0 (Char.ofNat 0) = Char.ofNat 35 ∨ line.getD 0 (Char.ofNat 0) = Char.ofNat 0) ↔
      is_command line = false := by
  cases line with
  | nil => simp [is_command]
  | cons c cs =>
    have hc : c ≠ Char.ofNat 0 := fun h => hnul (by simp [h])
    simp [is_command, hc]

/-- Whatever the server sends: a dialogue that ends without the connection
being lost has transmitted every command line, and read once per line. -/
theorem communicate_sent_of_not_terminated :
    ∀ (lines : List CString) (stream : CString),
      (∀ l ∈ lines, Char.ofNat 0 ∉ l) →
      (communicate_with_server lines stream).terminated = false →
      (communicate_with_server lines stream).sent = lines_text (lines.filter is_command) ∧
      (communicate_with_server lines stream).responses = (lines.filter is_command).length := by
  intro lines
  induction lines with
  | nil => intro stream _ _; simp [communicate_with_server, lines_text]
  | cons line rest ih =>
    intro stream hnul ht
    have hnul2 : ∀ l ∈ rest, Char.ofNat 0 ∉ l := fun l hl => hnul l (by simp [hl])
    have hskip := is_command_iff line (hnul line (by simp))
    rw [communicate_with_server] at ht ⊢
    cases hc : is_command line with
    | false =>
      rw [if_pos (hskip.mpr hc)] at ht ⊢
      have hf : (line :: rest).filter is_command = rest.filter is_command := by
        simp [List.filter_cons, hc]
      rw [hf]
      exact ih stream hnul2 ht
    | true =>
      have hno : ¬ (line.getD 0 (Char.ofNat 0) = Char.ofNat 35 ∨
          line.getD 0 (Char.ofNat 0) = Char.ofNat 0) := by
        intro h; rw [hskip.mp h] at hc; cases hc
      rw [if_neg hno] at ht ⊢
      have hf : (line :: rest).filter is_command = line :: rest.filter is_command := by
        simp [List.filter_cons, hc]
      rw [hf]
      cases hg : fgets (BUFFER_SIZE - 1) stream with
      | none => rw [hg] at ht; simp at ht
      | some p =>
        obtain ⟨buffer, stream2⟩ := p
        rw [hg] at ht
        simp only at ht
        obtain ⟨i1, i2⟩ := ih stream2 hnul2 ht
        simp only [i1, i2, send_command, lines_text, List.length_cons, List.append_assoc,
          and_self]

/-- C21, as stated, fails: `fgets` is given room for 78 characters,
so of a response line of 100 characters the first 78 are consumed for the first
transmitted line and the rest for the second, and the second response is never
read. -/
theorem long_response_is_consumed_twice :
    communicate_with_server ["a".toList, "b".toList]
        (lines_text [List.replicate 100 'x', "y".toList]) =
      { sent := "a".toList ++ [Char.ofNat 10] ++ "b".toList ++ [Char.ofNat 10],
        printed := List.replicate 100 'x' ++ [Char.ofNat 10],
        unread := "y".toList ++ [Char.ofNat 10],
        responses := 2,
        terminated := false } := by
  decide

/-- C21, amended: for input lines (C strings) and a server that answers every
transmitted line with one response line of at most 77 characters, the client
transmits exactly the lines that are not empty and do not begin with `#`, in
input order, each followed by one newline, and consumes exactly one response
line per transmitted line, printing what `handle_response` makes of it. -/
theorem client_transmits_commands :
    ∀ (lines responses : List CString),
      (∀ l ∈ lines, Char.ofNat 0 ∉ l) →
      (∀ r ∈ responses, r.length ≤ 77 ∧ Char.ofNat 10 ∉ r) →
      (lines.filter is_command).length ≤ responses.length →
      (communicate_with_server lines (lines_text responses)).sent =
        lines_text (lines.filter is_command) ∧
      (communicate_with_server lines (lines_text responses)).responses =
        (lines.filter is_command).length ∧
      (communicate_with_server lines (lines_text responses)).printed =
        responses_printed (responses.take (lines.filter is_command).length) ∧
      (communicate_with_server lines (lines_text responses)).unread =
        lines_text (responses.drop (lines.filter is_command).length) ∧
      (communicate_with_server lines (lines_text responses)).terminated = false := by
  intro lines
  induction lines with
  | nil =>
    intro responses _ _ _
    simp [communicate_with_server, lines_text, responses_printed]
  | cons line rest ih =>
    intro responses hnul hresp hans
    have hnul2 : ∀ l ∈ rest, Char.ofNat 0 ∉ l := fun l hl => hnul l (by simp [hl])
    have hskip := is_command_iff line (hnul line (by simp))
    rw [communicate_with_server]
    cases hc : is_command line with
    | false =>
      rw [if_pos (hskip.mpr hc)]
      have hf : (line :: rest).filter is_command = rest.filter is_command := by
        simp [List.filter_cons, hc]
      rw [hf] at hans ⊢
      exact ih responses hnul2 hresp hans
    | true =>
      have hno : ¬ (line.getD 0 (Char.ofNat 0) = Char.ofNat 35 ∨
          line.getD 0 (Char.ofNat 0) = Char.ofNat 0) := by
        intro h; rw [hskip.mp h] at hc; cases hc
      rw [if_neg hno]
      have hf : (line :: rest).filter is_command = line :: rest.filter is_command := by
        simp [List.filter_cons, hc]
      rw [hf] at hans ⊢
      cases responses with
      | nil => simp at hans
      | cons r rs =>
        have hr := hresp r (by simp)
        have hresp2 : ∀ x ∈ rs, x.length ≤ 77 ∧ Char.ofNat 10 ∉ x :=
          fun x hx => hresp x (by simp [hx])
        simp only [List.length_cons] at hans
        obtain ⟨i1, i2, i3, i4, i5⟩ := ih rs hnul2 hresp2 (by omega)
        rw [fgets_line r rs hr.1 hr.2]
        simp only [i1, i2, i3, i4, i5, send_command, lines_text, responses_printed,
          List.length_cons, List.take_succ_cons, List.drop_succ_cons, List.append_assoc,
          and_self]

theorem client_transmits_commands_witness :
    (communicate_with_server ["crypt a ab".toList, "# note".toList, [], "x".toList]
        (lines_text ["abQ".toList, ":invalid".toList, "more".toList])).sent =
      lines_text (["crypt a ab".toList, "# note".toList, [], "x".toList].filter is_command) ∧
    (communicate_with_server ["crypt a ab".toList, "# note".toList, [], "x".toList]
        (lines_text ["abQ".toList, ":invalid".toList, "more".toList])).responses =
      (["crypt a ab".toList, "# note".toList, [], "x".toList].filter is_command).length ∧
    (communicate_with_server ["crypt a ab".toList, "# note".toList, [], "x".toList]
        (lines_text ["abQ".toList, ":invalid".toList, "more".toList])).printed =
      responses_printed (["abQ".toList, ":invalid".toList, "more".toList].take
        (["crypt a ab".toList, "# note".toList, [], "x".toList].filter is_command).length) ∧
    (communicate_with_server ["crypt a ab".toList, "# note".toList, [], "x".toList]
        (lines_text ["abQ".toList, ":invalid".toList, "more".toList])).unread =
      lines_text (["abQ".toList, ":invalid".toList, "more".toList].drop
        (["crypt a ab".toList, "# note".toList, [], "x".toList].filter is_command).length) ∧
    (communicate_with_server ["crypt a ab".toList, "# note".toList, [], "x".toList]
        (lines_text ["abQ".toList, ":invalid".toList, "more".toList])).terminated = false :=
  client_transmits_commands ["crypt a ab".toList, "# note".toList, [], "x".toList]
    ["abQ".toList, ":invalid".toList, "more".toList] (by decide) (by decide) (by decide)

end CrackClient

namespace UqWordiply

/-! ## uqwordiply (src/a1/uqwordiply.c): the checks of a guess -/

theorem contains_non_alpha_iff (word : CString) :
    contains_non_alpha word = false ↔ ∀ c ∈ word, c.isAlpha = true := by
  induction word with
  | nil => simp [contains_non_alpha]
  | cons c cs ih =>
    rw [contains_non_alpha, CrackServer.isalpha_eq]
    cases hc : c.isAlpha with
    | false => simp [hc]
    | true => simp [hc, ih]

theorem starts_with_iff :
    ∀ (needle haystack : CString),
      starts_with needle haystack = true ↔ ∃ post, haystack = needle ++ post := by
  intro needle
  induction needle with
  | nil => intro haystack; simp [starts_with]
  | cons n ns ih =>
    intro haystack
    cases haystack with
    | nil => simp [starts_with]
    | cons h hs =>
      rw [starts_with]
      by_cases hnh : n = h
      · subst hnh
        simp only [if_true, ih, List.cons_append, List.cons.injEq, true_and]
      · simp only [if_neg hnh, List.cons_append, List.cons.injEq, Bool.false_eq_true, false_iff,
          not_exists, not_and]
        intro post hc
        exact absurd hc.symm hnh

theorem strstr_iff (needle : CString) :
    ∀ haystack : CString,
      strstr haystack needle = true ↔ ∃ pre post, haystack = pre ++ needle ++ post := by
  intro haystack
  induction haystack with
  | nil =>
    rw [strstr, starts_with_iff]
    constructor
    · rintro ⟨post, h⟩; exact ⟨[], post, by simpa using h⟩
    · rintro ⟨pre, post, h⟩
      have h2 := congrArg List.length h
      simp only [List.length_nil, List.length_append] at h2
      have hp : pre = [] := List.length_eq_zero.mp (by omega)
      subst hp
      exact ⟨post, by simpa using h⟩
  | cons h hs ih =>
    rw [strstr]
    by_cases hst : starts_with needle (h :: hs) = true
    · simp only [hst, if_true, true_iff]
      obtain ⟨post, hp⟩ := (starts_with_iff _ _).mp hst
      exact ⟨[], post, by simpa using hp⟩
    · simp only [hst, Bool.false_eq_true, if_false, ih]
      constructor
      · rintro ⟨pre, post, hp⟩
        exact ⟨h :: pre, post, by simp [hp]⟩
      · rintro ⟨pre, post, hp⟩
        cases pre with
        | nil =>
          exact absurd ((starts_with_iff _ _).mpr ⟨post, by simpa using hp⟩) hst
        | cons p pre =>
          simp only [List.cons_append, List.cons.injEq] at hp
          exact ⟨pre, post, by simpa using hp.2⟩

theorem is_in_dictionary_iff (word : CString) (dictionary : List CString) :
    is_in_dictionary word dictionary = true ↔ word ∈ dictionary := by
  induction dictionary with
  | nil => simp [is_in_dictionary]
  | cons w ws ih =>
    rw [is_in_dictionary]
    by_cases h : word = w
    · simp [h]
    · simp [h, ih]

theorem already_guessed_loop_iff (guess : CString) (guesses : List CString) :
    ∀ (fuel i : Nat),
      already_guessed_loop guess guesses fuel i = true ↔
        ∃ k, i ≤ k ∧ k < i + fuel ∧ guess = guesses.getD k [] := by
  intro fuel
  induction fuel with
  | zero =>
    intro i
    simp only [already_guessed_loop, Bool.false_eq_true, false_iff, not_exists]
    intro k hk
    omega
  | succ fuel ih =>
    intro i
    rw [already_guessed_loop]
    by_cases h : guess = guesses.getD i []
    · simp only [if_pos h, true_iff]
      exact ⟨i, Nat.le_refl _, by omega, h⟩
    · simp only [if_neg h, ih]
      constructor
      · rintro ⟨k, h1, h2, h3⟩
        exact ⟨k, by omega, by omega, h3⟩
      · rintro ⟨k, h1, h2, h3⟩
        have hne : k ≠ i := by
          intro hk; subst hk; exact h h3
        exact ⟨k, by omega, by omega, h3⟩

theorem already_guessed_iff (guess : CString) (guessNum : Nat) (guesses : List CString)
    (hg : guessNum - 1 ≤ guesses.length) :
    already_guessed guess guessNum guesses = true ↔ guess ∈ guesses.take (guessNum - 1) := by
  unfold already_guessed
  rw [already_guessed_loop_iff, List.mem_iff_getElem]
  constructor
  · rintro ⟨k, -, hk, he⟩
    have hk2 : k < guesses.length := by omega
    refine ⟨k, by simp only [List.length_take]; omega, ?_⟩
    rw [List.getElem_take, he, List.getD_eq_getElem _ _ hk2]
  · rintro ⟨k, hk, he⟩
    simp only [List.length_take] at hk
    have hk2 : k < guesses.length := by omega
    refine ⟨k, Nat.zero_le _, by omega, ?_⟩
    rw [List.getElem_take] at he
    rw [List.getD_eq_getElem _ _ hk2, he]

/-- C29: in a game whose `guesses` array holds the `guessNum - 1` guesses
accepted so far, `valid_guess` returns true exactly when the guess has letters
only, contains the starter word as a substring, is not the starter word, is in
the dictionary and is not among the accepted guesses; when a check fails the
message printed is that of the first failing check in this order, and nothing
is printed for a valid guess. -/
theorem valid_guess_contract (guess : CString) (game : Game)
    (hg : game.guessNum - 1 ≤ game.guesses.length) :
    ((valid_guess guess game).1 = true ↔
      ((∀ c ∈ guess, c.isAlpha = true) ∧
       (∃ pre post, guess = pre ++ game.starterWord ++ post) ∧
       guess ≠ game.starterWord ∧
       guess ∈ game.dictionary ∧
       guess ∉ game.guesses.take (game.guessNum - 1))) ∧
    (¬ (∀ c ∈ guess, c.isAlpha = true) →
      valid_guess guess game = (false, MESSAGE_ONLY_LETTERS)) ∧
    ((∀ c ∈ guess, c.isAlpha = true) →
      ¬ (∃ pre post, guess = pre ++ game.starterWord ++ post) →
      valid_guess guess game = (false, MESSAGE_CONTAIN_STARTER)) ∧
    ((∀ c ∈ guess, c.isAlpha = true) →
      (∃ pre post, guess = pre ++ game.starterWord ++ post) →
      guess = game.starterWord →
      valid_guess guess game = (false, MESSAGE_IS_STARTER)) ∧
    ((∀ c ∈ guess, c.isAlpha = true) →
      (∃ pre post, guess = pre ++ game.starterWord ++ post) →
      guess ≠ game.starterWord → guess ∉ game.dictionary →
      valid_guess guess game = (false, MESSAGE_NOT_IN_DICT)) ∧
    ((∀ c ∈ guess, c.isAlpha = true) →
      (∃ pre post, guess = pre ++ game.starterWord ++ post) →
      guess ≠ game.starterWord → guess ∈ game.dictionary →
      guess ∈ game.guesses.take (game.guessNum - 1) →
      valid_guess guess game = (false, MESSAGE_ALREADY_GUESSED)) ∧
    ((∀ c ∈ guess, c.isAlpha = true) →
      (∃ pre post, guess = pre ++ game.starterWord ++ post) →
      guess ≠ game.starterWord → guess ∈ game.dictionary →
      guess ∉ game.guesses.take (game.guessNum - 1) →
      valid_guess guess game = (true, [])) := by
  have e1 := contains_non_alpha_iff guess
  have e2 := strstr_iff game.starterWord guess
  have e4 := is_in_dictionary_iff guess game.dictionary
  have e5 := already_guessed_iff guess game.guessNum game.guesses hg
  have n1 : ¬ (∀ c ∈ guess, c.isAlpha = true) → contains_non_alpha guess = true := by
    intro h
    cases hb : contains_non_alpha guess with
    | false => exact absurd (e1.mp hb) h
    | true => rfl
  have n2 : ¬ (∃ pre post, guess = pre ++ game.starterWord ++ post) →
      strstr guess game.starterWord = false := by
    intro h
    cases hb : strstr guess game.starterWord with
    | false => rfl
    | true => exact absurd (e2.mp hb) h
  have n4 : guess ∉ game.dictionary → is_in_dictionary guess game.dictionary = false := by
    intro h
    cases hb : is_in_dictionary guess game.dictionary with
    | false => rfl
    | true => exact absurd (e4.mp hb) h
  have n5 : guess ∉ game.guesses.take (game.guessNum - 1) →
      already_guessed guess game.guessNum game.guesses = false := by
    intro h
    cases hb : already_guessed guess game.guessNum game.guesses with
    | false => rfl
    | true => exact absurd (e5.mp hb) h
  have m1 : ¬ (∀ c ∈ guess, c.isAlpha = true) →
      valid_guess guess game = (false, MESSAGE_ONLY_LETTERS) := by
    intro h1
    simp only [valid_guess, n1 h1, if_true]
  have m2 : (∀ c ∈ guess, c.isAlpha = true) →
      ¬ (∃ pre post, guess = pre ++ game.starterWord ++ post) →
      valid_guess guess game = (false, MESSAGE_CONTAIN_STARTER) := by
    intro h1 h2
    simp only [valid_guess, contains_starter_word, e1.mpr h1, n2 h2, if_true,
      Bool.false_eq_true, if_false, Bool.not_false]
  have m3 : (∀ c ∈ guess, c.isAlpha = true) →
      (∃ pre post, guess = pre ++ game.starterWord ++ post) →
      guess = game.starterWord →
      valid_guess guess game = (false, MESSAGE_IS_STARTER) := by
    intro h1 h2 h3
    simp only [valid_guess, contains_starter_word, e1.mpr h1, e2.mpr h2, if_pos h3, if_true,
      Bool.false_eq_true, if_false, Bool.not_true]
  have m4 : (∀ c ∈ guess, c.isAlpha = true) →
      (∃ pre post, guess = pre ++ game.starterWord ++ post) →
      guess ≠ game.starterWord → guess ∉ game.dictionary →
      valid_guess guess game = (false, MESSAGE_NOT_IN_DICT) := by
    intro h1 h2 h3 h4
    simp only [valid_guess, contains_starter_word, e1.mpr h1, e2.mpr h2, if_neg h3, n4 h4,
      if_true, Bool.false_eq_true, if_false, Bool.not_true, Bool.not_false]
  have m5 : (∀ c ∈ guess, c.isAlpha = true) →
      (∃ pre post, guess = pre ++ game.starterWord ++ post) →
      guess ≠ game.starterWord → guess ∈ game.dictionary →
      guess ∈ game.guesses.take (game.guessNum - 1) →
      valid_guess guess game = (false, MESSAGE_ALREADY_GUESSED) := by
    intro h1 h2 h3 h4 h5
    simp only [valid_guess, contains_starter_word, e1.mpr h1, e2.mpr h2, if_neg h3, e4.mpr h4,
      e5.mpr h5, if_true, Bool.false_eq_true, if_false, Bool.not_true]
  have m6 : (∀ c ∈ guess, c.isAlpha = true) →
      (∃ pre post, guess = pre ++ game.starterWord ++ post) →
      guess ≠ game.starterWord → guess ∈ game.dictionary →
      guess ∉ game.guesses.take (game.guessNum - 1) →
      valid_guess guess game = (true, []) := by
    intro h1 h2 h3 h4 h5
    simp only [valid_guess, contains_starter_word, e1.mpr h1, e2.mpr h2, if_neg h3, e4.mpr h4,
      n5 h5, if_true, Bool.false_eq_true, if_false, Bool.not_true]
  refine ⟨⟨fun hv => ?_, fun h => by rw [m6 h.1 h.2.1 h.2.2.1 h.2.2.2.1 h.2.2.2.2]⟩,
    m1, m2, m3, m4, m5, m6⟩
  by_cases h1 : ∀ c ∈ guess, c.isAlpha = true
  · by_cases h2 : ∃ pre post, guess = pre ++ game.starterWord ++ post
    · by_cases h3 : guess = game.starterWord
      · rw [m3 h1 h2 h3] at hv; cases hv
      · by_cases h4 : guess ∈ game.dictionary
        · by_cases h5 : guess ∈ game.guesses.take (game.guessNum - 1)
          · rw [m5 h1 h2 h3 h4 h5] at hv; cases hv
          · exact ⟨h1, h2, h3, h4, h5⟩
        · rw [m4 h1 h2 h3 h4] at hv; cases hv
    · rw [m2 h1 h2] at hv; cases hv
  · rw [m1 h1] at hv; cases hv

theorem valid_guess_contract_witness :
    valid_guess "TOPS".toList
        { guessNum := 2, guesses := ["STOP".toList], starterWord := "TOP".toList,
          dictionary := ["STOP".toList, "TOPS".toList, "TOP".toList] } = (true, []) ∧
    valid_guess "STOP".toList
        { guessNum := 2, guesses := ["STOP".toList], starterWord := "TOP".toList,
          dictionary := ["STOP".toList, "TOPS".toList, "TOP".toList] } =
      (false, MESSAGE_ALREADY_GUESSED) :=
  ⟨(valid_guess_contract "TOPS".toList
      { guessNum := 2, guesses := ["STOP".toList], starterWord := "TOP".toList,
        dictionary := ["STOP".toList, "TOPS".toList, "TOP".toList] }
      (by decide)).2.2.2.2.2.2 (by decide) ⟨[], "S".toList, by decide⟩ (by decide) (by decide)
      (by decide),
   (valid_guess_contract "STOP".toList
      { guessNum := 2, guesses := ["STOP".toList], starterWord := "TOP".toList,
        dictionary := ["STOP".toList, "TOPS".toList, "TOP".toList] }
      (by decide)).2.2.2.2.2.1 (by decide) ⟨"S".toList, [], by decide⟩ (by decide) (by decide)
      (by decide)⟩

end UqWordiply

namespace TestUqWordiply

/-! ## testuqwordiply (src/a3/testuqwordiply.c): the job description -/

theorem count_digits_loop_toDigits :
    ∀ (fuel n acc : Nat) (ds : List Char), 1 ≤ n → n < fuel →
      (Nat.toDigitsCore 10 fuel n ds).length + acc =
        ds.length + count_digits_loop fuel n acc := by
  intro fuel
  induction fuel with
  | zero => intro n acc ds _ h; omega
  | succ fuel ih =>
    intro n acc ds h1 h2
    rw [Nat.toDigitsCore, count_digits_loop]
    have hn : n ≠ 0 := by omega
    simp only [if_pos hn]
    by_cases h0 : n / 10 = 0
    · simp only [h0, if_true, List.length_cons]
      cases fuel with
      | zero => simp [count_digits_loop]; omega
      | succ fuel => simp [count_digits_loop]; omega
    · simp only [if_neg h0]
      have h3 : 1 ≤ n / 10 := by omega
      have h4 : n / 10 < fuel := by omega
      have := ih (n / 10) (acc + 1) (Nat.digitChar (n % 10) :: ds) h3 h4
      simp only [List.length_cons] at this
      omega

/-- The loop of `count_digits` counts the decimal digits of a positive number. -/
theorem count_digits_eq (n : Nat) (hn : 1 ≤ n) :
    count_digits n = (Nat.toDigits 10 n).length := by
  have := count_digits_loop_toDigits (n + 1) n 0 [] hn (Nat.lt_succ_self n)
  simp only [List.length_nil, Nat.add_zero, Nat.zero_add] at this
  unfold count_digits Nat.toDigits
  exact this.symm

/-- C30, where the code departs from it: for every job number `n >= 1` and
destination `stdout` or `stderr`, `count_digits n` is the number of decimal
digits of `n`, and the text
`Job <n> <dest>` with its terminating NUL takes `12 + count_digits n` bytes,
one more than the `11 + count_digits n` bytes of the buffer `jobDesc`. -/
theorem job_description_overflows_buffer (n : Nat) (dest : CString) (hn : 1 ≤ n)
    (hd : dest = "stdout".toList ∨ dest = "stderr".toList) :
    count_digits n = (Nat.toDigits 10 n).length ∧
    job_description_bytes n dest = 12 + count_digits n ∧
    job_description_bytes n dest = job_description_buffer n + 1 ∧
    ¬ job_description_bytes n dest ≤ job_description_buffer n := by
  have hc := count_digits_eq n hn
  have hlen : dest.length = 6 := by
    rcases hd with h | h <;> subst h <;> rfl
  have hb : job_description_bytes n dest = 12 + count_digits n := by
    unfold job_description_bytes job_description
    simp only [List.length_append, hlen, ← hc]
    have e1 : "Job ".toList.length = 4 := rfl
    have e2 : " ".toList.length = 1 := rfl
    rw [e1, e2]
    omega
  refine ⟨hc, hb, ?_, ?_⟩
  · rw [hb]; unfold job_description_buffer; omega
  · rw [hb]; unfold job_description_buffer; omega

theorem job_description_overflows_buffer_witness :
    count_digits 1 = (Nat.toDigits 10 1).length ∧
    job_description_bytes 1 "stdout".toList = 12 + count_digits 1 ∧
    job_description_bytes 1 "stdout".toList = job_description_buffer 1 + 1 ∧
    ¬ job_description_bytes 1 "stdout".toList ≤ job_description_buffer 1 :=
  job_description_overflows_buffer 1 "stdout".toList (by decide) (Or.inl rfl)

end TestUqWordiply
